import Mathlib

/-!
Verification of the psld puzzle-level core: a shallow embedding of the
grid data model, the perimeter-shooter simulator (`sim.py`), slots
derivation (`slots_from_top.py`), lane-reachability ordering
(`backward_slots.py`), the BFS solver (`solver.py`) and the top
rebalancer (`top_rebalance.py` / `component_split.py`), together with
theorems settling the specified properties.

Conventions: Python `int` is `Int`; `None` cells are `Option.none`;
Python exceptions are `Except PyErr`; loops without a structural
termination measure carry a fuel argument whose exhaustion is the
distinguished error `PyErr.fuel` (fuels are chosen provably or
evidently larger than the number of iterations the Python code makes).
-/

set_option maxHeartbeats 1600000

namespace Psld

/-- Python exception kinds raised by the embedded code. -/
inductive PyErr where
  | valueError : String → PyErr
  | runtimeError : String → PyErr
  | indexError : PyErr
  | keyError : PyErr
  | fuel : PyErr
deriving Repr, DecidableEq

instance {ε α : Type} [DecidableEq ε] [DecidableEq α] : DecidableEq (Except ε α) :=
  fun a b =>
  match a, b with
  | Except.error e, Except.error f =>
    if h : e = f then isTrue (by rw [h]) else isFalse (fun hc => by cases hc; exact h rfl)
  | Except.ok x, Except.ok y =>
    if h : x = y then isTrue (by rw [h]) else isFalse (fun hc => by cases hc; exact h rfl)
  | Except.error _, Except.ok _ => isFalse (fun hc => by cases hc)
  | Except.ok _, Except.error _ => isFalse (fun hc => by cases hc)

/-- A cell of a color grid: a palette index or empty (`None`). -/
abbrev Cell := Option Int

/-- A color grid: a list of rows of cells, row-major. -/
abbrev Grid := List (List Cell)

/-- Read a cell, returning empty outside the stored lists (used where the
Python code has already established the index is in range). -/
def getCell (g : Grid) (x y : Nat) : Cell := (g.getD y []).getD x none

/-- In-range cell write (used where the Python code has already
established the index is in range; `List.set` is the identity out of range). -/
def setCellN (g : Grid) (x y : Nat) (v : Cell) : Grid :=
  g.set y ((g.getD y []).set x v)

/-- The grid has `h` rows of exactly `w` cells each. -/
def Rect (g : Grid) (w h : Nat) : Prop := g.length = h ∧ ∀ r ∈ g, r.length = w

/-- Python list read `l[i]` for a nonnegative index: raises `IndexError`
out of range. -/
def pyGetL {α : Type} (l : List α) (i : Nat) : Except PyErr α :=
  match l.get? i with
  | some a => Except.ok a
  | none => Except.error PyErr.indexError

/-- Python index resolution for `l[i]` with an `int` index: negative
indices wrap once, anything still out of `[0, n)` raises `IndexError`. -/
def pyIdx (n : Nat) (i : Int) : Except PyErr Nat :=
  let j := if i < 0 then i + n else i
  if 0 ≤ j ∧ j < (n : Int) then Except.ok j.toNat else Except.error PyErr.indexError

/-- Python list read `l[i]` with an `int` index. -/
def pyGetI {α : Type} (l : List α) (i : Int) : Except PyErr α := do
  let j ← pyIdx l.length i
  pyGetL l j

/-- Python 2-d assignment `g[y][x] = v` with `int` indices. -/
def pySetCellI (g : Grid) (x y : Int) (v : Cell) : Except PyErr Grid := do
  let j ← pyIdx g.length y
  let row ← pyGetL g j
  let i ← pyIdx row.length x
  pure (g.set j (row.set i v))

/-- Python 2-d read `g[y][x]` with `int` indices. -/
def pyGetCellI (g : Grid) (x y : Int) : Except PyErr Cell := do
  let j ← pyIdx g.length y
  let row ← pyGetL g j
  pyGetI row x

/-! ## sim.py -/

/-- A perimeter shooter (`sim.Shooter`). -/
structure Shooter where
  color : Int
  ammo : Int
  pos : Int
deriving Repr, DecidableEq

/-- Simulator configuration (`sim.GameConfig`). -/
structure GameConfig where
  conveyor_capacity : Int
  entrance_pos : Int
  move_then_fire : Bool
deriving Repr, DecidableEq

/-- `sim.perimeter_len`. -/
def perimeter_len (w h : Int) : Int := 2 * w + 2 * h

/-- The four board sides. -/
inductive Side where
  | top | right | bottom | left
deriving Repr, DecidableEq

/-- `sim.pos_to_side_lane`. -/
def pos_to_side_lane (pos w h : Int) : Except PyErr (Side × Int) :=
  let L := perimeter_len w h
  if ¬ (0 ≤ pos ∧ pos < L) then Except.error (PyErr.valueError ("pos out of range"))
  else if pos < w then Except.ok (Side.top, pos)
  else
    let p1 := pos - w
    if p1 < h then Except.ok (Side.right, p1)
    else
      let p2 := p1 - h
      if p2 < w then Except.ok (Side.bottom, (w - 1) - p2)
      else Except.ok (Side.left, (h - 1) - (p2 - w))

/-- `min`-accumulator used by the extrema caches. -/
def updMin (o : Option Nat) (v : Nat) : Option Nat :=
  match o with
  | none => some v
  | some m => some (min m v)

/-- `max`-accumulator used by the extrema caches. -/
def updMax (o : Option Nat) (v : Nat) : Option Nat :=
  match o with
  | none => some v
  | some m => some (max m v)

/-- Row/column extrema lists `(row_min, row_max, col_min, col_max)`. -/
abbrev Ext4 := List (Option Nat) × List (Option Nat) × List (Option Nat) × List (Option Nat)

/-- One cell's contribution to the extrema caches. -/
def extremaStep (slots : Grid) (acc : Except PyErr Ext4) (y x : Nat) : Except PyErr Ext4 := do
  let a ← acc
  let row ← pyGetL slots y
  let c ← pyGetL row x
  match c with
  | none => pure a
  | some _ =>
    let (rmin, rmax, cmin, cmax) := a
    let rmin := rmin.set y (updMin (rmin.getD y none) x)
    let rmax := rmax.set y (updMax (rmax.getD y none) x)
    let cmin := cmin.set x (updMin (cmin.getD x none) y)
    let cmax := cmax.set x (updMax (cmax.getD x none) y)
    pure (rmin, rmax, cmin, cmax)

/-- `sim._row_col_extrema`. -/
def row_col_extrema (slots : Grid) : Except PyErr Ext4 :=
  let h := slots.length
  let w := (slots.headD []).length
  (List.range h).foldl
    (fun acc y => (List.range w).foldl (fun acc x => extremaStep slots acc y x) acc)
    (Except.ok (List.replicate h none, List.replicate h none,
                List.replicate w none, List.replicate w none))

/-- `sim._target_for_lane`: the slot a shooter on `side`/`lane` would hit. -/
def target_for_lane (side : Side) (lane : Int) (ext : Ext4) :
    Except PyErr (Option (Int × Int)) := do
  let (rmin, rmax, cmin, cmax) := ext
  match side with
  | Side.left => do
    let o ← pyGetI rmin lane
    pure (o.map (fun x => ((x : Int), lane)))
  | Side.right => do
    let o ← pyGetI rmax lane
    pure (o.map (fun x => ((x : Int), lane)))
  | Side.top => do
    let o ← pyGetI cmin lane
    pure (o.map (fun y => (lane, (y : Int))))
  | Side.bottom => do
    let o ← pyGetI cmax lane
    pure (o.map (fun y => (lane, (y : Int))))

/-- Firing phase of `sim.tick`: process shooters in sorted order; a hit
removes the slot and top cell and recomputes the extrema. -/
def tick_fire_loop (w h : Int) :
    List Shooter → Grid → Grid → Ext4 → Int → List Shooter →
    Except PyErr (Grid × Grid × List Shooter × Int)
  | [], ntop, nslots, _, shots, out => Except.ok (ntop, nslots, out, shots)
  | sh :: rest, ntop, nslots, ext, shots, out =>
    match pos_to_side_lane sh.pos w h with
    | Except.error e => Except.error e
    | Except.ok sl =>
      match target_for_lane sl.1 sl.2 ext with
      | Except.error e => Except.error e
      | Except.ok none => tick_fire_loop w h rest ntop nslots ext shots (out ++ [sh])
      | Except.ok (some (tx, ty)) =>
        match pyGetCellI nslots tx ty with
        | Except.error e => Except.error e
        | Except.ok none => tick_fire_loop w h rest ntop nslots ext shots (out ++ [sh])
        | Except.ok (some cv) =>
          if cv ≠ sh.color then
            tick_fire_loop w h rest ntop nslots ext shots (out ++ [sh])
          else
            match pySetCellI nslots tx ty none with
            | Except.error e => Except.error e
            | Except.ok nslots2 =>
              match pySetCellI ntop tx ty none with
              | Except.error e => Except.error e
              | Except.ok ntop2 =>
                match row_col_extrema nslots2 with
                | Except.error e => Except.error e
                | Except.ok ext2 =>
                  let na := sh.ammo - 1
                  let out2 := if na > 0 then out ++ [Shooter.mk sh.color na sh.pos] else out
                  tick_fire_loop w h rest ntop2 nslots2 ext2 (shots + 1) out2

/-- Stable insertion of `a` into `l` (before the first element not below `a`). -/
def insertSorted {α : Type} (le : α → α → Bool) (a : α) : List α → List α
  | [] => [a]
  | b :: t => if le a b then a :: b :: t else b :: insertSorted le a t

/-- Stable sort (insertion sort), modelling Python's `list.sort`: Python
guarantees a stable sort and the orders used here are total, so any
stable sort is behaviorally identical. -/
def pySort {α : Type} (le : α → α → Bool) : List α → List α
  | [] => []
  | a :: t => insertSorted le a (pySort le t)

/-- Sorting key order used by `tick`: `(pos, color, ammo)` lexicographic. -/
def shooterLe (a b : Shooter) : Bool :=
  if a.pos ≠ b.pos then a.pos ≤ b.pos
  else if a.color ≠ b.color then a.color ≤ b.color
  else a.ammo ≤ b.ammo

/-- `sim.tick`: move (if configured), sort, fire, move (otherwise). -/
def tick (top slots : Grid) (shooters : List Shooter) (w h : Int) (cfg : GameConfig) :
    Except PyErr (Grid × Grid × List Shooter × Int) :=
  if perimeter_len w h ≤ 0 then Except.ok (top, slots, shooters, 0)
  else
    match row_col_extrema slots with
    | Except.error e => Except.error e
    | Except.ok ext =>
      match tick_fire_loop w h
          (pySort shooterLe (if cfg.move_then_fire
            then shooters.map
              (fun s => Shooter.mk s.color s.ammo ((s.pos + 1) % perimeter_len w h))
            else shooters)) top slots ext 0 [] with
      | Except.error e => Except.error e
      | Except.ok (ntop, nslots, out, shots) =>
        Except.ok (ntop, nslots,
          (if cfg.move_then_fire then out
           else out.map
             (fun s => Shooter.mk s.color s.ammo ((s.pos + 1) % perimeter_len w h))),
          shots)

/-- BFS loop of `sim.connected_component` (fuel ≥ number of queue pops,
which is at most `w*h`). -/
def ccLoop (top : Grid) (cv : Int) (w h : Nat) :
    Nat → List (Nat × Nat) → List (Nat × Nat) → List (Nat × Nat) →
    Except PyErr (List (Nat × Nat))
  | 0, _, _, _ => Except.error PyErr.fuel
  | _ + 1, [], _, out => Except.ok out
  | fuel + 1, (x, y) :: qrest, seen, out =>
    let out2 := out ++ [(x, y)]
    let dirs : List (Int × Int) := [(1, 0), (-1, 0), (0, 1), (0, -1)]
    let step := fun (qs : List (Nat × Nat) × List (Nat × Nat)) (d : Int × Int) =>
      let (q, seen) := qs
      let nx : Int := (x : Int) + d.1
      let ny : Int := (y : Int) + d.2
      if 0 ≤ nx ∧ nx < (w : Int) ∧ 0 ≤ ny ∧ ny < (h : Int) ∧
          ¬ (nx.toNat, ny.toNat) ∈ seen ∧ getCell top nx.toNat ny.toNat = some cv then
        (q ++ [(nx.toNat, ny.toNat)], seen ++ [(nx.toNat, ny.toNat)])
      else (q, seen)
    let qs2 := dirs.foldl step (qrest, seen)
    ccLoop top cv w h fuel qs2.1 qs2.2 out2

/-- `sim.connected_component`: 4-neighborhood flood fill of the top grid
from `(x0, y0)`; empty result when out of bounds or on an empty cell. -/
def connected_component (top : Grid) (x0 y0 : Int) : Except PyErr (List (Nat × Nat)) :=
  if ¬ (0 ≤ x0 ∧ x0 < ((top.headD []).length : Int) ∧ 0 ≤ y0 ∧ y0 < (top.length : Int)) then
    Except.ok []
  else
    match getCell top x0.toNat y0.toNat with
    | none => Except.ok []
    | some cv =>
      ccLoop top cv (top.headD []).length top.length
        ((top.headD []).length * top.length + 1)
        [(x0.toNat, y0.toNat)] [(x0.toNat, y0.toNat)] []

/-- `sim.apply_tap`: `ok none` is Python's `None` (invalid tap), errors
only arise from embedding fuel. -/
def apply_tap (top slots : Grid) (shooters : List Shooter)
    (tap_xy : Int × Int) (cfg : GameConfig) :
    Except PyErr (Option (Grid × Grid × List Shooter)) :=
  if (shooters.length : Int) ≥ cfg.conveyor_capacity then Except.ok none
  else do
    let pts ← connected_component top tap_xy.1 tap_xy.2
    if pts.isEmpty then pure none
    else
      match getCell top tap_xy.1.toNat tap_xy.2.toNat with
      | none => pure none
      | some color =>
        let new_top := pts.foldl (fun g p => setCellN g p.1 p.2 none) top
        pure (some (new_top, slots,
          shooters ++ [Shooter.mk color (pts.length : Int) cfg.entrance_pos]))

/-- `sim.is_win`: all slot cells empty. -/
def is_win (slots : Grid) : Bool := slots.all (fun row => row.all (fun c => c = none))

/-- One extremum's contribution to the exposed-colors set. -/
def addExposed (slots : Grid) (acc : List Int) (o : Option Nat) (isRow : Bool) (i : Nat) :
    List Int :=
  match o with
  | none => acc
  | some j =>
    let c := if isRow then getCell slots j i else getCell slots i j
    match c with
    | none => acc
    | some cv => if cv ∈ acc then acc else acc ++ [cv]

/-- `sim.any_shot_possible`: some shooter color matches an exposed slot. -/
def any_shot_possible (slots : Grid) (shooters : List Shooter) (w h : Nat) :
    Except PyErr Bool := do
  if shooters.isEmpty then pure false
  else do
    let ext ← row_col_extrema slots
    let (rmin, rmax, cmin, cmax) := ext
    let colors := (List.range h).foldl (fun acc y =>
      let acc := addExposed slots acc (rmin.getD y none) true y
      addExposed slots acc (rmax.getD y none) true y) []
    let colors := (List.range w).foldl (fun acc x =>
      let acc := addExposed slots acc (cmin.getD x none) false x
      addExposed slots acc (cmax.getD x none) false x) colors
    pure (shooters.any (fun s => s.color ∈ colors))

/-- `sim.is_deadlock`. -/
def is_deadlock (slots : Grid) (shooters : List Shooter) (w h : Nat) (cfg : GameConfig) :
    Except PyErr Bool := do
  let poss ← any_shot_possible slots shooters w h
  pure ((shooters.length : Int) ≥ cfg.conveyor_capacity ∧ ¬ poss)

/-! ## slots_from_top.py -/

/-- `slots_from_top.SlotsDeriveResult`. -/
structure SlotsDeriveResult where
  cells : Grid
  mode : String
  shift : Int
  same_cell_count : Int
  occupied_cells : Int
deriving Repr, DecidableEq

/-- Occupied cells of a `w×h` grid in scan order (y-major then x-major),
with their colors: the iteration `for y in range(h): for x in range(w)`
keeping cells `≠ None`. -/
def occupiedScan (g : Grid) (w h : Nat) : List ((Nat × Nat) × Int) :=
  (List.range h).flatMap (fun y =>
    (List.range w).filterMap (fun x =>
      (getCell g x y).map (fun c => ((x, y), c))))

/-- An all-empty `w×h` grid. -/
def allNoneGrid (w h : Nat) : Grid := List.replicate h (List.replicate w none)

/-- Number of occupied cells carrying color `c` (`counts[c]`). -/
def countOf (scan : List ((Nat × Nat) × Int)) (c : Int) : Nat :=
  (scan.filter (fun pc => pc.2 = c)).length

/-- Scan-order positions of the cells carrying color `c`
(`pos_by_color[c]`). -/
def posOf (scan : List ((Nat × Nat) × Int)) (c : Int) : List (Nat × Nat) :=
  (scan.filter (fun pc => pc.2 = c)).map Prod.fst

/-- The distinct colors of the scan in ascending order
(`sorted(pos_by_color)`). -/
def sortedColors (scan : List ((Nat × Nat) × Int)) : List Int :=
  pySort (fun a b => a ≤ b) (scan.map Prod.snd).dedup

/-- Dinic solver state (`slots_from_top._Dinic`): parallel edge arrays,
forward/backward edges at consecutive indices (`rev e = e xor 1`). -/
structure Dinic where
  n : Nat
  adj : List (List Nat)
  to_ : List Nat
  cap : List Int
  nxt : List Nat
deriving Repr, DecidableEq

/-- `_Dinic.add_edge`: append the forward edge (capacity `c`) and its
reverse (capacity `0`), updating the adjacency and bookkeeping arrays in
Python's order. -/
def Dinic.add_edge (g : Dinic) (u v : Nat) (c : Int) : Dinic :=
  let e := g.to_.length
  let adj1 := g.adj.set u ((g.adj.getD u []) ++ [e])
  let to1 := g.to_ ++ [v]
  let cap1 := g.cap ++ [c]
  let nxt1 := g.nxt ++ [(adj1.getD v []).length]
  let adj2 := adj1.set v ((adj1.getD v []) ++ [e + 1])
  let to2 := to1 ++ [u]
  let cap2 := cap1 ++ [0]
  let nxt2 := nxt1 ++ [(adj2.getD u []).length - 1]
  Dinic.mk g.n adj2 to2 cap2 nxt2

/-- BFS phase of `_Dinic.max_flow`: Python's `for u in q` over a growing
queue, labelling unvisited residual neighbors; fuel bounds the number of
processed queue entries (each node is enqueued at most once). -/
def bfsLoop (g : Dinic) (cap : List Int) :
    Nat → List Nat → Nat → List Int → Option (List Int)
  | 0, _, _, _ => none
  | fuel + 1, q, i, level =>
    if hq : i < q.length then
      let u := q.get ⟨i, hq⟩
      let st := (g.adj.getD u []).foldl (fun (ql : List Nat × List Int) ei =>
        if cap.getD ei 0 > 0 ∧ (ql.2.getD (g.to_.getD ei 0) (-1)) < 0 then
          (ql.1 ++ [g.to_.getD ei 0],
           ql.2.set (g.to_.getD ei 0) ((ql.2.getD u (-1)) + 1))
        else ql) (q, level)
      bfsLoop g cap fuel st.1 (i + 1) st.2
    else some level

/-- DFS of `_Dinic.max_flow` (the inner `dfs`): scans `adj[u]` from index
`i` (persisted in `it`), descending along admissible level edges. The
Python entry test `u == t` is performed inline on each edge target (the
function is only entered at `u ≠ t`). Fuel bounds the recursion depth. -/
def dfsLoop (g : Dinic) (level : List Int) (t : Nat)
    (fuel : Nat) (u : Nat) (f : Int) (cap : List Int) (it : List Nat) (i : Nat) :
    Option (Int × List Int × List Nat) :=
  if i < (g.adj.getD u []).length then
    if cap.getD ((g.adj.getD u []).getD i 0) 0 ≤ 0 ∨
        level.getD (g.to_.getD ((g.adj.getD u []).getD i 0) 0) (-1) ≠ level.getD u (-1) + 1 then
      dfsLoop g level t fuel u f cap (it.set u i) (i + 1)
    else
      match (if g.to_.getD ((g.adj.getD u []).getD i 0) 0 = t then
          some (min f (cap.getD ((g.adj.getD u []).getD i 0) 0), cap, it.set u i)
        else if fuel = 0 then none
        else dfsLoop g level t (fuel - 1) (g.to_.getD ((g.adj.getD u []).getD i 0) 0)
          (min f (cap.getD ((g.adj.getD u []).getD i 0) 0)) cap (it.set u i)
          ((it.set u i).getD (g.to_.getD ((g.adj.getD u []).getD i 0) 0) 0)) with
      | none => none
      | some (pushed, cap2, it2) =>
        if pushed ≠ 0 then
          some (pushed,
            (cap2.set ((g.adj.getD u []).getD i 0)
                (cap2.getD ((g.adj.getD u []).getD i 0) 0 - pushed)).set
              (((g.adj.getD u []).getD i 0) ^^^ 1)
              ((cap2.set ((g.adj.getD u []).getD i 0)
                  (cap2.getD ((g.adj.getD u []).getD i 0) 0 - pushed)).getD
                (((g.adj.getD u []).getD i 0) ^^^ 1) 0 + pushed),
            it2)
        else dfsLoop g level t fuel u f cap2 it2 (i + 1)
  else some (0, cap, it)
termination_by (fuel, (g.adj.getD u []).length - i)
decreasing_by
  · apply Prod.Lex.right
    omega
  · apply Prod.Lex.left
    omega
  · apply Prod.Lex.right
    omega

/-- Blocking-flow loop of `_Dinic.max_flow`: repeat `dfs(s, INF)` until it
pushes nothing, accumulating the pushed flow; fuel bounds the number of
positive pushes. -/
def dinicInner (g : Dinic) (level : List Int) (s t : Nat) (dfsFuel : Nat) :
    Nat → Int → List Int → List Nat → Option (Int × List Int)
  | 0, _, _, _ => none
  | fuel + 1, flow, cap, it =>
    match (if s = t then some (((10 : Int) ^ 18), cap, it)
      else dfsLoop g level t dfsFuel s ((10 : Int) ^ 18) cap it (it.getD s 0)) with
    | none => none
    | some (pushed, cap2, it2) =>
      if pushed ≠ 0 then dinicInner g level s t dfsFuel fuel (flow + pushed) cap2 it2
      else some (flow, cap2)

/-- Phase loop of `_Dinic.max_flow`: BFS levels, stop when the sink is
unreachable, otherwise run the blocking flow and repeat. -/
def dinicOuter (g : Dinic) (s t : Nat) (dfsFuel innerFuel : Nat) :
    Nat → Int → List Int → Option (Int × List Int)
  | 0, _, _ => none
  | fuel + 1, flow, cap =>
    match bfsLoop g cap (g.n + 2) [s] 0 ((List.replicate g.n (-1)).set s 0) with
    | none => none
    | some level =>
      if level.getD t (-1) < 0 then some (flow, cap)
      else
        match dinicInner g level s t dfsFuel innerFuel 0 cap (List.replicate g.n 0) with
        | none => none
        | some (add, cap2) => dinicOuter g s t dfsFuel innerFuel fuel (flow + add) cap2

/-- `_Dinic.max_flow` with explicit fuels: returns the computed flow and
the final capacity array (Python mutates `self.cap`). -/
def Dinic.max_flow (g : Dinic) (s t : Nat) (dfsFuel innerFuel outerFuel : Nat) :
    Option (Int × List Int) :=
  dinicOuter g s t dfsFuel innerFuel outerFuel 0 g.cap

/-- The edge-insertion list of the derangement network, in Python's
order: for each color index `i`, the source→group and assigned→sink edges
of capacity `counts[i]`; then, group-major, the `∞`-capacity group→assigned
edges for every pair of distinct colors. -/
def derangementOps (K : Nat) (cnt : Nat → Int) : List (Nat × Nat × Int) :=
  ((List.range K).flatMap (fun i => [(0, 1 + i, cnt i), (1 + K + i, 1 + 2 * K, cnt i)])) ++
  ((List.range K).flatMap (fun fi =>
    (List.range K).filterMap (fun ai =>
      if ai = fi then none else some (1 + fi, 1 + K + ai, (10 : Int) ^ 9))))

/-- Build a `Dinic` graph from an edge list. -/
def buildGraph (n : Nat) (ops : List (Nat × Nat × Int)) : Dinic :=
  ops.foldl (fun g uvc => g.add_edge uvc.1 uvc.2.1 uvc.2.2)
    (Dinic.mk n (List.replicate n []) [] [] [])

/-- The alloc dictionary `alloc[(f, a)] = sent`, scanning each group
node's adjacency for edges into assigned-color nodes with positive flow
(stored on the reverse edge), in Python's insertion order. -/
def allocList (g : Dinic) (capF : List Int) (colors : List Int) (K : Nat) :
    List ((Int × Int) × Int) :=
  (List.range K).flatMap (fun fi =>
    (g.adj.getD (1 + fi) []).filterMap (fun ei =>
      let v := g.to_.getD ei 0
      if 1 + K ≤ v ∧ v < 1 + K + K then
        if colors.getD (v - (1 + K)) 0 = colors.getD fi 0 then none
        else
          let sent := capF.getD (ei ^^^ 1) 0
          if sent > 0 then
            some ((colors.getD fi 0, colors.getD (v - (1 + K)) 0), sent)
          else none
      else none))

/-- `alloc.get((f, a), 0)`. -/
def allocGet (al : List ((Int × Int) × Int)) (f a : Int) : Int :=
  match al.find? (fun x => x.1 = (f, a)) with
  | some x => x.2
  | none => 0

/-- The sequence of assigned colors for group `f`: for each other color
`a` in ascending order, `alloc.get((f,a), 0)` copies of `a`. The Python
loop walks `pts` with a running index while consuming exactly this
sequence. -/
def colorSeq (colors : List Int) (al : List ((Int × Int) × Int)) (f : Int) : List Int :=
  colors.flatMap (fun a =>
    if a = f then [] else List.replicate (allocGet al f a).toNat a)

/-- Fill one group's positions with its assigned color sequence: the
Python index loop raises `IndexError` when the positions run out early
and `RuntimeError` when positions remain unfilled. -/
def fillGroup : Grid → List (Nat × Nat) → List Int → Except PyErr Grid
  | out, [], [] => Except.ok out
  | _, _ :: _, [] => Except.error (PyErr.runtimeError ("Internal error: allocation did not fill group"))
  | _, [], _ :: _ => Except.error PyErr.indexError
  | out, p :: ptsr, a :: seqr => fillGroup (setCellN out p.1 p.2 (some a)) ptsr seqr

/-- Fill every group in ascending color order. -/
def fillAll (colors : List Int) (scan : List ((Nat × Nat) × Int))
    (al : List ((Int × Int) × Int)) :
    List Int → Grid → Except PyErr Grid
  | [], out => Except.ok out
  | f :: rest, out =>
    match fillGroup out (posOf scan f) (colorSeq colors al f) with
    | Except.error e => Except.error e
    | Except.ok out2 => fillAll colors scan al rest out2

/-- The per-cell match count of the final verification loop. -/
def sameCellCount (top out : Grid) (w h : Nat) : Nat :=
  ((List.range h).map (fun y => ((List.range w).filter (fun x =>
    match getCell top x y with
    | none => false
    | some tc => getCell out x y = some tc)).length)).sum

/-- Body of `_derive_slots_derangement` after the shape validation, with
the grid dimensions `w`, `h` made explicit: feasibility checks, flow
construction and solution, allocation extraction, fill, and the final
per-cell verification. -/
def derangementCore (top_cells : Grid) (w h : Nat) : Except PyErr SlotsDeriveResult :=
  let scan := occupiedScan top_cells w h
  let colors := sortedColors scan
  let n := scan.length
  if n = 0 then
    Except.ok (SlotsDeriveResult.mk (allNoneGrid w h) ("derangement") 0 0 0)
  else if colors.length = 1 then
    Except.error (PyErr.valueError
      ("Cannot derive slots with per-cell mismatch using only 1 color"))
  else if 2 * ((colors.map (countOf scan)).foldl max 0) > n then
    Except.error (PyErr.valueError
      ("Cannot derive slots with per-cell mismatch: dominant color has more than half of the occupied cells"))
  else
    let K := colors.length
    let g := buildGraph (2 * K + 2)
      (derangementOps K (fun i => (countOf scan (colors.getD i 0) : Int)))
    match g.max_flow 0 (2 * K + 1) (2 * K + 4) (n + 2) (n + 2) with
    | none => Except.error PyErr.fuel
    | some (flowed, capF) =>
      if flowed ≠ (n : Int) then
        Except.error (PyErr.valueError
          ("Could not find a per-cell mismatch assignment (flow infeasible)"))
      else
        let al := allocList g capF colors K
        match fillAll colors scan al colors (allNoneGrid w h) with
        | Except.error e => Except.error e
        | Except.ok out =>
          if sameCellCount top_cells out w h ≠ 0 then
            Except.error (PyErr.runtimeError
              ("Internal error: derangement produced same-cell matches"))
          else
            Except.ok (SlotsDeriveResult.mk out ("derangement") 0 0 (n : Int))

/-- `slots_from_top._derive_slots_derangement`. -/
def derive_slots_derangement (top_cells : Grid) : Except PyErr SlotsDeriveResult :=
  if top_cells.length = 0 ∨ (top_cells.headD []).length = 0 then
    Except.ok (SlotsDeriveResult.mk [] ("derangement") 0 0 0)
  else if ¬ (top_cells.all (fun r => r.length = (top_cells.headD []).length)) then
    Except.error (PyErr.valueError ("top_cells must be rectangular"))
  else
    derangementCore top_cells (top_cells.headD []).length top_cells.length

/-- One shift's same-cell count (`same_count_for_shift`). -/
def same_count_for_shift (vals : List Int) (k : Nat) : Nat :=
  ((List.range vals.length).filter (fun i =>
    vals.getD i 0 = vals.getD ((i + k) % vals.length) 0)).length

/-- The best-shift search of rotate mode: scan `k = 2, …, n-1` keeping the
first shift with the fewest matches, stopping early at zero. -/
def best_shift_loop (vals : List Int) : List Nat → Nat × Nat → Nat × Nat
  | [], acc => acc
  | k :: rest, acc =>
    let s := same_count_for_shift vals k
    if s < acc.2 then
      if s = 0 then (k, s) else best_shift_loop vals rest (k, s)
    else best_shift_loop vals rest acc

/-- Write the rotated values back at the scan positions
(`out[y][x] = vals[(i + k) % n]`). -/
def placeRotated (ps : List (Nat × Nat)) (vals : List Int) (k : Nat) (g0 : Grid) : Grid :=
  ps.enum.foldl (fun g ip =>
    setCellN g ip.2.1 ip.2.2 (some (vals.getD ((ip.1 + k) % vals.length) 0))) g0

/-- `slots_from_top.derive_slots_from_top`. -/
def derive_slots_from_top (top_cells : Grid) (mode : String) (rotate_shift : Option Int) :
    Except PyErr SlotsDeriveResult :=
  if top_cells.length = 0 ∨ (top_cells.headD []).length = 0 then
    Except.ok (SlotsDeriveResult.mk [] mode 0 0 0)
  else if ¬ (top_cells.all (fun r => r.length = (top_cells.headD []).length)) then
    Except.error (PyErr.valueError ("top_cells must be rectangular"))
  else if mode = "same" then
    Except.ok (SlotsDeriveResult.mk top_cells mode 0
      (((top_cells.flatMap id).filter (fun c => c.isSome)).length : Int)
      (((top_cells.flatMap id).filter (fun c => c.isSome)).length : Int))
  else if mode = "derangement" then
    derive_slots_derangement top_cells
  else if mode ≠ "rotate" then
    Except.error (PyErr.valueError ("Unknown slots derive mode"))
  else
    let scan := occupiedScan top_cells (top_cells.headD []).length top_cells.length
    let vals := scan.map Prod.snd
    let n := vals.length
    if n = 0 then
      Except.ok (SlotsDeriveResult.mk
        (allNoneGrid (top_cells.headD []).length top_cells.length) mode 0 0 0)
    else if n = 1 then
      Except.ok (SlotsDeriveResult.mk
        (setCellN (allNoneGrid (top_cells.headD []).length top_cells.length)
          ((scan.headD ((0, 0), 0)).1.1) ((scan.headD ((0, 0), 0)).1.2)
          (some (vals.getD 0 0)))
        mode 0 1 1)
    else
      let ks : Nat × Nat := match rotate_shift with
        | none => best_shift_loop vals (List.range' 2 (n - 2))
            (1, same_count_for_shift vals 1)
        | some rs =>
          let k0 := (rs % (n : Int)).toNat
          let k1 := if k0 = 0 then 1 else k0
          (k1, same_count_for_shift vals k1)
      Except.ok (SlotsDeriveResult.mk
        (placeRotated (scan.map Prod.fst) vals ks.1
          (allNoneGrid (top_cells.headD []).length top_cells.length))
        mode (ks.1 : Int) (ks.2 : Int) (n : Int))

/-! ## backward_slots.py -/

/-- `models.Pos` (coordinates produced by the ordering code are always
the nonnegative grid coordinates). -/
structure Pos where
  x : Nat
  y : Nat
deriving Repr, DecidableEq

/-- Read a mask cell (callers have validated rectangularity, so reads are
in range). -/
def getMask (mask : List (List Bool)) (x y : Nat) : Bool :=
  (mask.getD y []).getD x false

/-- Length of the initial run of `true` entries. -/
def runLen : List Bool → Nat
  | [] => 0
  | b :: t => if b then runLen t + 1 else 0

/-- `backward_slots._depth_fn`'s depth: on an occupied cell, for each of
the four cardinal directions Python walks until the boundary or the first
empty cell, taking `1 + (run of occupied neighbours)` steps; the depth is
the minimum of the four. Callers only use it on validated rectangular
masks. -/
def depthPy (mask : List (List Bool)) (x y : Nat) : Nat :=
  if ¬ getMask mask x y then 0
  else
    min (min (1 + runLen (((mask.getD y []).take x).reverse))
             (1 + runLen ((mask.getD y []).drop (x + 1))))
        (min (1 + runLen (((mask.map (fun r => r.getD x false)).take y).reverse))
             (1 + runLen ((mask.map (fun r => r.getD x false)).drop (y + 1))))

/-- `backward_slots._row_extrema`: `(min xs, max xs)` of the present
x-coordinates of row `y`. -/
def row_extrema (present : List (Nat × Nat)) (y : Nat) : Option (Nat × Nat) :=
  match (present.filter (fun p => p.2 = y)).map Prod.fst with
  | [] => none
  | a :: t => some (t.foldl min a, t.foldl max a)

/-- `backward_slots._col_extrema`. -/
def col_extrema (present : List (Nat × Nat)) (x : Nat) : Option (Nat × Nat) :=
  match (present.filter (fun p => p.1 = x)).map Prod.snd with
  | [] => none
  | a :: t => some (t.foldl min a, t.foldl max a)

/-- `backward_slots.is_exposed`. -/
def is_exposed (mask : List (List Bool)) (present : List (Nat × Nat)) (p : Pos) : Bool :=
  if ¬ getMask mask p.x p.y then false
  else if ¬ ((p.x, p.y) ∈ present) then false
  else if (match row_extrema present p.y with
           | none => false
           | some mm => p.x = mm.1 ∨ p.x = mm.2) then true
  else if (match col_extrema present p.x with
           | none => false
           | some mm => p.y = mm.1 ∨ p.y = mm.2) then true
  else false

/-- The present-cell set of a `w×h` mask, in scan order (Python builds it
as a set comprehension; only its membership is observable). -/
def maskPresent (mask : List (List Bool)) (w h : Nat) : List (Nat × Nat) :=
  (List.range h).flatMap (fun y => (List.range w).filterMap (fun x =>
    if getMask mask x y then some (x, y) else none))

/-- One cell's update of the generation loop's extrema arrays. -/
def extStep (e : Ext4) (p : Nat × Nat) : Ext4 :=
  (e.1.set p.2 (updMin (e.1.getD p.2 none) p.1),
   e.2.1.set p.2 (updMax (e.2.1.getD p.2 none) p.1),
   e.2.2.1.set p.1 (updMin (e.2.2.1.getD p.1 none) p.2),
   e.2.2.2.set p.1 (updMax (e.2.2.2.getD p.1 none) p.2))

/-- The per-step extrema arrays of the `generate_backward_place_order`
loop, accumulated over the present cells (pointwise min/max: the result
is independent of the iteration order Python uses on its set). -/
def presExtrema (w h : Nat) (present : List (Nat × Nat)) : Ext4 :=
  present.foldl extStep
    (List.replicate h none, List.replicate h none,
     List.replicate w none, List.replicate w none)

/-- Strict lexicographic order on selection keys `(depth, y, x)`. -/
def keyLt (a b : Nat × Nat × Nat) : Bool :=
  decide (a.1 < b.1 ∨ (a.1 = b.1 ∧ (a.2.1 < b.2.1 ∨ (a.2.1 = b.2.1 ∧ a.2.2 < b.2.2))))

/-- The exposure test of the generation loop, read off the extrema
arrays: `p` is a row or column extremum of the present set. -/
def extremalCond (e : Ext4) (p : Nat × Nat) : Prop :=
  e.1.getD p.2 none = some p.1 ∨ e.2.1.getD p.2 none = some p.1 ∨
  e.2.2.1.getD p.1 none = some p.2 ∨ e.2.2.2.getD p.1 none = some p.2

instance (e : Ext4) (p : Nat × Nat) : Decidable (extremalCond e p) := by
  unfold extremalCond
  infer_instance

/-- One candidate-comparison step of the selection loop. -/
def pickStep (mask : List (List Bool)) (e : Ext4)
    (best : Option (Nat × Nat)) (p : Nat × Nat) : Option (Nat × Nat) :=
  if extremalCond e p then
    match best with
    | none => some p
    | some q =>
      if keyLt (depthPy mask p.1 p.2, p.2, p.1) (depthPy mask q.1 q.2, q.2, q.1)
      then some p else best
  else best

/-- One selection of the generation loop: among the present cells that
are row or column extrema, the one minimizing `(depth, y, x)`. Python
iterates a set, but keys embed `(y, x)` so the argmin is unique and
iteration-order independent. -/
def pickBest (mask : List (List Bool)) (w h : Nat) (present : List (Nat × Nat)) :
    Option (Nat × Nat) :=
  present.foldl (pickStep mask (presExtrema w h present)) none

/-- The removal loop of `generate_backward_place_order`: repeatedly pick
and remove an exposed cell. One cell is removed per iteration, so the
fuel `|present| + 1` passed by the caller never runs out. -/
def genLoop (mask : List (List Bool)) (w h : Nat) :
    Nat → List (Nat × Nat) → List Pos → Except PyErr (List Pos)
  | 0, _, _ => Except.error PyErr.fuel
  | fuel + 1, present, forward =>
    if present.isEmpty then Except.ok forward
    else
      match pickBest mask w h present with
      | none => Except.error (PyErr.valueError
          ("Internal error: no exposed slot found for non-empty present set"))
      | some b => genLoop mask w h fuel (present.erase b) (forward ++ [Pos.mk b.1 b.2])

/-- Step loop of `verify_forward_remove_order`. -/
def verifyLoop (mask : List (List Bool)) :
    List (Nat × Nat) → List Pos → Except PyErr Unit
  | present, [] =>
    if present.isEmpty then Except.ok ()
    else Except.error (PyErr.valueError ("Forward order ended early; slots remain present"))
  | present, p :: rest =>
    if ¬ ((p.x, p.y) ∈ present) then
      Except.error (PyErr.valueError ("removing a slot not present"))
    else if ¬ (is_exposed mask present p = true) then
      Except.error (PyErr.valueError ("slot not exposed or reachable at removal time"))
    else verifyLoop mask (present.erase (p.x, p.y)) rest

/-- `backward_slots.verify_forward_remove_order`. -/
def verify_forward_remove_order (mask : List (List Bool)) (order : List Pos) :
    Except PyErr Unit :=
  verifyLoop mask (maskPresent mask (mask.headD []).length mask.length) order

/-- `backward_slots.generate_backward_place_order`. -/
def generate_backward_place_order (mask : List (List Bool)) : Except PyErr (List Pos) :=
  if mask.length = 0 then Except.error (PyErr.valueError ("mask must be non-empty"))
  else if ¬ (mask.all (fun r => r.length = (mask.headD []).length)) then
    Except.error (PyErr.valueError ("mask must be rectangular"))
  else
    if (maskPresent mask (mask.headD []).length mask.length).isEmpty then Except.ok []
    else
      match genLoop mask (mask.headD []).length mask.length
          ((maskPresent mask (mask.headD []).length mask.length).length + 1)
          (maskPresent mask (mask.headD []).length mask.length) [] with
      | Except.error e => Except.error e
      | Except.ok forward =>
        match verify_forward_remove_order mask forward with
        | Except.error e => Except.error e
        | Except.ok _ => Except.ok forward.reverse

/-! ## Basic grid lemmas -/

/-- Row lookup after a row replacement. -/
theorem getD_set_row (g : Grid) (j y : Nat) (r' : List Cell) :
    (g.set j r').getD y [] = if j = y ∧ j < g.length then r' else g.getD y [] := by
  rw [List.getD_eq_getElem?_getD (g.set j r') y, List.getElem?_set]
  by_cases hjy : j = y
  · subst hjy
    by_cases hjl : j < g.length
    · simp [hjl]
    · have hnone : g[j]? = none := List.getElem?_eq_none (by omega)
      simp [hjl, List.getD_eq_getElem?_getD, hnone]
  · have hni : ¬ (j = y ∧ j < g.length) := fun hc => hjy hc.1
    simp [hjy, hni, List.getD_eq_getElem?_getD]

theorem mem_occupiedScan {g : Grid} {w h x y : Nat} {c : Int} :
    ((x, y), c) ∈ occupiedScan g w h ↔ x < w ∧ y < h ∧ getCell g x y = some c := by
  simp only [occupiedScan, List.mem_flatMap, List.mem_filterMap, List.mem_range,
    Option.map_eq_some']
  constructor
  · rintro ⟨y', hy', x', hx', cc, hcc, heq⟩
    obtain ⟨h1, h2⟩ := Prod.mk.injEq _ _ _ _ ▸ heq
    obtain ⟨hx0, hy0⟩ := Prod.mk.injEq _ _ _ _ ▸ h1
    subst hx0; subst hy0; subst h2
    exact ⟨hx', hy', hcc⟩
  · rintro ⟨hx, hy, hc⟩
    exact ⟨y, hy, x, hx, c, hc, rfl⟩

theorem getCell_allNone (w h x y : Nat) : getCell (allNoneGrid w h) x y = none := by
  unfold getCell allNoneGrid
  rw [List.getD_eq_getElem?_getD (List.replicate h (List.replicate w none)) y,
      List.getElem?_replicate]
  by_cases hy : y < h
  · rw [if_pos hy]
    simp only [Option.getD_some]
    rw [List.getD_eq_getElem?_getD, List.getElem?_replicate]
    by_cases hx : x < w
    · rw [if_pos hx]; rfl
    · rw [if_neg hx]; rfl
  · rw [if_neg hy]; rfl

theorem allNone_row (w h y : Nat) (hy : y < h) :
    (allNoneGrid w h).getD y [] = List.replicate w none := by
  unfold allNoneGrid
  rw [List.getD_eq_getElem?_getD, List.getElem?_replicate, if_pos hy]
  rfl

theorem rect_allNone (w h : Nat) : Rect (allNoneGrid w h) w h := by
  constructor
  · simp [allNoneGrid]
  · intro r hr
    have hr' : r ∈ List.replicate h (List.replicate w (none : Cell)) := hr
    rw [List.eq_of_mem_replicate hr']
    simp

theorem rect_setCellN {g : Grid} {w h : Nat} (hg : Rect g w h) (x y : Nat) (v : Cell) :
    Rect (setCellN g x y v) w h := by
  by_cases hy : y < g.length
  · constructor
    · simp [setCellN, hg.1]
    · intro r hr
      rcases List.mem_or_eq_of_mem_set hr with hmem | heq
      · exact hg.2 r hmem
      · subst heq
        rw [List.length_set]
        apply hg.2
        have hrow : g.getD y [] = g[y] := by
          rw [List.getD_eq_getElem?_getD, List.getElem?_eq_getElem hy]
          rfl
        rw [hrow]
        exact List.getElem_mem hy
  · unfold setCellN
    rw [List.set_eq_of_length_le (by omega)]
    exact hg

theorem getCell_setCellN_self {g : Grid} {x y : Nat} (v : Cell)
    (hy : y < g.length) (hx : x < (g.getD y []).length) :
    getCell (setCellN g x y v) x y = v := by
  unfold getCell setCellN
  rw [getD_set_row, if_pos ⟨rfl, hy⟩, List.getD_eq_getElem?_getD,
    List.getElem?_set_self (by simpa using hx)]
  rfl

theorem getCell_setCellN_ne {g : Grid} {x y a b : Nat} (v : Cell)
    (hne : ¬ (x = a ∧ y = b)) :
    getCell (setCellN g x y v) a b = getCell g a b := by
  unfold getCell setCellN
  rw [getD_set_row]
  by_cases hyb : y = b ∧ y < g.length
  · rw [if_pos hyb]
    have hxa : x ≠ a := fun hc => hne ⟨hc, hyb.1⟩
    rw [List.getD_eq_getElem?_getD, List.getElem?_set_ne hxa, hyb.1,
      ← List.getD_eq_getElem?_getD]
  · rw [if_neg hyb]

/-- Two `w×h` rectangular grids with equal cells are equal. -/
theorem rect_ext {g g' : Grid} {w h : Nat} (hg : Rect g w h) (hg' : Rect g' w h)
    (heq : ∀ x y, x < w → y < h → getCell g x y = getCell g' x y) : g = g' := by
  have hlen : g.length = g'.length := by rw [hg.1, hg'.1]
  apply List.ext_getElem hlen
  intro y h1 h2
  have hyh : y < h := by rw [← hg.1]; exact h1
  have hw1 : (g[y]).length = w := hg.2 _ (List.getElem_mem h1)
  have hw2 : (g'[y]).length = w := hg'.2 _ (List.getElem_mem h2)
  apply List.ext_getElem (by rw [hw1, hw2])
  intro x hx1 hx2
  have hxw : x < w := by rw [← hw1]; exact hx1
  have hc := heq x y hxw hyh
  unfold getCell at hc
  have e1 : g.getD y [] = g[y] := by
    rw [List.getD_eq_getElem?_getD, List.getElem?_eq_getElem h1]; rfl
  have e2 : g'.getD y [] = g'[y] := by
    rw [List.getD_eq_getElem?_getD, List.getElem?_eq_getElem h2]; rfl
  rw [e1, e2] at hc
  have e3 : (g[y]).getD x none = g[y][x] := by
    rw [List.getD_eq_getElem?_getD, List.getElem?_eq_getElem hx1]; rfl
  have e4 : (g'[y]).getD x none = g'[y][x] := by
    rw [List.getD_eq_getElem?_getD, List.getElem?_eq_getElem hx2]; rfl
  rw [e3, e4] at hc
  exact hc

/-! ## Lemmas for the lane-reachability ordering -/

theorem getD_set_self {α : Type} (l : List α) (i : Nat) (v d : α) (h : i < l.length) :
    (l.set i v).getD i d = v := by
  rw [List.getD_eq_getElem?_getD, List.getElem?_set_self h]
  rfl

theorem getD_set_ne {α : Type} (l : List α) {i j : Nat} (v d : α) (h : i ≠ j) :
    (l.set i v).getD j d = l.getD j d := by
  rw [List.getD_eq_getElem?_getD, List.getElem?_set_ne h, ← List.getD_eq_getElem?_getD]

theorem getD_replicate_none {α : Type} (n i : Nat) (d : α) :
    (List.replicate n d).getD i d = d := by
  rw [List.getD_eq_getElem?_getD, List.getElem?_replicate]
  by_cases hi : i < n
  · rw [if_pos hi]; rfl
  · rw [if_neg hi]; rfl

/-- Optional running minimum of a list (`min(xs)` when nonempty). -/
def listMinO (xs : List Nat) : Option Nat := xs.foldl updMin none

/-- Optional running maximum of a list (`max(xs)` when nonempty). -/
def listMaxO (xs : List Nat) : Option Nat := xs.foldl updMax none

theorem foldl_updMin_some (t : List Nat) : ∀ m, t.foldl updMin (some m) = some (t.foldl min m) := by
  induction t with
  | nil => intro m; rfl
  | cons a t ih => intro m; exact ih (min m a)

theorem foldl_updMax_some (t : List Nat) : ∀ m, t.foldl updMax (some m) = some (t.foldl max m) := by
  induction t with
  | nil => intro m; rfl
  | cons a t ih => intro m; exact ih (max m a)

theorem listMinO_cons (a : Nat) (t : List Nat) : listMinO (a :: t) = some (t.foldl min a) := by
  unfold listMinO
  show t.foldl updMin (updMin none a) = _
  exact foldl_updMin_some t a

theorem listMaxO_cons (a : Nat) (t : List Nat) : listMaxO (a :: t) = some (t.foldl max a) := by
  unfold listMaxO
  show t.foldl updMax (updMax none a) = _
  exact foldl_updMax_some t a

theorem foldl_min_mem (t : List Nat) : ∀ a, t.foldl min a ∈ a :: t := by
  induction t with
  | nil => intro a; simp
  | cons b t ih =>
    intro a
    have := ih (min a b)
    rcases min_choice a b with hc | hc <;> rw [hc] at this <;>
      simp only [List.foldl_cons, hc] <;> rcases List.mem_cons.mp this with h1 | h1 <;>
      simp [h1]

theorem foldl_max_mem (t : List Nat) : ∀ a, t.foldl max a ∈ a :: t := by
  induction t with
  | nil => intro a; simp
  | cons b t ih =>
    intro a
    have := ih (max a b)
    rcases max_choice a b with hc | hc <;> rw [hc] at this <;>
      simp only [List.foldl_cons, hc] <;> rcases List.mem_cons.mp this with h1 | h1 <;>
      simp [h1]

theorem extStep_lengths (e : Ext4) (p : Nat × Nat) :
    (extStep e p).1.length = e.1.length ∧ (extStep e p).2.1.length = e.2.1.length ∧
    (extStep e p).2.2.1.length = e.2.2.1.length ∧
    (extStep e p).2.2.2.length = e.2.2.2.length := by
  unfold extStep
  simp [List.length_set]

theorem presExtrema_go_rmin (l : List (Nat × Nat)) :
    ∀ (e : Ext4) (y : Nat), y < e.1.length →
      ((l.foldl extStep e).1.getD y none) =
        ((l.filter (fun p => p.2 = y)).map Prod.fst).foldl updMin (e.1.getD y none) := by
  induction l with
  | nil => intro e y _; rfl
  | cons p l ih =>
    intro e y hy
    rw [List.foldl_cons]
    rw [ih (extStep e p) y (by rw [(extStep_lengths e p).1]; exact hy)]
    by_cases hpy : p.2 = y
    · subst hpy
      have : (extStep e p).1.getD p.2 none = updMin (e.1.getD p.2 none) p.1 :=
        getD_set_self _ _ _ _ hy
      rw [this]
      simp [List.filter_cons]
    · have : (extStep e p).1.getD y none = e.1.getD y none :=
        getD_set_ne _ _ _ (fun hc => hpy hc)
      rw [this]
      simp only [List.filter_cons, decide_eq_true_eq, if_neg hpy]

theorem presExtrema_go_rmax (l : List (Nat × Nat)) :
    ∀ (e : Ext4) (y : Nat), y < e.2.1.length →
      ((l.foldl extStep e).2.1.getD y none) =
        ((l.filter (fun p => p.2 = y)).map Prod.fst).foldl updMax (e.2.1.getD y none) := by
  induction l with
  | nil => intro e y _; rfl
  | cons p l ih =>
    intro e y hy
    rw [List.foldl_cons]
    rw [ih (extStep e p) y (by rw [(extStep_lengths e p).2.1]; exact hy)]
    by_cases hpy : p.2 = y
    · subst hpy
      have : (extStep e p).2.1.getD p.2 none = updMax (e.2.1.getD p.2 none) p.1 :=
        getD_set_self _ _ _ _ hy
      rw [this]
      simp [List.filter_cons]
    · have : (extStep e p).2.1.getD y none = e.2.1.getD y none :=
        getD_set_ne _ _ _ (fun hc => hpy hc)
      rw [this]
      simp only [List.filter_cons, decide_eq_true_eq, if_neg hpy]

theorem presExtrema_go_cmin (l : List (Nat × Nat)) :
    ∀ (e : Ext4) (x : Nat), x < e.2.2.1.length →
      ((l.foldl extStep e).2.2.1.getD x none) =
        ((l.filter (fun p => p.1 = x)).map Prod.snd).foldl updMin (e.2.2.1.getD x none) := by
  induction l with
  | nil => intro e x _; rfl
  | cons p l ih =>
    intro e x hx
    rw [List.foldl_cons]
    rw [ih (extStep e p) x (by rw [(extStep_lengths e p).2.2.1]; exact hx)]
    by_cases hpx : p.1 = x
    · subst hpx
      have : (extStep e p).2.2.1.getD p.1 none = updMin (e.2.2.1.getD p.1 none) p.2 :=
        getD_set_self _ _ _ _ hx
      rw [this]
      simp [List.filter_cons]
    · have : (extStep e p).2.2.1.getD x none = e.2.2.1.getD x none :=
        getD_set_ne _ _ _ (fun hc => hpx hc)
      rw [this]
      simp only [List.filter_cons, decide_eq_true_eq, if_neg hpx]

theorem presExtrema_go_cmax (l : List (Nat × Nat)) :
    ∀ (e : Ext4) (x : Nat), x < e.2.2.2.length →
      ((l.foldl extStep e).2.2.2.getD x none) =
        ((l.filter (fun p => p.1 = x)).map Prod.snd).foldl updMax (e.2.2.2.getD x none) := by
  induction l with
  | nil => intro e x _; rfl
  | cons p l ih =>
    intro e x hx
    rw [List.foldl_cons]
    rw [ih (extStep e p) x (by rw [(extStep_lengths e p).2.2.2]; exact hx)]
    by_cases hpx : p.1 = x
    · subst hpx
      have : (extStep e p).2.2.2.getD p.1 none = updMax (e.2.2.2.getD p.1 none) p.2 :=
        getD_set_self _ _ _ _ hx
      rw [this]
      simp [List.filter_cons]
    · have : (extStep e p).2.2.2.getD x none = e.2.2.2.getD x none :=
        getD_set_ne _ _ _ (fun hc => hpx hc)
      rw [this]
      simp only [List.filter_cons, decide_eq_true_eq, if_neg hpx]

theorem presExtrema_rmin (w h : Nat) (present : List (Nat × Nat)) (y : Nat) (hy : y < h) :
    (presExtrema w h present).1.getD y none =
      listMinO ((present.filter (fun p => p.2 = y)).map Prod.fst) := by
  unfold presExtrema listMinO
  rw [presExtrema_go_rmin present _ y (by simp [hy])]
  rw [getD_replicate_none]

theorem presExtrema_rmax (w h : Nat) (present : List (Nat × Nat)) (y : Nat) (hy : y < h) :
    (presExtrema w h present).2.1.getD y none =
      listMaxO ((present.filter (fun p => p.2 = y)).map Prod.fst) := by
  unfold presExtrema listMaxO
  rw [presExtrema_go_rmax present _ y (by simp [hy])]
  rw [getD_replicate_none]

theorem presExtrema_cmin (w h : Nat) (present : List (Nat × Nat)) (x : Nat) (hx : x < w) :
    (presExtrema w h present).2.2.1.getD x none =
      listMinO ((present.filter (fun p => p.1 = x)).map Prod.snd) := by
  unfold presExtrema listMinO
  rw [presExtrema_go_cmin present _ x (by simp [hx])]
  rw [getD_replicate_none]

theorem presExtrema_cmax (w h : Nat) (present : List (Nat × Nat)) (x : Nat) (hx : x < w) :
    (presExtrema w h present).2.2.2.getD x none =
      listMaxO ((present.filter (fun p => p.1 = x)).map Prod.snd) := by
  unfold presExtrema listMaxO
  rw [presExtrema_go_cmax present _ x (by simp [hx])]
  rw [getD_replicate_none]

theorem mem_maskPresent {mask : List (List Bool)} {w h x y : Nat} :
    (x, y) ∈ maskPresent mask w h ↔ x < w ∧ y < h ∧ getMask mask x y = true := by
  simp only [maskPresent, List.mem_flatMap, List.mem_filterMap, List.mem_range]
  constructor
  · rintro ⟨y', hy', x', hx', hcond⟩
    split at hcond
    · rename_i hm
      cases hcond
      exact ⟨hx', hy', hm⟩
    · cases hcond
  · rintro ⟨hx, hy, hm⟩
    exact ⟨y, hy, x, hx, by rw [if_pos hm]⟩

theorem mem_maskPresent_snd {mask : List (List Bool)} {w y : Nat} {a : Nat × Nat} :
    a ∈ (List.range w).filterMap
      (fun x => if getMask mask x y then some (x, y) else none) → a.2 = y := by
  intro ha
  rw [List.mem_filterMap] at ha
  obtain ⟨x, _, hx⟩ := ha
  split at hx
  · cases hx; rfl
  · cases hx

theorem nodup_maskPresent (mask : List (List Bool)) (w h : Nat) :
    (maskPresent mask w h).Nodup := by
  unfold maskPresent
  rw [List.nodup_flatMap]
  constructor
  · intro y _
    apply List.Nodup.filterMap
    · intro x1 x2 b hb1 hb2
      split at hb1
      · split at hb2
        · cases hb1; cases hb2; rfl
        · cases hb2
      · cases hb1
    · exact List.nodup_range w
  · have hpw : (List.range h).Pairwise (· < ·) := List.pairwise_lt_range h
    refine hpw.imp ?_
    intro y1 y2 hlt
    intro a ha1 ha2
    have e1 := mem_maskPresent_snd ha1
    have e2 := mem_maskPresent_snd ha2
    omega

theorem pickStep_cases (mask : List (List Bool)) (e : Ext4)
    (best : Option (Nat × Nat)) (p : Nat × Nat) :
    pickStep mask e best p = best ∨
    (pickStep mask e best p = some p ∧ extremalCond e p) := by
  unfold pickStep
  by_cases hc : extremalCond e p
  · rw [if_pos hc]
    cases best with
    | none => right; exact ⟨rfl, hc⟩
    | some q =>
      dsimp only
      split
      · right; exact ⟨rfl, hc⟩
      · left; rfl
  · rw [if_neg hc]
    left; rfl

theorem pickFold_sound (mask : List (List Bool)) (e : Ext4) :
    ∀ (l : List (Nat × Nat)) (acc : Option (Nat × Nat)) (b : Nat × Nat),
      l.foldl (pickStep mask e) acc = some b →
      acc = some b ∨ (b ∈ l ∧ extremalCond e b) := by
  intro l
  induction l with
  | nil => intro acc b hb; exact Or.inl hb
  | cons p l ih =>
    intro acc b hb
    rw [List.foldl_cons] at hb
    rcases ih _ b hb with hstep | hmem
    · rcases pickStep_cases mask e acc p with h1 | h1
      · left; rw [← h1]; exact hstep
      · right
        rw [h1.1] at hstep
        cases hstep
        exact ⟨List.mem_cons_self _ _, h1.2⟩
    · exact Or.inr ⟨List.mem_cons_of_mem _ hmem.1, hmem.2⟩

theorem pickFold_some (mask : List (List Bool)) (e : Ext4) :
    ∀ (l : List (Nat × Nat)) (q : Nat × Nat),
      ∃ b, l.foldl (pickStep mask e) (some q) = some b := by
  intro l
  induction l with
  | nil => intro q; exact ⟨q, rfl⟩
  | cons p l ih =>
    intro q
    rw [List.foldl_cons]
    rcases pickStep_cases mask e (some q) p with h1 | h1
    · rw [h1]; exact ih q
    · rw [h1.1]; exact ih p

theorem pickFold_some_of_cond (mask : List (List Bool)) (e : Ext4) :
    ∀ (l : List (Nat × Nat)) (acc : Option (Nat × Nat)),
      (∃ p ∈ l, extremalCond e p) →
      ∃ b, l.foldl (pickStep mask e) acc = some b := by
  intro l
  induction l with
  | nil => rintro acc ⟨p, hp, _⟩; cases hp
  | cons p l ih =>
    rintro acc ⟨p', hp', hc'⟩
    rw [List.foldl_cons]
    rcases List.mem_cons.mp hp' with rfl | hmem
    · rcases pickStep_cases mask e acc p' with h1 | h1
      · rw [h1]
        cases acc with
        | none =>
          exfalso
          unfold pickStep at h1
          rw [if_pos hc'] at h1
          cases h1
        | some q => exact pickFold_some mask e l q
      · rw [h1.1]; exact pickFold_some mask e l p'
    · exact ih _ ⟨p', hmem, hc'⟩

/-- For a present cell of an in-bounds set, the array-based exposure test
of the generation loop agrees with `is_exposed`. -/
theorem extremalCond_iff_exposed {mask : List (List Bool)} {w h : Nat}
    {present : List (Nat × Nat)} (hb : ∀ p ∈ present, p.1 < w ∧ p.2 < h)
    {b : Nat × Nat} (hmem : b ∈ present) (hmask : getMask mask b.1 b.2 = true) :
    extremalCond (presExtrema w h present) b ↔
      is_exposed mask present (Pos.mk b.1 b.2) = true := by
  obtain ⟨hbx, hby⟩ := hb b hmem
  have hxr : b.1 ∈ (present.filter (fun p => p.2 = b.2)).map Prod.fst := by
    exact List.mem_map_of_mem _ (List.mem_filter.mpr ⟨hmem, by simp⟩)
  have hxc : b.2 ∈ (present.filter (fun p => p.1 = b.1)).map Prod.snd := by
    exact List.mem_map_of_mem _ (List.mem_filter.mpr ⟨hmem, by simp⟩)
  cases hrow : (present.filter (fun p => p.2 = b.2)).map Prod.fst with
  | nil => rw [hrow] at hxr; cases hxr
  | cons a t =>
    cases hcol : (present.filter (fun p => p.1 = b.1)).map Prod.snd with
    | nil => rw [hcol] at hxc; cases hxc
    | cons c u =>
      have hrm : (presExtrema w h present).1.getD b.2 none = some (t.foldl min a) := by
        rw [presExtrema_rmin w h present b.2 hby, hrow, listMinO_cons]
      have hrM : (presExtrema w h present).2.1.getD b.2 none = some (t.foldl max a) := by
        rw [presExtrema_rmax w h present b.2 hby, hrow, listMaxO_cons]
      have hcm : (presExtrema w h present).2.2.1.getD b.1 none = some (u.foldl min c) := by
        rw [presExtrema_cmin w h present b.1 hbx, hcol, listMinO_cons]
      have hcM : (presExtrema w h present).2.2.2.getD b.1 none = some (u.foldl max c) := by
        rw [presExtrema_cmax w h present b.1 hbx, hcol, listMaxO_cons]
      have hre : row_extrema present b.2 = some (t.foldl min a, t.foldl max a) := by
        unfold row_extrema
        rw [hrow]
      have hce : col_extrema present b.1 = some (u.foldl min c, u.foldl max c) := by
        unfold col_extrema
        rw [hcol]
      unfold extremalCond is_exposed
      dsimp only
      simp only [hrm, hrM, hcm, hcM, hre, hce, Option.some.injEq, decide_eq_true_eq]
      rw [if_neg (by simp [hmask]), if_neg (by simp [hmem])]
      constructor
      · intro hc
        by_cases h1 : b.1 = t.foldl min a ∨ b.1 = t.foldl max a
        · rw [if_pos h1]
        · have h2 : b.2 = u.foldl min c ∨ b.2 = u.foldl max c := by
            rcases hc with hc | hc | hc | hc
            · exact absurd (Or.inl hc.symm) h1
            · exact absurd (Or.inr hc.symm) h1
            · exact Or.inl hc.symm
            · exact Or.inr hc.symm
          rw [if_neg h1, if_pos h2]
      · intro hexp
        by_cases h1 : b.1 = t.foldl min a ∨ b.1 = t.foldl max a
        · rcases h1 with h1 | h1
          · exact Or.inl h1.symm
          · exact Or.inr (Or.inl h1.symm)
        · rw [if_neg h1] at hexp
          by_cases h2 : b.2 = u.foldl min c ∨ b.2 = u.foldl max c
          · rcases h2 with h2 | h2
            · exact Or.inr (Or.inr (Or.inl h2.symm))
            · exact Or.inr (Or.inr (Or.inr h2.symm))
          · rw [if_neg h2] at hexp
            cases hexp

/-- A nonempty in-bounds present set has an exposed cell (its row's
minimal x). -/
theorem exists_extremalCond {w h : Nat}
    {present : List (Nat × Nat)} (hb : ∀ p ∈ present, p.1 < w ∧ p.2 < h)
    (hne : present ≠ []) :
    ∃ p ∈ present, extremalCond (presExtrema w h present) p := by
  cases hpres : present with
  | nil => exact absurd hpres hne
  | cons p0 rest =>
    rw [← hpres]
    have hp0 : p0 ∈ present := by rw [hpres]; exact List.mem_cons_self _ _
    have hxr : p0.1 ∈ (present.filter (fun p => p.2 = p0.2)).map Prod.fst :=
      List.mem_map_of_mem _ (List.mem_filter.mpr ⟨hp0, by simp⟩)
    cases hrow : (present.filter (fun p => p.2 = p0.2)).map Prod.fst with
    | nil => rw [hrow] at hxr; cases hxr
    | cons a t =>
      have hmin_mem : t.foldl min a ∈ (present.filter (fun p => p.2 = p0.2)).map Prod.fst := by
        rw [hrow]; exact foldl_min_mem t a
      rw [List.mem_map] at hmin_mem
      obtain ⟨q, hqf, hq1⟩ := hmin_mem
      have hqmem : q ∈ present := (List.mem_filter.mp hqf).1
      have hq2 : q.2 = p0.2 := by
        have := (List.mem_filter.mp hqf).2
        simpa using this
      refine ⟨q, hqmem, Or.inl ?_⟩
      rw [hq2, presExtrema_rmin w h present p0.2 (hb p0 hp0).2, hrow, listMinO_cons, hq1]

/-- `l ~ a :: l.erase a` for the product `BEq` instance used by the
embedding. -/
theorem perm_cons_erase_pair {a : Nat × Nat} :
    ∀ {l : List (Nat × Nat)}, a ∈ l → l.Perm (a :: l.erase a) := by
  intro l
  induction l with
  | nil => intro h; cases h
  | cons b t ih =>
    intro h
    rw [List.erase_cons]
    by_cases hba : b = a
    · subst hba
      rw [if_pos (by simp)]
    · rw [if_neg (by simp [hba])]
      rcases List.mem_cons.mp h with rfl | hmem
      · exact absurd rfl hba
      · exact ((ih hmem).cons b).trans (List.Perm.swap a b (t.erase a))

/-- The generation loop succeeds on any valid present set, and its output
is a permutation of the present set that the verifier accepts. -/
theorem genLoop_ok (mask : List (List Bool)) (w h : Nat) :
    ∀ (n : Nat) (present : List (Nat × Nat)) (forward : List Pos),
      present.length ≤ n → present.Nodup →
      (∀ p ∈ present, p.1 < w ∧ p.2 < h) →
      (∀ p ∈ present, getMask mask p.1 p.2 = true) →
      ∃ rest : List Pos,
        genLoop mask w h (n + 1) present forward = Except.ok (forward ++ rest) ∧
        (rest.map (fun q => (q.x, q.y))).Perm present ∧
        verifyLoop mask present rest = Except.ok () := by
  intro n
  induction n with
  | zero =>
    intro present forward hlen _ _ _
    have hnil : present = [] := List.length_eq_zero.mp (Nat.le_zero.mp hlen)
    subst hnil
    exact ⟨[], by rw [genLoop]; simp, List.Perm.refl _, by rw [verifyLoop]; rfl⟩
  | succ n ih =>
    intro present forward hlen hnd hb hm
    by_cases hemp : present.isEmpty
    · have hnil : present = [] := List.isEmpty_iff.mp hemp
      subst hnil
      exact ⟨[], by rw [genLoop]; simp, List.Perm.refl _, by rw [verifyLoop]; rfl⟩
    · have hne : present ≠ [] := fun hc => hemp (by rw [hc]; rfl)
      obtain ⟨b, hbpick⟩ := pickFold_some_of_cond mask (presExtrema w h present) present none
        (exists_extremalCond hb hne)
      have hsound := pickFold_sound mask (presExtrema w h present) present none b hbpick
      rcases hsound with hc | ⟨hbmem, hbcond⟩
      · cases hc
      have hbmask : getMask mask b.1 b.2 = true := hm b hbmem
      have hexp : is_exposed mask present (Pos.mk b.1 b.2) = true :=
        (extremalCond_iff_exposed hb hbmem hbmask).mp hbcond
      have hlen' : (present.erase b).length ≤ n := by
        rw [List.length_erase_of_mem hbmem]
        have := List.length_pos.mpr hne
        omega
      obtain ⟨rest', hgen', hperm', hver'⟩ := ih (present.erase b)
        (forward ++ [Pos.mk b.1 b.2]) hlen' (hnd.erase b)
        (fun p hp => hb p (List.erase_subset _ _ hp))
        (fun p hp => hm p (List.erase_subset _ _ hp))
      refine ⟨Pos.mk b.1 b.2 :: rest', ?_, ?_, ?_⟩
      · rw [genLoop, if_neg hemp]
        have hpb : pickBest mask w h present = some b := hbpick
        rw [hpb]
        dsimp only
        rw [hgen', List.append_assoc]
        rfl
      · show ((b.1, b.2) :: rest'.map (fun q => (q.x, q.y))).Perm present
        have h1 : ((b.1, b.2) :: rest'.map (fun q => (q.x, q.y))).Perm
            ((b.1, b.2) :: present.erase b) := hperm'.cons _
        have hbeta : b = (b.1, b.2) := rfl
        have h2 : present.Perm ((b.1, b.2) :: present.erase b) := by
          rw [← hbeta]
          exact perm_cons_erase_pair hbmem
        exact h1.trans h2.symm
      · rw [verifyLoop]
        rw [if_neg (by simp [hbmem]), if_neg (by simp [hexp])]
        have hbeta : ((Pos.mk b.1 b.2).x, (Pos.mk b.1 b.2).y) = b := rfl
        rw [hbeta]
        exact hver'

/-- Shared specification of `generate_backward_place_order` on a
validated rectangular mask: it succeeds, the backward order enumerates
the present set exactly once, and its reversal passes the verifier. -/
theorem generate_spec (mask : List (List Bool)) (w h : Nat)
    (hl : mask.length = h) (hall : ∀ r ∈ mask, r.length = w) (hh : 0 < h) :
    ∃ backward, generate_backward_place_order mask = Except.ok backward ∧
      (backward.map (fun q => (q.x, q.y))).Perm (maskPresent mask w h) ∧
      verify_forward_remove_order mask backward.reverse = Except.ok () := by
  have hhead : (mask.headD []).length = w := by
    cases mask with
    | nil => simp at hl; omega
    | cons r t => exact hall r (by simp)
  have hlen0 : ¬ mask.length = 0 := by omega
  have hallb : mask.all (fun r => r.length = (mask.headD []).length) = true := by
    rw [List.all_eq_true]
    intro r hr
    simp only [decide_eq_true_eq, hhead]
    exact hall r hr
  have hbound : ∀ p ∈ maskPresent mask w h, p.1 < w ∧ p.2 < h := by
    intro p hp
    have : (p.1, p.2) ∈ maskPresent mask w h := hp
    have := mem_maskPresent.mp this
    exact ⟨this.1, this.2.1⟩
  have hmaskp : ∀ p ∈ maskPresent mask w h, getMask mask p.1 p.2 = true := by
    intro p hp
    have : (p.1, p.2) ∈ maskPresent mask w h := hp
    exact (mem_maskPresent.mp this).2.2
  unfold generate_backward_place_order
  rw [if_neg hlen0, if_neg (not_not_intro hallb), hhead, hl]
  by_cases hemp : (maskPresent mask w h).isEmpty
  · rw [if_pos hemp]
    have hnil : maskPresent mask w h = [] := List.isEmpty_iff.mp hemp
    refine ⟨[], rfl, by rw [hnil]; exact List.Perm.refl [], ?_⟩
    unfold verify_forward_remove_order
    rw [hhead, hl, hnil]
    rw [show ([] : List Pos).reverse = [] from rfl, verifyLoop]
    rfl
  · rw [if_neg hemp]
    obtain ⟨rest, hgen, hperm, hver⟩ := genLoop_ok mask w h
      (maskPresent mask w h).length (maskPresent mask w h) [] (le_refl _)
      (nodup_maskPresent mask w h) hbound hmaskp
    rw [List.nil_append] at hgen
    have hverify : verify_forward_remove_order mask rest = Except.ok () := by
      unfold verify_forward_remove_order
      rw [hhead, hl]
      exact hver
    rw [hgen]
    dsimp only
    rw [hverify]
    refine ⟨rest.reverse, rfl, ?_, ?_⟩
    · rw [List.map_reverse]
      exact (List.reverse_perm _).trans hperm
    · rw [List.reverse_reverse]
      exact hverify

/-! ## Reachability soundness (claim C2) -/

/-- C2: for every rectangular mask with at least one foreground cell, the
generated backward order exists, lists each foreground cell exactly once
(no duplicates, and membership coincides with the mask's present set),
and replaying its reversal through `verify_forward_remove_order` succeeds:
every step removes a present row/column extremum and nothing remains. -/
theorem C2_reachability_soundness (mask : List (List Bool)) (w h : Nat)
    (hl : mask.length = h) (hall : ∀ r ∈ mask, r.length = w)
    (hfg : maskPresent mask w h ≠ []) :
    ∃ backward, generate_backward_place_order mask = Except.ok backward ∧
      backward.Nodup ∧
      (∀ q : Pos, q ∈ backward ↔ (q.x, q.y) ∈ maskPresent mask w h) ∧
      verify_forward_remove_order mask backward.reverse = Except.ok () := by
  have hh : 0 < h := by
    rcases Nat.eq_zero_or_pos h with hz | hp
    · exfalso
      apply hfg
      subst hz
      rfl
    · exact hp
  obtain ⟨backward, hok, hperm, hver⟩ := generate_spec mask w h hl hall hh
  refine ⟨backward, hok, ?_, ?_, hver⟩
  · have hnd : (backward.map (fun q => (q.x, q.y))).Nodup :=
      hperm.nodup_iff.mpr (nodup_maskPresent mask w h)
    exact hnd.of_map _
  · intro q
    constructor
    · intro hq
      exact hperm.mem_iff.mp (List.mem_map_of_mem _ hq)
    · intro hq
      have := hperm.mem_iff.mpr hq
      rw [List.mem_map] at this
      obtain ⟨q', hq', heq⟩ := this
      have : q' = q := by
        cases q; cases q'
        simp only [Prod.mk.injEq] at heq
        simp [heq.1, heq.2]
      rw [← this]
      exact hq'

/-- Witness for C2: the 1×1 full mask. -/
theorem C2_reachability_soundness_witness :
    ([[true]] : List (List Bool)).length = 1 ∧ (∀ r ∈ [[true]], r.length = 1) ∧
    maskPresent [[true]] 1 1 ≠ [] ∧
    (∃ backward, generate_backward_place_order [[true]] = Except.ok backward ∧
      backward.Nodup ∧
      (∀ q : Pos, q ∈ backward ↔ (q.x, q.y) ∈ maskPresent [[true]] 1 1) ∧
      verify_forward_remove_order [[true]] backward.reverse = Except.ok ()) :=
  ⟨rfl, by decide, by decide,
    C2_reachability_soundness [[true]] 1 1 rfl (by decide) (by decide)⟩

/-! ## The generation loop never fails internally (claim C6) -/

/-- C6: on a rectangular mask with at least one occupied cell,
`generate_backward_place_order` raises nothing: in every iteration the
nonempty present set has a row/column extremum, so the internal
`no exposed slot found` error branch is unreachable and the call returns
a result. -/
theorem C6_generate_never_fails (mask : List (List Bool)) (w h : Nat)
    (hl : mask.length = h) (hall : ∀ r ∈ mask, r.length = w)
    (hfg : maskPresent mask w h ≠ []) :
    ∃ backward, generate_backward_place_order mask = Except.ok backward := by
  have hh : 0 < h := by
    rcases Nat.eq_zero_or_pos h with hz | hp
    · exact absurd (hz ▸ rfl) hfg
    · exact hp
  obtain ⟨backward, hok, _, _⟩ := generate_spec mask w h hl hall hh
  exact ⟨backward, hok⟩

/-- Witness for C6: an L-shaped 2×2 mask. -/
theorem C6_generate_never_fails_witness :
    ([[true, true], [true, false]] : List (List Bool)).length = 2 ∧
    (∀ r ∈ [[true, true], [true, false]], r.length = 2) ∧
    maskPresent [[true, true], [true, false]] 2 2 ≠ [] ∧
    (∃ backward,
      generate_backward_place_order [[true, true], [true, false]] =
        Except.ok backward) :=
  ⟨rfl, by decide, by decide,
    C6_generate_never_fails [[true, true], [true, false]] 2 2 rfl (by decide) (by decide)⟩

/-! ## Empty result and error cases (claim C9) -/

/-- C9 counterexample: the mask `[[False], [True]]` has a row whose every
cell is background, yet `generate_backward_place_order` returns a
nonempty order, not the empty list the claim asserts. -/
theorem C9_counterexample :
    generate_backward_place_order [[false], [true]] = Except.ok [Pos.mk 0 1] ∧
    [Pos.mk 0 1] ≠ ([] : List Pos) :=
  ⟨by decide, by decide⟩

/-- C9 (amended): the empty order is returned precisely when the whole
mask is background (not merely one row); a `ValueError` is raised exactly
when the mask has zero rows or rows of unequal length, and otherwise the
call succeeds. -/
theorem C9_empty_and_errors (mask : List (List Bool)) :
    (mask.length = 0 →
      generate_backward_place_order mask =
        Except.error (PyErr.valueError ("mask must be non-empty"))) ∧
    (mask.length ≠ 0 →
      ¬ (mask.all (fun r => r.length = (mask.headD []).length) = true) →
      generate_backward_place_order mask =
        Except.error (PyErr.valueError ("mask must be rectangular"))) ∧
    (mask.length ≠ 0 →
      (mask.all (fun r => r.length = (mask.headD []).length) = true) →
      ∃ backward, generate_backward_place_order mask = Except.ok backward ∧
        (backward = [] ↔
          maskPresent mask (mask.headD []).length mask.length = [])) := by
  refine ⟨?_, ?_, ?_⟩
  · intro hz
    unfold generate_backward_place_order
    rw [if_pos hz]
  · intro hnz hrag
    unfold generate_backward_place_order
    rw [if_neg hnz, if_pos hrag]
  · intro hnz hrect
    have hall : ∀ r ∈ mask, r.length = (mask.headD []).length := by
      intro r hr
      have := List.all_eq_true.mp hrect r hr
      simpa using this
    obtain ⟨backward, hok, hperm, _⟩ :=
      generate_spec mask (mask.headD []).length mask.length rfl hall
        (Nat.pos_of_ne_zero hnz)
    refine ⟨backward, hok, ?_⟩
    constructor
    · intro hnil
      subst hnil
      exact List.Perm.eq_nil hperm.symm
    · intro hnil
      rw [hnil] at hperm
      have hmapnil := List.Perm.eq_nil hperm
      cases backward with
      | nil => rfl
      | cons q t => simp at hmapnil

/-- Witness for C9 (amended): the all-background 1×1 mask. -/
theorem C9_empty_and_errors_witness :
    (([[false]] : List (List Bool)).length ≠ 0) ∧
    (([[false]] : List (List Bool)).all
      (fun r => r.length = ([[false]].headD []).length) = true) ∧
    (∃ backward, generate_backward_place_order [[false]] = Except.ok backward ∧
      (backward = [] ↔ maskPresent [[false]] 1 1 = [])) :=
  ⟨by decide, by decide, (C9_empty_and_errors [[false]]).2.2 (by decide) (by decide)⟩

/-! ## Conservation of the simulator (claim about `tick`) -/

/-- Iterated ticks, threading `(top, slots, shooters)` through a sequence
of `tick` steps. -/
def tick_iter (w h : Int) (cfg : GameConfig) :
    Nat → Grid × Grid × List Shooter → Except PyErr (Grid × Grid × List Shooter)
  | 0, st => Except.ok st
  | n + 1, st =>
    match tick st.1 st.2.1 st.2.2 w h cfg with
    | Except.error e => Except.error e
    | Except.ok (ntop, nslots, out, _) => tick_iter w h cfg n (ntop, nslots, out)

/-- Every empty cell of `g` is empty in `g'`: the occupied set of `g'` is
contained in that of `g`. -/
def EmptiesMono (g g' : Grid) : Prop :=
  ∀ x y, getCell g x y = none → getCell g' x y = none

theorem emptiesMono_refl (g : Grid) : EmptiesMono g g := fun _ _ h => h

theorem emptiesMono_trans {g1 g2 g3 : Grid} (h12 : EmptiesMono g1 g2)
    (h23 : EmptiesMono g2 g3) : EmptiesMono g1 g3 := fun x y h => h23 x y (h12 x y h)

theorem pyGetL_ok {α : Type} {l : List α} {i : Nat} {a : α}
    (h : pyGetL l i = Except.ok a) : l.get? i = some a := by
  unfold pyGetL at h
  cases hg : l.get? i with
  | none => rw [hg] at h; exact absurd h (by simp)
  | some b => rw [hg] at h; cases h; rfl

/-- Writing `none` into one cell leaves every cell either unchanged or empty. -/
theorem getCell_set_none_cases (g : Grid) (j i x y : Nat) :
    getCell (g.set j ((g.getD j []).set i none)) x y = getCell g x y ∨
    getCell (g.set j ((g.getD j []).set i none)) x y = none := by
  unfold getCell
  rw [getD_set_row]
  by_cases hc : j = y ∧ j < g.length
  · rw [if_pos hc]
    rw [List.getD_eq_getElem?_getD ((g.getD j []).set i none) x, List.getElem?_set]
    by_cases hix : i = x
    · right
      subst hix
      split
      · split <;> rfl
      · rename_i hne
        exact absurd rfl hne
    · left
      simp only [if_neg hix, ← List.getD_eq_getElem?_getD]
      rw [hc.1]
  · rw [if_neg hc]
    left
    rfl

/-- A cell write of `none` can only erase cells. -/
theorem pySetCellI_none_mono {g g' : Grid} {tx ty : Int}
    (h : pySetCellI g tx ty none = Except.ok g') : EmptiesMono g g' := by
  unfold pySetCellI at h
  simp only [Bind.bind, Except.bind] at h
  split at h
  · exact absurd h (by simp)
  · rename_i j h1
    split at h
    · exact absurd h (by simp)
    · rename_i row h2
      split at h
      · exact absurd h (by simp)
      · rename_i i h3
        have hg' : g' = g.set j (row.set i none) := by
          simpa [pure, Except.pure] using h.symm
        have hj : g.get? j = some row := pyGetL_ok h2
        have hrow : g.getD j [] = row := by
          rw [List.getD_eq_getElem?_getD, ← List.get?_eq_getElem?, hj]; rfl
        intro x y hxy
        subst hg'
        rw [← hrow]
        rcases getCell_set_none_cases g j i x y with hc | hc
        · rw [hc]; exact hxy
        · exact hc

/-- The firing loop only erases cells of the two grids. -/
theorem tick_fire_loop_mono (w h : Int) (lst : List Shooter) :
    ∀ (ntop nslots : Grid) (ext : Ext4) (shots : Int) (out : List Shooter)
      (r : Grid × Grid × List Shooter × Int),
      tick_fire_loop w h lst ntop nslots ext shots out = Except.ok r →
      EmptiesMono ntop r.1 ∧ EmptiesMono nslots r.2.1 := by
  induction lst with
  | nil =>
    rintro ntop nslots ext shots out ⟨rt, rs, ro, rn⟩ hr
    rw [tick_fire_loop] at hr
    cases hr
    exact ⟨emptiesMono_refl _, emptiesMono_refl _⟩
  | cons sh rest ih =>
    intro ntop nslots ext shots out r hr
    rw [tick_fire_loop] at hr
    split at hr
    · exact absurd hr (by simp)
    · split at hr
      · exact absurd hr (by simp)
      · exact ih _ _ _ _ _ _ hr
      · split at hr
        · exact absurd hr (by simp)
        · exact ih _ _ _ _ _ _ hr
        · split at hr
          · exact ih _ _ _ _ _ _ hr
          · split at hr
            · exact absurd hr (by simp)
            · rename_i nslots2 hset2
              split at hr
              · exact absurd hr (by simp)
              · rename_i ntop2 hsetT
                split at hr
                · exact absurd hr (by simp)
                · have := ih _ _ _ _ _ _ hr
                  exact ⟨emptiesMono_trans (pySetCellI_none_mono hsetT) this.1,
                         emptiesMono_trans (pySetCellI_none_mono hset2) this.2⟩

/-- One `tick` only erases cells of the two grids. -/
theorem tick_mono {top slots : Grid} {shooters : List Shooter} {w h : Int}
    {cfg : GameConfig} {r : Grid × Grid × List Shooter × Int}
    (hr : tick top slots shooters w h cfg = Except.ok r) :
    EmptiesMono top r.1 ∧ EmptiesMono slots r.2.1 := by
  unfold tick at hr
  by_cases hL : perimeter_len w h ≤ 0
  · rw [if_pos hL] at hr
    cases hr
    exact ⟨emptiesMono_refl _, emptiesMono_refl _⟩
  · rw [if_neg hL] at hr
    split at hr
    · exact absurd hr (by simp)
    · split at hr
      · exact absurd hr (by simp)
      · rename_i nt ns no nn hloop
        cases hr
        have hm := tick_fire_loop_mono w h _ _ _ _ _ _ _ hloop
        exact ⟨hm.1, hm.2⟩

theorem tick_iter_mono (w h : Int) (cfg : GameConfig) (n : Nat) :
    ∀ (st st' : Grid × Grid × List Shooter),
      tick_iter w h cfg n st = Except.ok st' →
      EmptiesMono st.1 st'.1 ∧ EmptiesMono st.2.1 st'.2.1 := by
  induction n with
  | zero =>
    intro st st' hr
    rw [tick_iter] at hr
    cases hr
    exact ⟨emptiesMono_refl _, emptiesMono_refl _⟩
  | succ n ih =>
    intro st st' hr
    rw [tick_iter] at hr
    split at hr
    · exact absurd hr (by simp)
    · rename_i ntop nslots out nn htick
      have h1 := tick_mono htick
      have h2 := ih _ _ hr
      exact ⟨emptiesMono_trans h1.1 h2.1, emptiesMono_trans h1.2 h2.2⟩

/-- C5: for every state and configuration, a sequence of `tick` steps
never adds cells: every cell empty in the input `slots` (resp. `top`)
grid is still empty afterwards, so both occupied sets only shrink. -/
theorem C5_tick_conservation (top slots : Grid) (shooters : List Shooter)
    (w h : Int) (cfg : GameConfig) (n : Nat) (st' : Grid × Grid × List Shooter)
    (hrun : tick_iter w h cfg n (top, slots, shooters) = Except.ok st') :
    (∀ x y, getCell slots x y = none → getCell st'.2.1 x y = none) ∧
    (∀ x y, getCell top x y = none → getCell st'.1 x y = none) := by
  have := tick_iter_mono w h cfg n (top, slots, shooters) st' hrun
  exact ⟨this.2, this.1⟩

/-! ## Out-of-bounds taps (claim about `apply_tap`) -/

/-- C8: for a `w×h` top grid, a tap outside `[0,w) × [0,h)` fails with
Python's `None` (here `ok none`): no exception, and in this pure embedding
the inputs are of course unchanged. -/
theorem C8_apply_tap_oob (top slots : Grid) (shooters : List Shooter)
    (x0 y0 : Int) (cfg : GameConfig) (w h : Nat)
    (hrect : Rect top w h)
    (hoob : ¬ (0 ≤ x0 ∧ x0 < (w : Int) ∧ 0 ≤ y0 ∧ y0 < (h : Int))) :
    apply_tap top slots shooters (x0, y0) cfg = Except.ok none := by
  unfold apply_tap
  by_cases hcap : (shooters.length : Int) ≥ cfg.conveyor_capacity
  · rw [if_pos hcap]
  · rw [if_neg hcap]
    have hcond : ¬ (0 ≤ x0 ∧ x0 < (((top.headD []).length : Nat) : Int) ∧
        0 ≤ y0 ∧ y0 < (((top.length : Nat)) : Int)) := by
      cases top with
      | nil =>
        rintro ⟨_, _, h3, h4⟩
        simp only [List.length_nil] at h4
        omega
      | cons r t =>
        have hw : r.length = w := hrect.2 r (by simp)
        have hh : (r :: t).length = h := hrect.1
        simp only [List.headD_cons, hw, hh]
        exact hoob
    have hcc : connected_component top x0 y0 = Except.ok [] := by
      unfold connected_component
      rw [if_pos hcond]
    simp only [hcc, Bind.bind, Except.bind, List.isEmpty, pure, Except.pure, if_pos]

/-- Witness for C8: a concrete out-of-bounds tap. -/
theorem C8_apply_tap_oob_witness :
    Rect [[some 0]] 1 1 ∧
    ¬ (0 ≤ (5 : Int) ∧ (5 : Int) < ((1 : Nat) : Int) ∧
       0 ≤ (0 : Int) ∧ (0 : Int) < ((1 : Nat) : Int)) ∧
    apply_tap [[some 0]] [[some 0]] [] (5, 0) (GameConfig.mk 5 0 true) = Except.ok none :=
  ⟨⟨rfl, by simp⟩, by decide,
    C8_apply_tap_oob [[some 0]] [[some 0]] [] 5 0 (GameConfig.mk 5 0 true) 1 1
      ⟨rfl, by simp⟩ (by decide)⟩

/-! ## Rotate mode on a single occupied cell (claim C10) -/

/-- C10: on a rectangular top grid with exactly one occupied cell (its
scan is a singleton), rotate-mode derivation succeeds and returns the top
grid itself — the single cell keeps its color — with `shift = 0`,
`same_cell_count = 1` and `occupied_cells = 1`. -/
theorem C10_rotate_single (top : Grid) (w h x0 y0 : Nat) (v : Int)
    (hrect : Rect top w h)
    (hscan : occupiedScan top w h = [((x0, y0), v)]) :
    derive_slots_from_top top ("rotate") none =
      Except.ok (SlotsDeriveResult.mk top ("rotate") 0 1 1) := by
  have hmem : ((x0, y0), v) ∈ occupiedScan top w h := by rw [hscan]; simp
  obtain ⟨hx0, hy0, hcell⟩ := mem_occupiedScan.mp hmem
  have htl : top.length = h := hrect.1
  have hh0 : 0 < h := by omega
  have hw0 : 0 < w := by omega
  have hhead : (top.headD []).length = w := by
    cases top with
    | nil => simp at htl; omega
    | cons r t => exact hrect.2 r (by simp)
  have hall : top.all (fun r => r.length = (top.headD []).length) = true := by
    rw [List.all_eq_true]
    intro r hr
    simp only [decide_eq_true_eq, hhead]
    exact hrect.2 r hr
  have hgrid : setCellN (allNoneGrid w h) x0 y0 (some v) = top := by
    apply rect_ext (rect_setCellN (rect_allNone w h) x0 y0 (some v)) hrect
    intro x y hx hy
    by_cases hxy : x0 = x ∧ y0 = y
    · obtain ⟨rfl, rfl⟩ := hxy
      rw [getCell_setCellN_self (some v) (by simp [allNoneGrid]; omega)
        (by rw [allNone_row w h y0 hy0]; simpa using hx0), hcell]
    · rw [getCell_setCellN_ne _ hxy, getCell_allNone]
      cases hc : getCell top x y with
      | none => rfl
      | some c =>
        have hmem2 : ((x, y), c) ∈ occupiedScan top w h :=
          mem_occupiedScan.mpr ⟨hx, hy, hc⟩
        rw [hscan] at hmem2
        simp only [List.mem_singleton, Prod.mk.injEq] at hmem2
        exact absurd ⟨hmem2.1.1.symm, hmem2.1.2.symm⟩ hxy
  unfold derive_slots_from_top
  rw [if_neg (by rw [htl, hhead]; omega)]
  rw [if_neg (by rw [hall]; simp)]
  rw [if_neg (by decide), if_neg (by decide), if_neg (by decide)]
  rw [hhead, htl, hscan]
  simp only [List.map_cons, List.map_nil, List.length_cons, List.length_nil]
  norm_num
  exact hgrid

/-- Witness for C10: the 1×1 grid with one colored cell. -/
theorem C10_rotate_single_witness :
    Rect [[some 7]] 1 1 ∧ occupiedScan [[some 7]] 1 1 = [((0, 0), 7)] ∧
    derive_slots_from_top [[some 7]] ("rotate") none =
      Except.ok (SlotsDeriveResult.mk [[some 7]] ("rotate") 0 1 1) :=
  ⟨by constructor <;> simp [Rect], by decide,
    C10_rotate_single [[some 7]] 1 1 0 0 7 (by constructor <;> simp [Rect]) (by decide)⟩

/-- Witness for C5: a concrete one-tick run. -/
theorem C5_tick_conservation_witness :
    tick_iter 1 1 (GameConfig.mk 5 0 true) 1 ([[some 0]], [[some 0]], []) =
      Except.ok ([[some 0]], [[some 0]], []) ∧
    (∀ x y, getCell [[some 0]] x y = none → getCell [[some 0]] x y = none) :=
  ⟨by decide, (C5_tick_conservation [[some 0]] [[some 0]] [] 1 1
      (GameConfig.mk 5 0 true) 1 ([[some 0]], [[some 0]], []) (by decide)).1⟩

/-! ## Lemmas for the derangement flow -/

theorem two_mul_xor_one (k : Nat) : (2 * k) ^^^ 1 = 2 * k + 1 := by
  apply Nat.eq_of_testBit_eq
  intro i
  rw [Nat.testBit_xor]
  cases i with
  | zero =>
    simp only [Nat.testBit_zero]
    rw [Nat.mul_comm]
    simp
    omega
  | succ j =>
    simp only [Nat.testBit_succ]
    have h1 : (2 * k) / 2 = k := by omega
    have h2 : (2 * k + 1) / 2 = k := by omega
    have h3 : (1 : Nat) / 2 = 0 := by omega
    rw [h1, h2, h3]
    simp [Nat.zero_testBit]

theorem two_mul_add_one_xor_one (k : Nat) : (2 * k + 1) ^^^ 1 = 2 * k := by
  apply Nat.eq_of_testBit_eq
  intro i
  rw [Nat.testBit_xor]
  cases i with
  | zero =>
    simp only [Nat.testBit_zero]
    simp
    omega
  | succ j =>
    simp only [Nat.testBit_succ]
    have h1 : (2 * k) / 2 = k := by omega
    have h2 : (2 * k + 1) / 2 = k := by omega
    have h3 : (1 : Nat) / 2 = 0 := by omega
    rw [h1, h2, h3]
    simp [Nat.zero_testBit]

theorem xor_one_cases (e : Nat) : e ^^^ 1 = e + 1 ∧ e % 2 = 0 ∨ e ^^^ 1 = e - 1 ∧ e % 2 = 1 := by
  rcases Nat.mod_two_eq_zero_or_one e with hpar | hpar
  · left
    have he : e = 2 * (e / 2) := by omega
    constructor
    · conv_lhs => rw [he]
      rw [two_mul_xor_one]
      omega
    · exact hpar
  · right
    have he : e = 2 * (e / 2) + 1 := by omega
    constructor
    · conv_lhs => rw [he]
      rw [two_mul_add_one_xor_one]
      omega
    · exact hpar

theorem xor_one_lt {e m : Nat} (hm : m % 2 = 0) (he : e < m) : e ^^^ 1 < m := by
  rcases xor_one_cases e with ⟨hx, hp⟩ | ⟨hx, hp⟩ <;> omega

theorem xor_one_ne (e : Nat) : e ^^^ 1 ≠ e := by
  rcases xor_one_cases e with ⟨hx, hp⟩ | ⟨hx, hp⟩ <;> omega

theorem xor_one_xor_one (e : Nat) : (e ^^^ 1) ^^^ 1 = e := by
  rw [Nat.xor_assoc]
  simp

/-- Tail (source node) of an edge: the head of its paired reverse edge. -/
def edgeTail (g : Dinic) (e : Nat) : Nat := g.to_.getD (e ^^^ 1) 0

/-- Net flow pushed along edge `e`, relative to the initial capacities of
the built graph (Python mutates `self.cap`; the embedding threads `cap`). -/
def flowOn (g : Dinic) (cap : List Int) (e : Nat) : Int :=
  g.cap.getD e 0 - cap.getD e 0

/-- Net outflow of a node: the signed flow summed over all edges whose
tail is that node (reverse halves carry the negated flow of their pair). -/
def netOut (g : Dinic) (cap : List Int) (u : Nat) : Int :=
  ∑ e ∈ Finset.range g.to_.length, if edgeTail g e = u then flowOn g cap e else 0

/-- Invariants of the capacity array during `max_flow`: lengths agree,
capacities stay nonnegative, and each edge pair's total is constant. -/
structure CapInv (g : Dinic) (cap : List Int) : Prop where
  len : cap.length = g.to_.length
  nonneg : ∀ e, e < g.to_.length → 0 ≤ cap.getD e 0
  pairsum : ∀ e, e < g.to_.length → cap.getD e 0 + cap.getD (e ^^^ 1) 0 =
      g.cap.getD e 0 + g.cap.getD (e ^^^ 1) 0

/-- Static well-formedness of a built graph. -/
structure DinicWF (g : Dinic) : Prop where
  caplen : g.cap.length = g.to_.length
  even_m : g.to_.length % 2 = 0
  adj_mem : ∀ u, ∀ e ∈ g.adj.getD u [], e < g.to_.length ∧ edgeTail g e = u

theorem CapInv.init (g : Dinic) (hwf : DinicWF g)
    (hnn : ∀ e, e < g.to_.length → 0 ≤ g.cap.getD e 0) : CapInv g g.cap :=
  ⟨hwf.caplen, hnn, fun _ _ => rfl⟩

/-- Effect of one symmetric capacity update on every node's net outflow. -/
theorem netOut_set_pair (g : Dinic) (hwf : DinicWF g) (cap : List Int) (ei : Nat) (p : Int)
    (hei : ei < g.to_.length) (hcl : cap.length = g.to_.length) (v : Nat) :
    netOut g ((cap.set ei (cap.getD ei 0 - p)).set (ei ^^^ 1) (cap.getD (ei ^^^ 1) 0 + p)) v =
      netOut g cap v + (if edgeTail g ei = v then p else 0) -
        (if edgeTail g (ei ^^^ 1) = v then p else 0) := by
  unfold netOut
  have hne : ei ^^^ 1 ≠ ei := xor_one_ne ei
  have hlt : ei ^^^ 1 < g.to_.length := xor_one_lt hwf.even_m hei
  have hstep : ∀ e ∈ Finset.range g.to_.length,
      (if edgeTail g e = v then
        flowOn g ((cap.set ei (cap.getD ei 0 - p)).set (ei ^^^ 1) (cap.getD (ei ^^^ 1) 0 + p)) e
       else 0) =
      (if edgeTail g e = v then flowOn g cap e else 0) +
      (if e = ei then (if edgeTail g ei = v then p else 0) else 0) -
      (if e = ei ^^^ 1 then (if edgeTail g (ei ^^^ 1) = v then p else 0) else 0) := by
    intro e _
    by_cases he1 : e = ei
    · subst he1
      have hget : ((cap.set e (cap.getD e 0 - p)).set (e ^^^ 1) (cap.getD (e ^^^ 1) 0 + p)).getD e 0 =
          cap.getD e 0 - p := by
        rw [getD_set_ne _ _ _ hne, getD_set_self _ _ _ _ (by omega)]
      rw [if_pos (show e = e from rfl),
          if_neg (show ¬(e = e ^^^ 1) from fun hc => hne hc.symm)]
      unfold flowOn
      rw [hget]
      split_ifs <;> ring
    · by_cases he2 : e = ei ^^^ 1
      · subst he2
        have hget : ((cap.set ei (cap.getD ei 0 - p)).set (ei ^^^ 1) (cap.getD (ei ^^^ 1) 0 + p)).getD (ei ^^^ 1) 0 =
            cap.getD (ei ^^^ 1) 0 + p := by
          rw [getD_set_self _ _ _ _ (by rw [List.length_set]; omega)]
        rw [if_neg he1, if_pos (show ei ^^^ 1 = ei ^^^ 1 from rfl)]
        unfold flowOn
        rw [hget]
        split_ifs <;> ring
      · rw [if_neg he1, if_neg he2]
        have hget : ((cap.set ei (cap.getD ei 0 - p)).set (ei ^^^ 1) (cap.getD (ei ^^^ 1) 0 + p)).getD e 0 =
            cap.getD e 0 := by
          rw [getD_set_ne _ _ _ (fun hc => he2 hc.symm), getD_set_ne _ _ _ (fun hc => he1 hc.symm)]
        unfold flowOn
        rw [hget]
        ring
  rw [Finset.sum_congr rfl hstep]
  rw [Finset.sum_sub_distrib, Finset.sum_add_distrib]
  congr 1
  · congr 1
    rw [Finset.sum_ite_eq' (Finset.range g.to_.length) ei]
    rw [if_pos (Finset.mem_range.mpr hei)]
  · rw [Finset.sum_ite_eq' (Finset.range g.to_.length) (ei ^^^ 1)]
    rw [if_pos (Finset.mem_range.mpr hlt)]


theorem getD_mem {α : Type} (l : List α) (i : Nat) (d : α) (h : i < l.length) :
    l.getD i d ∈ l := by
  rw [List.getD_eq_getElem l d h]
  exact List.getElem_mem h

theorem set_pair_changed (cap2 : List Int) (ei : Nat) (p : Int) (e : Nat)
    (hne : ((cap2.set ei (cap2.getD ei 0 - p)).set (ei ^^^ 1)
      (cap2.getD (ei ^^^ 1) 0 + p)).getD e 0 ≠ cap2.getD e 0) :
    e = ei ∨ e = ei ^^^ 1 := by
  by_cases h1 : e = ei
  · exact Or.inl h1
  by_cases h2 : e = ei ^^^ 1
  · exact Or.inr h2
  exfalso
  apply hne
  rw [getD_set_ne _ _ _ (fun hc => h2 hc.symm), getD_set_ne _ _ _ (fun hc => h1 hc.symm)]

theorem capInv_push (g : Dinic) (hwf : DinicWF g) (cap2 : List Int) (hinv2 : CapInv g cap2)
    (ei : Nat) (hei : ei < g.to_.length) (p : Int) (hp0 : 0 ≤ p) (hple : p ≤ cap2.getD ei 0) :
    CapInv g ((cap2.set ei (cap2.getD ei 0 - p)).set (ei ^^^ 1)
      (cap2.getD (ei ^^^ 1) 0 + p)) := by
  have hlt1 : ei < cap2.length := by rw [hinv2.len]; exact hei
  have hxlt : ei ^^^ 1 < g.to_.length := xor_one_lt hwf.even_m hei
  have hlt2 : ei ^^^ 1 < cap2.length := by rw [hinv2.len]; exact hxlt
  have hxne : ei ^^^ 1 ≠ ei := xor_one_ne ei
  refine ⟨?_, ?_, ?_⟩
  · simp only [List.length_set]
    exact hinv2.len
  · intro e he
    by_cases h2 : e = ei ^^^ 1
    · subst h2
      rw [getD_set_self _ _ _ _ (by rw [List.length_set]; exact hlt2)]
      have := hinv2.nonneg (ei ^^^ 1) hxlt
      omega
    · rw [getD_set_ne _ _ _ (fun hc => h2 hc.symm)]
      by_cases h1 : e = ei
      · subst h1
        rw [getD_set_self _ _ _ _ hlt1]
        omega
      · rw [getD_set_ne _ _ _ (fun hc => h1 hc.symm)]
        exact hinv2.nonneg e he
  · intro e he
    by_cases h1 : e = ei
    · subst h1
      rw [getD_set_self _ _ _ _ (by rw [List.length_set]; exact hlt2),
          getD_set_ne _ _ _ hxne, getD_set_self _ _ _ _ hlt1]
      have := hinv2.pairsum e he
      omega
    · by_cases h2 : e = ei ^^^ 1
      · subst h2
        rw [xor_one_xor_one]
        rw [getD_set_self _ _ _ _ (by rw [List.length_set]; exact hlt2),
            getD_set_ne _ _ _ hxne, getD_set_self _ _ _ _ hlt1]
        have := hinv2.pairsum (ei ^^^ 1) hxlt
        rw [xor_one_xor_one] at this
        omega
      · have hne1 : e ^^^ 1 ≠ ei ^^^ 1 := fun hc => h1 (by
          rw [← xor_one_xor_one e, hc, xor_one_xor_one])
        have hne2 : e ^^^ 1 ≠ ei := fun hc => h2 (by
          rw [← xor_one_xor_one e, hc])
        rw [getD_set_ne _ _ _ (fun hc => h2 hc.symm),
            getD_set_ne _ _ _ (fun hc => h1 hc.symm),
            getD_set_ne _ _ _ (fun hc => hne1 hc.symm),
            getD_set_ne _ _ _ (fun hc => hne2 hc.symm)]
        exact hinv2.pairsum e he

/-- Postcondition of one `dfs` call: the capacity invariant is preserved,
the pushed amount lies in `[0, f]`, net outflow changes by `+p` at the
entry node and `-p` at the sink, and every touched capacity entry belongs
to an edge whose tail is at least as deep as the entry node. -/
def DfsPost (g : Dinic) (level : List Int) (t : Nat) (u : Nat) (f : Int)
    (cap : List Int) (p : Int) (cap' : List Int) : Prop :=
  CapInv g cap' ∧ 0 ≤ p ∧ p ≤ f ∧
  (∀ w, netOut g cap' w = netOut g cap w + (if u = w then p else 0) - (if t = w then p else 0)) ∧
  (∀ e, e < g.to_.length → cap'.getD e 0 ≠ cap.getD e 0 →
    level.getD u (-1) ≤ level.getD (edgeTail g e) (-1))

theorem dfsLoop_effect (g : Dinic) (hwf : DinicWF g) (level : List Int) (t : Nat)
    (fuel : Nat) (u : Nat) (f : Int) (cap : List Int) (it : List Nat) (i : Nat) :
    CapInv g cap → 0 ≤ f → ∀ p cap' it',
      dfsLoop g level t fuel u f cap it i = some (p, cap', it') →
      DfsPost g level t u f cap p cap' := by
  induction fuel, u, f, cap, it, i using dfsLoop.induct g level t with
  | case1 fuel u f cap it i hi hskip ih =>
    intro hinv hf p cap' it' h
    rw [dfsLoop, if_pos hi, if_pos hskip] at h
    exact ih hinv hf p cap' it' h
  | case2 fuel u f cap it i hi hadm hres ihv =>
    intro hinv hf p cap' it' h
    rw [dfsLoop, if_pos hi, if_neg hadm] at h
    by_cases hvt : g.to_.getD ((g.adj.getD u []).getD i 0) 0 = t
    · rw [dif_pos hvt] at hres
      exact absurd hres (by simp)
    · rw [dif_neg hvt] at hres
      rw [if_neg hvt] at h
      by_cases hfu : fuel = 0
      · rw [if_pos hfu] at h
        dsimp only at h
        exact Option.noConfusion h
      · rw [dif_neg hfu] at hres
        rw [if_neg hfu, hres] at h
        dsimp only at h
        exact Option.noConfusion h
  | case3 fuel u f cap it i hi hadm pushed cap2 it2 hres hpush ihv =>
    intro hinv hf p cap' it' h
    rw [dfsLoop, if_pos hi, if_neg hadm] at h
    have heim : (g.adj.getD u []).getD i 0 ∈ g.adj.getD u [] := getD_mem _ _ _ hi
    obtain ⟨hei_lt, hTail⟩ := hwf.adj_mem u _ heim
    have hT2v : edgeTail g (((g.adj.getD u []).getD i 0) ^^^ 1) =
        g.to_.getD ((g.adj.getD u []).getD i 0) 0 := by
      unfold edgeTail
      rw [xor_one_xor_one]
    push_neg at hadm
    obtain ⟨hcap_pos, hlev⟩ := hadm
    by_cases hvt : g.to_.getD ((g.adj.getD u []).getD i 0) 0 = t
    · -- direct push to the sink
      rw [dif_pos hvt] at hres
      rw [if_pos hvt] at h
      simp only [Option.some.injEq, Prod.mk.injEq] at hres
      obtain ⟨hpe, hc2, hi2⟩ := hres
      subst hc2
      subst hi2
      rw [hpe] at h
      dsimp only at h
      rw [if_pos hpush] at h
      simp only [Option.some.injEq, Prod.mk.injEq] at h
      obtain ⟨hpe2, hc2e, _⟩ := h
      subst hpe2
      have hcap'_eq : (cap.set ((g.adj.getD u []).getD i 0)
            (cap.getD ((g.adj.getD u []).getD i 0) 0 - pushed)).set
            (((g.adj.getD u []).getD i 0) ^^^ 1)
            ((cap.set ((g.adj.getD u []).getD i 0)
              (cap.getD ((g.adj.getD u []).getD i 0) 0 - pushed)).getD
                (((g.adj.getD u []).getD i 0) ^^^ 1) 0 + pushed) =
          (cap.set ((g.adj.getD u []).getD i 0)
            (cap.getD ((g.adj.getD u []).getD i 0) 0 - pushed)).set
            (((g.adj.getD u []).getD i 0) ^^^ 1)
            (cap.getD (((g.adj.getD u []).getD i 0) ^^^ 1) 0 + pushed) := by
        rw [getD_set_ne _ _ _ (Ne.symm (xor_one_ne _))]
      rw [hcap'_eq] at hc2e
      subst hc2e
      have hp0 : (0 : Int) ≤ pushed := by
        rw [← hpe]
        exact le_min hf (le_of_lt hcap_pos)
      have hplef : pushed ≤ f := by
        rw [← hpe]
        exact min_le_left _ _
      have hplec : pushed ≤ cap.getD ((g.adj.getD u []).getD i 0) 0 := by
        rw [← hpe]
        exact min_le_right _ _
      refine ⟨capInv_push g hwf cap hinv _ hei_lt pushed hp0 hplec, hp0, hplef, ?_, ?_⟩
      · intro w
        have hnet := netOut_set_pair g hwf cap ((g.adj.getD u []).getD i 0) pushed
          hei_lt hinv.len w
        rw [hTail, hT2v, hvt] at hnet
        exact hnet
      · intro e he hne
        rcases set_pair_changed cap _ pushed e hne with h1 | h1
        · subst h1
          rw [hTail]
        · subst h1
          rw [hT2v, hlev]
          omega
    · -- recursive descent, then push along the admissible edge
      rw [dif_neg hvt] at hres
      rw [if_neg hvt] at h
      by_cases hfu : fuel = 0
      · rw [dif_pos hfu] at hres
        exact Option.noConfusion hres
      · rw [dif_neg hfu] at hres
        rw [if_neg hfu, hres] at h
        dsimp only at h
        rw [if_pos hpush] at h
        simp only [Option.some.injEq, Prod.mk.injEq] at h
        obtain ⟨hpe2, hc2e, _⟩ := h
        subst hpe2
        have hmin0 : (0 : Int) ≤ f ⊓ cap.getD ((g.adj.getD u []).getD i 0) 0 :=
          le_min hf (le_of_lt hcap_pos)
        obtain ⟨hinv2, hp0, hple, hnet2, hlvl2⟩ := ihv hfu hinv hmin0 pushed cap2 it2 hres
        have hcap2ei : cap2.getD ((g.adj.getD u []).getD i 0) 0 =
            cap.getD ((g.adj.getD u []).getD i 0) 0 := by
          by_contra hneq
          have := hlvl2 _ hei_lt hneq
          rw [hTail] at this
          omega
        have hcap'_eq : (cap2.set ((g.adj.getD u []).getD i 0)
              (cap2.getD ((g.adj.getD u []).getD i 0) 0 - pushed)).set
              (((g.adj.getD u []).getD i 0) ^^^ 1)
              ((cap2.set ((g.adj.getD u []).getD i 0)
                (cap2.getD ((g.adj.getD u []).getD i 0) 0 - pushed)).getD
                  (((g.adj.getD u []).getD i 0) ^^^ 1) 0 + pushed) =
            (cap2.set ((g.adj.getD u []).getD i 0)
              (cap2.getD ((g.adj.getD u []).getD i 0) 0 - pushed)).set
              (((g.adj.getD u []).getD i 0) ^^^ 1)
              (cap2.getD (((g.adj.getD u []).getD i 0) ^^^ 1) 0 + pushed) := by
          rw [getD_set_ne _ _ _ (Ne.symm (xor_one_ne _))]
        rw [hcap'_eq] at hc2e
        subst hc2e
        have hplecap : pushed ≤ cap2.getD ((g.adj.getD u []).getD i 0) 0 := by
          rw [hcap2ei]
          exact hple.trans (min_le_right _ _)
        refine ⟨capInv_push g hwf cap2 hinv2 _ hei_lt pushed hp0 hplecap, hp0,
          hple.trans (min_le_left _ _), ?_, ?_⟩
        · intro w
          have hnet := netOut_set_pair g hwf cap2 ((g.adj.getD u []).getD i 0) pushed
            hei_lt hinv2.len w
          rw [hTail, hT2v] at hnet
          rw [hnet, hnet2 w]
          ring
        · intro e he hne
          by_cases hstep : ((cap2.set ((g.adj.getD u []).getD i 0)
                (cap2.getD ((g.adj.getD u []).getD i 0) 0 - pushed)).set
                (((g.adj.getD u []).getD i 0) ^^^ 1)
                (cap2.getD (((g.adj.getD u []).getD i 0) ^^^ 1) 0 + pushed)).getD e 0 =
              cap2.getD e 0
          · have hne2 : cap2.getD e 0 ≠ cap.getD e 0 := by
              intro hc
              rw [hstep, hc] at hne
              exact hne rfl
            have := hlvl2 e he hne2
            omega
          · rcases set_pair_changed cap2 _ pushed e hstep with h1 | h1
            · subst h1
              rw [hTail]
            · subst h1
              rw [hT2v, hlev]
              omega
  | case4 fuel u f cap it i hi hadm pushed cap2 it2 hres hpush ihv ih =>
    intro hinv hf p cap' it' h
    rw [dfsLoop, if_pos hi, if_neg hadm] at h
    have heim : (g.adj.getD u []).getD i 0 ∈ g.adj.getD u [] := getD_mem _ _ _ hi
    obtain ⟨hei_lt, hTail⟩ := hwf.adj_mem u _ heim
    push_neg at hadm
    obtain ⟨hcap_pos, hlev⟩ := hadm
    rw [not_not] at hpush
    by_cases hvt : g.to_.getD ((g.adj.getD u []).getD i 0) 0 = t
    · rw [dif_pos hvt] at hres
      rw [if_pos hvt] at h
      simp only [Option.some.injEq, Prod.mk.injEq] at hres
      obtain ⟨hpe, hc2, hi2⟩ := hres
      subst hc2
      subst hi2
      dsimp only at h
      rw [if_neg (by rw [hpe, hpush]; simp)] at h
      exact ih hinv hf p cap' it' h
    · rw [dif_neg hvt] at hres
      rw [if_neg hvt] at h
      by_cases hfu : fuel = 0
      · rw [dif_pos hfu] at hres
        exact Option.noConfusion hres
      · rw [dif_neg hfu] at hres
        rw [if_neg hfu, hres] at h
        dsimp only at h
        rw [if_neg (by rw [hpush]; simp)] at h
        have hmin0 : (0 : Int) ≤ f ⊓ cap.getD ((g.adj.getD u []).getD i 0) 0 :=
          le_min hf (le_of_lt hcap_pos)
        obtain ⟨hinv2, _, _, hnet2, hlvl2⟩ := ihv hfu hinv hmin0 pushed cap2 it2 hres
        have hnet2z : ∀ w, netOut g cap2 w = netOut g cap w := by
          intro w
          rw [hnet2 w, hpush]
          simp
        obtain ⟨hinv', hp0', hple', hnet', hlvl'⟩ := ih hinv2 hf p cap' it' h
        refine ⟨hinv', hp0', hple', ?_, ?_⟩
        · intro w
          rw [hnet' w, hnet2z w]
        · intro e he hne
          by_cases hstep : cap'.getD e 0 = cap2.getD e 0
          · have hne2 : cap2.getD e 0 ≠ cap.getD e 0 := fun hc => hne (hstep ▸ hc)
            have := hlvl2 e he hne2
            omega
          · have := hlvl' e he hstep
            omega
  | case5 fuel u f cap it i hi =>
    intro hinv hf p cap' it' h
    rw [dfsLoop, if_neg hi] at h
    simp only [Option.some.injEq, Prod.mk.injEq] at h
    obtain ⟨hp0, hceq, _⟩ := h
    subst hp0
    refine ⟨hceq ▸ hinv, le_refl 0, hf, ?_, ?_⟩
    · intro w
      rw [← hceq]
      split_ifs <;> ring
    · intro e _ hne
      rw [← hceq] at hne
      exact absurd rfl hne


theorem netOut_init (g : Dinic) (w : Nat) : netOut g g.cap w = 0 := by
  unfold netOut flowOn
  simp

theorem dinicInner_effect (g : Dinic) (hwf : DinicWF g) (level : List Int) (s t : Nat)
    (hst : s ≠ t) (dfsFuel : Nat) :
    ∀ (fuel : Nat) (flow : Int) (cap : List Int) (it : List Nat) (flow' : Int)
      (cap2 : List Int),
      CapInv g cap →
      dinicInner g level s t dfsFuel fuel flow cap it = some (flow', cap2) →
      CapInv g cap2 ∧ flow ≤ flow' ∧
      ∀ w, netOut g cap2 w = netOut g cap w + (if s = w then flow' - flow else 0) -
        (if t = w then flow' - flow else 0) := by
  intro fuel
  induction fuel with
  | zero =>
    intro flow cap it flow' cap2 hinv h
    exact Option.noConfusion h
  | succ n ihn =>
    intro flow cap it flow' cap2 hinv h
    rw [dinicInner, if_neg hst] at h
    rcases hdfs : dfsLoop g level t dfsFuel s ((10 : Int) ^ 18) cap it (it.getD s 0) with
      _ | ⟨pushed, capm, itm⟩
    · rw [hdfs] at h
      exact Option.noConfusion h
    · rw [hdfs] at h
      dsimp only at h
      obtain ⟨hinvm, hp0, _, hnetm, _⟩ := dfsLoop_effect g hwf level t dfsFuel s
        ((10 : Int) ^ 18) cap it (it.getD s 0) hinv (by positivity) pushed capm itm hdfs
      by_cases hz : pushed ≠ 0
      · rw [if_pos hz] at h
        obtain ⟨hinv2, hle, hnet2⟩ := ihn (flow + pushed) capm itm flow' cap2 hinvm h
        refine ⟨hinv2, by omega, ?_⟩
        intro w
        rw [hnet2 w, hnetm w]
        split_ifs <;> ring
      · rw [if_neg hz] at h
        rw [not_not] at hz
        simp only [Option.some.injEq, Prod.mk.injEq] at h
        obtain ⟨hfe, hce⟩ := h
        subst hfe
        subst hce
        refine ⟨hinvm, le_refl _, ?_⟩
        intro w
        rw [hnetm w, hz]
        simp

theorem dinicOuter_effect (g : Dinic) (hwf : DinicWF g) (s t : Nat) (hst : s ≠ t)
    (dfsFuel innerFuel : Nat) :
    ∀ (fuel : Nat) (flow : Int) (cap : List Int) (flow' : Int) (cap2 : List Int),
      CapInv g cap →
      dinicOuter g s t dfsFuel innerFuel fuel flow cap = some (flow', cap2) →
      CapInv g cap2 ∧ flow ≤ flow' ∧
      ∀ w, netOut g cap2 w = netOut g cap w + (if s = w then flow' - flow else 0) -
        (if t = w then flow' - flow else 0) := by
  intro fuel
  induction fuel with
  | zero =>
    intro flow cap flow' cap2 hinv h
    exact Option.noConfusion h
  | succ n ihn =>
    intro flow cap flow' cap2 hinv h
    rw [dinicOuter] at h
    rcases hbfs : bfsLoop g cap (g.n + 2) [s] 0 ((List.replicate g.n (-1)).set s 0) with
      _ | level
    · rw [hbfs] at h
      exact Option.noConfusion h
    · rw [hbfs] at h
      dsimp only at h
      by_cases hlt : level.getD t (-1) < 0
      · rw [if_pos hlt] at h
        simp only [Option.some.injEq, Prod.mk.injEq] at h
        obtain ⟨hfe, hce⟩ := h
        subst hfe
        subst hce
        refine ⟨hinv, le_refl _, ?_⟩
        intro w
        simp
      · rw [if_neg hlt] at h
        rcases hin : dinicInner g level s t dfsFuel innerFuel 0 cap (List.replicate g.n 0)
          with _ | ⟨add, capm⟩
        · rw [hin] at h
          exact Option.noConfusion h
        · rw [hin] at h
          dsimp only at h
          obtain ⟨hinvm, hadd0, hnetm⟩ := dinicInner_effect g hwf level s t hst dfsFuel
            innerFuel 0 cap (List.replicate g.n 0) add capm hinv hin
          obtain ⟨hinv2, hle, hnet2⟩ := ihn (flow + add) capm flow' cap2 hinvm h
          refine ⟨hinv2, by omega, ?_⟩
          intro w
          rw [hnet2 w, hnetm w]
          split_ifs <;> ring

theorem max_flow_conservation (g : Dinic) (hwf : DinicWF g) (s t : Nat) (hst : s ≠ t)
    (dfsFuel innerFuel outerFuel : Nat)
    (hnn : ∀ e, e < g.to_.length → 0 ≤ g.cap.getD e 0)
    (flow : Int) (cap2 : List Int)
    (h : g.max_flow s t dfsFuel innerFuel outerFuel = some (flow, cap2)) :
    CapInv g cap2 ∧ 0 ≤ flow ∧
    ∀ w, netOut g cap2 w = (if s = w then flow else 0) - (if t = w then flow else 0) := by
  obtain ⟨hinv2, hle, hnet2⟩ := dinicOuter_effect g hwf s t hst dfsFuel innerFuel
    outerFuel 0 g.cap flow cap2 (CapInv.init g hwf hnn) h
  refine ⟨hinv2, hle, ?_⟩
  intro w
  rw [hnet2 w, netOut_init]
  simp

theorem sum_range_add_split {M : Type} [AddCommMonoid M] (f : Nat → M) (m n : Nat) :
    ∑ k ∈ Finset.range (m + n), f k =
      (∑ k ∈ Finset.range m, f k) + ∑ k ∈ Finset.range n, f (m + k) := by
  induction n with
  | zero => simp
  | succ n ih =>
    rw [show m + (n + 1) = (m + n) + 1 from rfl, Finset.sum_range_succ, ih,
      Finset.sum_range_succ, add_assoc]

theorem sum_range_pairs {M : Type} [AddCommMonoid M] (f : Nat → M) (L : Nat) :
    ∑ e ∈ Finset.range (2 * L), f e = ∑ k ∈ Finset.range L, (f (2 * k) + f (2 * k + 1)) := by
  induction L with
  | zero => simp
  | succ L ih =>
    rw [show 2 * (L + 1) = 2 * L + 1 + 1 from by ring, Finset.sum_range_succ,
      Finset.sum_range_succ, ih, Finset.sum_range_succ, add_assoc]

/-- Concatenated head/tail node array of a built graph: each op
contributes its target then its source. -/
def opsTo (ops : List (Nat × Nat × Int)) : List Nat :=
  ops.flatMap (fun x => [x.2.1, x.1])

/-- Concatenated capacity array: each op contributes its capacity then 0. -/
def opsCap (ops : List (Nat × Nat × Int)) : List Int :=
  ops.flatMap (fun x => [x.2.2, 0])

/-- Adjacency list of node `w` for an op list whose first edge has index
`m0`: forward edges of ops sourced at `w`, reverse edges of ops targeting
`w`, in op order. -/
def opsAdj (w : Nat) : Nat → List (Nat × Nat × Int) → List Nat
  | _, [] => []
  | m0, op :: rest =>
    ((if op.1 = w then [m0] else []) ++ (if op.2.1 = w then [m0 + 1] else [])) ++
    opsAdj w (m0 + 2) rest

theorem opsTo_cons (op : Nat × Nat × Int) (rest : List (Nat × Nat × Int)) :
    opsTo (op :: rest) = op.2.1 :: op.1 :: opsTo rest := rfl

theorem opsTo_length (ops : List (Nat × Nat × Int)) : (opsTo ops).length = 2 * ops.length := by
  induction ops with
  | nil => rfl
  | cons op rest ih =>
    rw [opsTo_cons, List.length_cons, List.length_cons, List.length_cons, ih]
    ring

theorem opsCap_cons (op : Nat × Nat × Int) (rest : List (Nat × Nat × Int)) :
    opsCap (op :: rest) = op.2.2 :: 0 :: opsCap rest := rfl

theorem opsCap_length (ops : List (Nat × Nat × Int)) : (opsCap ops).length = 2 * ops.length := by
  induction ops with
  | nil => rfl
  | cons op rest ih =>
    rw [opsCap_cons, List.length_cons, List.length_cons, List.length_cons, ih]
    ring

theorem opsTo_getD_even (ops : List (Nat × Nat × Int)) :
    ∀ k, k < ops.length → (opsTo ops).getD (2 * k) 0 = (ops.getD k (0, 0, 0)).2.1 := by
  induction ops with
  | nil => intro k hk; simp at hk
  | cons op rest ih =>
    intro k hk
    cases k with
    | zero => rfl
    | succ k' =>
      rw [opsTo_cons]
      rw [show 2 * (k' + 1) = (2 * k') + 1 + 1 from by ring]
      simp only [List.getD_cons_succ]
      exact ih k' (by simpa using hk)

theorem opsTo_getD_odd (ops : List (Nat × Nat × Int)) :
    ∀ k, k < ops.length → (opsTo ops).getD (2 * k + 1) 0 = (ops.getD k (0, 0, 0)).1 := by
  induction ops with
  | nil => intro k hk; simp at hk
  | cons op rest ih =>
    intro k hk
    cases k with
    | zero => rfl
    | succ k' =>
      rw [opsTo_cons]
      rw [show 2 * (k' + 1) + 1 = (2 * k' + 1) + 1 + 1 from by ring]
      simp only [List.getD_cons_succ]
      exact ih k' (by simpa using hk)

theorem opsCap_getD_even (ops : List (Nat × Nat × Int)) :
    ∀ k, k < ops.length → (opsCap ops).getD (2 * k) 0 = (ops.getD k (0, 0, 0)).2.2 := by
  induction ops with
  | nil => intro k hk; simp at hk
  | cons op rest ih =>
    intro k hk
    cases k with
    | zero => rfl
    | succ k' =>
      rw [opsCap_cons]
      rw [show 2 * (k' + 1) = (2 * k') + 1 + 1 from by ring]
      simp only [List.getD_cons_succ]
      exact ih k' (by simpa using hk)

theorem opsCap_getD_odd (ops : List (Nat × Nat × Int)) :
    ∀ k, k < ops.length → (opsCap ops).getD (2 * k + 1) 0 = 0 := by
  induction ops with
  | nil => intro k hk; simp at hk
  | cons op rest ih =>
    intro k hk
    cases k with
    | zero => rfl
    | succ k' =>
      rw [opsCap_cons]
      rw [show 2 * (k' + 1) + 1 = (2 * k' + 1) + 1 + 1 from by ring]
      simp only [List.getD_cons_succ]
      exact ih k' (by simpa using hk)

theorem opsAdj_append (w : Nat) (l1 l2 : List (Nat × Nat × Int)) :
    ∀ m0, opsAdj w m0 (l1 ++ l2) = opsAdj w m0 l1 ++ opsAdj w (m0 + 2 * l1.length) l2 := by
  induction l1 with
  | nil => intro m0; simp [opsAdj]
  | cons op rest ih =>
    intro m0
    simp only [List.cons_append, opsAdj, List.length_cons, List.append_eq]
    have harg : m0 + 2 + 2 * rest.length = m0 + 2 * (rest.length + 1) := by ring
    rw [ih (m0 + 2), harg]
    simp only [List.append_assoc]

theorem mem_opsAdj (w : Nat) (ops : List (Nat × Nat × Int)) :
    ∀ m0 e, e ∈ opsAdj w m0 ops →
      ∃ k, k < ops.length ∧
        ((e = m0 + 2 * k ∧ (ops.getD k (0, 0, 0)).1 = w) ∨
         (e = m0 + 2 * k + 1 ∧ (ops.getD k (0, 0, 0)).2.1 = w)) := by
  induction ops with
  | nil => intro m0 e he; simp [opsAdj] at he
  | cons op rest ih =>
    intro m0 e he
    simp only [opsAdj, List.mem_append] at he
    rcases he with (he | he) | he
    · refine ⟨0, by simp, Or.inl ⟨?_, ?_⟩⟩
      · by_cases hc : op.1 = w
        · rw [if_pos hc] at he; simp at he; omega
        · rw [if_neg hc] at he; simp at he
      · by_cases hc : op.1 = w
        · simpa using hc
        · rw [if_neg hc] at he; simp at he
    · refine ⟨0, by simp, Or.inr ⟨?_, ?_⟩⟩
      · by_cases hc : op.2.1 = w
        · rw [if_pos hc] at he; simp at he; omega
        · rw [if_neg hc] at he; simp at he
      · by_cases hc : op.2.1 = w
        · simpa using hc
        · rw [if_neg hc] at he; simp at he
    · obtain ⟨k, hk, hcase⟩ := ih (m0 + 2) e he
      refine ⟨k + 1, by simpa using Nat.succ_lt_succ hk, ?_⟩
      rcases hcase with ⟨he2, hop⟩ | ⟨he2, hop⟩
      · exact Or.inl ⟨by omega, by simpa using hop⟩
      · exact Or.inr ⟨by omega, by simpa using hop⟩

theorem getD_set_of_eq {α : Type} (l : List α) {i j : Nat} (v d : α) (h : i = j)
    (hl : i < l.length) : (l.set i v).getD j d = v := by
  subst h
  exact getD_set_self l i v d hl

theorem addEdges_spec (ops : List (Nat × Nat × Int)) :
    ∀ g0 : Dinic,
      (∀ op ∈ ops, op.1 < g0.adj.length ∧ op.2.1 < g0.adj.length) →
      (ops.foldl (fun g uvc => g.add_edge uvc.1 uvc.2.1 uvc.2.2) g0).n = g0.n ∧
      (ops.foldl (fun g uvc => g.add_edge uvc.1 uvc.2.1 uvc.2.2) g0).adj.length =
        g0.adj.length ∧
      (ops.foldl (fun g uvc => g.add_edge uvc.1 uvc.2.1 uvc.2.2) g0).to_ =
        g0.to_ ++ opsTo ops ∧
      (ops.foldl (fun g uvc => g.add_edge uvc.1 uvc.2.1 uvc.2.2) g0).cap =
        g0.cap ++ opsCap ops ∧
      (∀ w, (ops.foldl (fun g uvc => g.add_edge uvc.1 uvc.2.1 uvc.2.2) g0).adj.getD w [] =
        g0.adj.getD w [] ++ opsAdj w g0.to_.length ops) := by
  induction ops with
  | nil =>
    intro g0 _
    refine ⟨rfl, rfl, by simp [opsTo], by simp [opsCap], ?_⟩
    intro w
    simp [opsAdj]
  | cons op rest ih =>
    intro g0 hops
    obtain ⟨hu, hv⟩ := hops op (List.mem_cons_self op rest)
    have hrest : ∀ q ∈ rest, q.1 < (g0.add_edge op.1 op.2.1 op.2.2).adj.length ∧
        q.2.1 < (g0.add_edge op.1 op.2.1 op.2.2).adj.length := by
      intro q hq
      have := hops q (List.mem_cons_of_mem op hq)
      unfold Dinic.add_edge
      simp only [List.length_set]
      exact this
    have hlen1 : (g0.add_edge op.1 op.2.1 op.2.2).adj.length = g0.adj.length := by
      unfold Dinic.add_edge
      simp only [List.length_set]
    have hto1 : (g0.add_edge op.1 op.2.1 op.2.2).to_ = g0.to_ ++ [op.2.1, op.1] := by
      unfold Dinic.add_edge
      simp
    have hcap1 : (g0.add_edge op.1 op.2.1 op.2.2).cap = g0.cap ++ [op.2.2, 0] := by
      unfold Dinic.add_edge
      simp
    have hadj1 : ∀ w, (g0.add_edge op.1 op.2.1 op.2.2).adj.getD w [] =
        g0.adj.getD w [] ++
          ((if op.1 = w then [g0.to_.length] else []) ++
           (if op.2.1 = w then [g0.to_.length + 1] else [])) := by
      intro w
      unfold Dinic.add_edge
      dsimp only
      by_cases hwu : op.1 = w <;> by_cases hwv : op.2.1 = w
      · rw [if_pos hwu, if_pos hwv]
        rw [getD_set_of_eq _ _ _ hwv (by simp only [List.length_set]; exact hv)]
        rw [getD_set_of_eq _ _ _ (hwu.trans hwv.symm) hu]
        rw [hwu]
        simp
      · rw [if_pos hwu, if_neg hwv]
        rw [getD_set_ne _ _ _ hwv]
        rw [getD_set_of_eq _ _ _ hwu hu]
        rw [hwu]
        simp
      · rw [if_neg hwu, if_pos hwv]
        rw [getD_set_of_eq _ _ _ hwv (by simp only [List.length_set]; exact hv)]
        rw [getD_set_ne _ _ _ (fun hc => hwu (hc.trans hwv))]
        rw [hwv]
        simp
      · rw [if_neg hwu, if_neg hwv]
        rw [getD_set_ne _ _ _ hwv, getD_set_ne _ _ _ hwu]
        simp
    obtain ⟨ihn, ihlen, ihto, ihcap, ihadj⟩ := ih (g0.add_edge op.1 op.2.1 op.2.2) hrest
    simp only [List.foldl_cons]
    refine ⟨ihn, by rw [ihlen, hlen1], ?_, ?_, ?_⟩
    · rw [ihto, hto1, opsTo_cons, List.append_assoc]
      simp
    · rw [ihcap, hcap1, opsCap_cons, List.append_assoc]
      simp
    · intro w
      rw [ihadj w, hadj1 w, hto1]
      simp only [List.length_append, List.length_cons, List.length_nil]
      rw [List.append_assoc]
      congr 1

theorem buildGraph_spec (n : Nat) (ops : List (Nat × Nat × Int))
    (hops : ∀ op ∈ ops, op.1 < n ∧ op.2.1 < n) :
    (buildGraph n ops).n = n ∧
    (buildGraph n ops).to_ = opsTo ops ∧
    (buildGraph n ops).cap = opsCap ops ∧
    (∀ w, (buildGraph n ops).adj.getD w [] = opsAdj w 0 ops) := by
  have hbase : ∀ op ∈ ops, op.1 < (Dinic.mk n (List.replicate n []) [] [] []).adj.length ∧
      op.2.1 < (Dinic.mk n (List.replicate n []) [] [] []).adj.length := by
    intro op hop
    simpa using hops op hop
  obtain ⟨hn, hlen, hto, hcap, hadj⟩ := addEdges_spec ops _ hbase
  refine ⟨hn, by simpa using hto, by simpa using hcap, ?_⟩
  intro w
  have h2 := hadj w
  unfold buildGraph
  rw [h2]
  show (List.replicate n ([] : List Nat)).getD w [] ++
    opsAdj w ([] : List Nat).length ops = opsAdj w 0 ops
  rw [getD_replicate_none]
  simp

theorem buildGraph_wf (n : Nat) (ops : List (Nat × Nat × Int))
    (hops : ∀ op ∈ ops, op.1 < n ∧ op.2.1 < n) :
    DinicWF (buildGraph n ops) := by
  obtain ⟨hn, hto, hcap, hadj⟩ := buildGraph_spec n ops hops
  have hm : (buildGraph n ops).to_.length = 2 * ops.length := by
    rw [hto, opsTo_length]
  refine ⟨?_, ?_, ?_⟩
  · rw [hcap, hto, opsCap_length, opsTo_length]
  · rw [hm]
    omega
  · intro u e he
    rw [hadj u] at he
    obtain ⟨k, hk, hcase⟩ := mem_opsAdj u ops 0 e he
    rcases hcase with ⟨hee, hop⟩ | ⟨hee, hop⟩
    · subst hee
      constructor
      · rw [hm]
        omega
      · unfold edgeTail
        rw [show (0 + 2 * k) ^^^ 1 = 2 * k + 1 from by
          rw [Nat.zero_add, two_mul_xor_one]]
        rw [hto, opsTo_getD_odd ops k hk]
        exact hop
    · subst hee
      constructor
      · rw [hm]
        omega
      · unfold edgeTail
        rw [show (0 + 2 * k + 1) ^^^ 1 = 2 * k from by
          rw [Nat.zero_add, two_mul_add_one_xor_one]]
        rw [hto, opsTo_getD_even ops k hk]
        exact hop

theorem buildGraph_cap_nonneg (n : Nat) (ops : List (Nat × Nat × Int))
    (hops : ∀ op ∈ ops, op.1 < n ∧ op.2.1 < n)
    (hcaps : ∀ op ∈ ops, 0 ≤ op.2.2) :
    ∀ e, e < (buildGraph n ops).to_.length → 0 ≤ (buildGraph n ops).cap.getD e 0 := by
  obtain ⟨_, hto, hcap, _⟩ := buildGraph_spec n ops hops
  intro e he
  rw [hto, opsTo_length] at he
  rw [hcap]
  rcases Nat.even_or_odd e with ⟨k, hk⟩ | ⟨k, hk⟩
  · rw [show e = 2 * k from by omega, opsCap_getD_even ops k (by omega)]
    exact hcaps _ (getD_mem ops k (0, 0, 0) (by omega))
  · rw [show e = 2 * k + 1 from by omega, opsCap_getD_odd ops k (by omega)]

/-- Net-outflow contribution of a run of ops whose first edge pair starts
at op index `k0`, with `φ k` the net flow pushed along op `k`'s forward
edge. -/
def netSum (φ : Nat → Int) (w : Nat) : Nat → List (Nat × Nat × Int) → Int
  | _, [] => 0
  | k0, op :: rest =>
    ((if op.1 = w then φ k0 else 0) - (if op.2.1 = w then φ k0 else 0)) +
    netSum φ w (k0 + 1) rest

theorem netSum_append (φ : Nat → Int) (w : Nat) (l1 l2 : List (Nat × Nat × Int)) :
    ∀ k0, netSum φ w k0 (l1 ++ l2) = netSum φ w k0 l1 + netSum φ w (k0 + l1.length) l2 := by
  induction l1 with
  | nil => intro k0; simp [netSum]
  | cons op rest ih =>
    intro k0
    simp only [List.cons_append, netSum, List.length_cons, List.append_eq]
    rw [ih (k0 + 1), show k0 + 1 + rest.length = k0 + (rest.length + 1) from by ring]
    ring

theorem netSum_eq_sum (φ : Nat → Int) (w : Nat) (ops : List (Nat × Nat × Int)) :
    ∀ k0, netSum φ w k0 ops = ∑ r ∈ Finset.range ops.length,
      ((if (ops.getD r (0, 0, 0)).1 = w then φ (k0 + r) else 0) -
       (if (ops.getD r (0, 0, 0)).2.1 = w then φ (k0 + r) else 0)) := by
  induction ops with
  | nil => intro k0; simp [netSum]
  | cons op rest ih =>
    intro k0
    rw [netSum, ih (k0 + 1), List.length_cons, Finset.sum_range_succ']
    rw [add_comm]
    congr 1
    · apply Finset.sum_congr rfl
      intro r _
      rw [show k0 + 1 + r = k0 + (r + 1) from by ring]
      rfl

theorem flowOn_rev (g : Dinic) (ops : List (Nat × Nat × Int))
    (hto : g.to_ = opsTo ops) (hcap : g.cap = opsCap ops)
    (capF : List Int) (hinv : CapInv g capF) (k : Nat) (hk : k < ops.length) :
    flowOn g capF (2 * k + 1) = - flowOn g capF (2 * k) := by
  have hm : g.to_.length = 2 * ops.length := by rw [hto, opsTo_length]
  have hpair := hinv.pairsum (2 * k) (by omega)
  rw [two_mul_xor_one] at hpair
  unfold flowOn
  have h1 : g.cap.getD (2 * k + 1) 0 = 0 := by
    rw [hcap]
    exact opsCap_getD_odd ops k hk
  have h2 : g.cap.getD (2 * k) 0 = (ops.getD k (0, 0, 0)).2.2 := by
    rw [hcap]
    exact opsCap_getD_even ops k hk
  rw [h1, h2] at hpair
  rw [h1, h2]
  omega

theorem flowOn_nonneg (g : Dinic) (ops : List (Nat × Nat × Int))
    (hto : g.to_ = opsTo ops) (hcap : g.cap = opsCap ops)
    (capF : List Int) (hinv : CapInv g capF) (k : Nat) (hk : k < ops.length) :
    0 ≤ flowOn g capF (2 * k) ∧ flowOn g capF (2 * k) ≤ (ops.getD k (0, 0, 0)).2.2 := by
  have hm : g.to_.length = 2 * ops.length := by rw [hto, opsTo_length]
  have hpair := hinv.pairsum (2 * k) (by omega)
  rw [two_mul_xor_one] at hpair
  have hnn1 := hinv.nonneg (2 * k) (by omega)
  have hnn2 := hinv.nonneg (2 * k + 1) (by omega)
  unfold flowOn
  have h1 : g.cap.getD (2 * k + 1) 0 = 0 := by
    rw [hcap]
    exact opsCap_getD_odd ops k hk
  have h2 : g.cap.getD (2 * k) 0 = (ops.getD k (0, 0, 0)).2.2 := by
    rw [hcap]
    exact opsCap_getD_even ops k hk
  rw [h1, h2] at hpair
  rw [h2]
  omega

theorem netOut_eq_netSum (n : Nat) (ops : List (Nat × Nat × Int))
    (hops : ∀ op ∈ ops, op.1 < n ∧ op.2.1 < n)
    (capF : List Int) (hinv : CapInv (buildGraph n ops) capF) (w : Nat) :
    netOut (buildGraph n ops) capF w =
      netSum (fun k => flowOn (buildGraph n ops) capF (2 * k)) w 0 ops := by
  obtain ⟨_, hto, hcap, _⟩ := buildGraph_spec n ops hops
  have hm : (buildGraph n ops).to_.length = 2 * ops.length := by rw [hto, opsTo_length]
  unfold netOut
  rw [hm, sum_range_pairs]
  rw [netSum_eq_sum]
  apply Finset.sum_congr rfl
  intro k hk
  rw [Finset.mem_range] at hk
  have hT1 : edgeTail (buildGraph n ops) (2 * k) = (ops.getD k (0, 0, 0)).1 := by
    unfold edgeTail
    rw [two_mul_xor_one, hto, opsTo_getD_odd ops k hk]
  have hT2 : edgeTail (buildGraph n ops) (2 * k + 1) = (ops.getD k (0, 0, 0)).2.1 := by
    unfold edgeTail
    rw [two_mul_add_one_xor_one, hto, opsTo_getD_even ops k hk]
  rw [hT1, hT2, flowOn_rev (buildGraph n ops) ops hto hcap capF hinv k hk]
  rw [show (0 : Nat) + k = k from by omega]
  split_ifs <;> ring

theorem filterMap_if_eq_map_filter {α β : Type} [DecidableEq α] (l : List α) (a : α)
    (f : α → β) :
    l.filterMap (fun x => if x = a then none else some (f x)) =
      (l.filter (fun x => x ≠ a)).map f := by
  induction l with
  | nil => rfl
  | cons b rest ih =>
    by_cases hb : b = a
    · subst hb
      rw [List.filterMap_cons_none (by simp)]
      rw [List.filter_cons_of_neg (by simp)]
      exact ih
    · rw [List.filterMap_cons_some (by rw [if_neg hb])]
      rw [List.filter_cons_of_pos (by simp [hb])]
      rw [List.map_cons, ih]

theorem length_filter_ne (l : List Nat) (a : Nat) (hnd : l.Nodup) (ha : a ∈ l) :
    (l.filter (fun x => x ≠ a)).length = l.length - 1 := by
  induction l with
  | nil => simp at ha
  | cons b rest ih =>
    rw [List.nodup_cons] at hnd
    by_cases hb : b = a
    · subst hb
      rw [List.filter_cons_of_neg (by simp)]
      rw [List.filter_eq_self.mpr]
      · simp
      · intro x hx
        simp only [ne_eq, decide_eq_true_eq]
        intro hc
        subst hc
        exact hnd.1 hx
    · have ha2 : a ∈ rest := by
        rcases List.mem_cons.mp ha with h1 | h1
        · exact absurd h1.symm hb
        · exact h1
      rw [List.filter_cons_of_pos (by simp [hb])]
      simp only [List.length_cons]
      rw [ih hnd.2 ha2]
      have : 0 < rest.length := List.length_pos.mpr (List.ne_nil_of_mem ha2)
      omega

theorem pairFlatMap_length {α : Type} (f g : Nat → α) (K : Nat) :
    ((List.range K).flatMap (fun i => [f i, g i])).length = 2 * K := by
  induction K with
  | zero => rfl
  | succ K ih =>
    rw [List.range_succ, List.flatMap_append, List.length_append, ih]
    simp
    omega

theorem pairFlatMap_getD_even {α : Type} (f g : Nat → α) (d : α) (K : Nat) :
    ∀ j, j < K → ((List.range K).flatMap (fun i => [f i, g i])).getD (2 * j) d = f j := by
  induction K with
  | zero => intro j hj; omega
  | succ K ih =>
    intro j hj
    rw [List.range_succ, List.flatMap_append]
    by_cases hjK : j < K
    · rw [List.getD_append _ _ _ _ (by rw [pairFlatMap_length]; omega)]
      exact ih j hjK
    · have hje : j = K := by omega
      subst hje
      rw [List.getD_append_right _ _ _ _ (by rw [pairFlatMap_length])]
      rw [pairFlatMap_length]
      rw [show 2 * j - 2 * j = 0 from by omega]
      rfl

theorem pairFlatMap_getD_odd {α : Type} (f g : Nat → α) (d : α) (K : Nat) :
    ∀ j, j < K → ((List.range K).flatMap (fun i => [f i, g i])).getD (2 * j + 1) d = g j := by
  induction K with
  | zero => intro j hj; omega
  | succ K ih =>
    intro j hj
    rw [List.range_succ, List.flatMap_append]
    by_cases hjK : j < K
    · rw [List.getD_append _ _ _ _ (by rw [pairFlatMap_length]; omega)]
      exact ih j hjK
    · have hje : j = K := by omega
      subst hje
      rw [List.getD_append_right _ _ _ _ (by rw [pairFlatMap_length]; omega)]
      rw [pairFlatMap_length]
      rw [show 2 * j + 1 - 2 * j = 1 from by omega]
      rfl

theorem flatMap_const_length {α : Type} (fn : Nat → List α) (c : Nat) :
    ∀ K, (∀ i, i < K → (fn i).length = c) →
    ((List.range K).flatMap fn).length = K * c := by
  intro K
  induction K with
  | zero => intro _; simp
  | succ K ih =>
    intro hlen
    rw [List.range_succ, List.flatMap_append, List.length_append,
      ih (fun i hi => hlen i (by omega))]
    simp [hlen K (by omega)]
    ring

theorem flatMap_const_getD {α : Type} (fn : Nat → List α) (c : Nat) (d : α) :
    ∀ K, (∀ i, i < K → (fn i).length = c) →
    ∀ q r, q < K → r < c →
      ((List.range K).flatMap fn).getD (q * c + r) d = (fn q).getD r d := by
  intro K
  induction K with
  | zero => intro _ q r hq hr; omega
  | succ K ih =>
    intro hlen q r hq hr
    have hlenK : ∀ i, i < K → (fn i).length = c := fun i hi => hlen i (by omega)
    rw [List.range_succ, List.flatMap_append]
    by_cases hqK : q < K
    · rw [List.getD_append _ _ _ _ (by
        rw [flatMap_const_length fn c K hlenK]
        calc q * c + r < q * c + c := by omega
        _ = (q + 1) * c := by ring
        _ ≤ K * c := Nat.mul_le_mul_right c (by omega))]
      exact ih hlenK q r hqK hr
    · have hqe : q = K := by omega
      subst hqe
      rw [List.getD_append_right _ _ _ _ (by
        rw [flatMap_const_length fn c q hlenK]
        omega)]
      rw [flatMap_const_length fn c q hlenK]
      rw [show q * c + r - q * c = r from by omega]
      simp [hlen q (by omega)]

theorem opsAdj_nil_of_nomatch (w : Nat) (l : List (Nat × Nat × Int))
    (h : ∀ op ∈ l, op.1 ≠ w ∧ op.2.1 ≠ w) : ∀ m0, opsAdj w m0 l = [] := by
  induction l with
  | nil => intro m0; rfl
  | cons op rest ih =>
    intro m0
    obtain ⟨h1, h2⟩ := h op (List.mem_cons_self op rest)
    simp only [opsAdj, if_neg h1, if_neg h2]
    simp only [List.nil_append]
    exact ih (fun q hq => h q (List.mem_cons_of_mem op hq)) (m0 + 2)

theorem opsAdj_all_src (w : Nat) (l : List (Nat × Nat × Int))
    (h : ∀ op ∈ l, op.1 = w ∧ op.2.1 ≠ w) :
    ∀ m0, opsAdj w m0 l = (List.range l.length).map (fun r => m0 + 2 * r) := by
  induction l with
  | nil => intro m0; rfl
  | cons op rest ih =>
    intro m0
    obtain ⟨h1, h2⟩ := h op (List.mem_cons_self op rest)
    simp only [opsAdj, if_pos h1, if_neg h2]
    rw [ih (fun q hq => h q (List.mem_cons_of_mem op hq)) (m0 + 2)]
    rw [List.length_cons, List.range_succ_eq_map, List.map_cons, List.map_map]
    simp only [List.cons_append, List.append_nil, List.nil_append]
    congr 1
    apply List.map_congr_left
    intro r _
    simp only [Function.comp_apply]
    omega

/-- Selective flow sum: over a list of assigned-color indices starting at
op offset `k0`, add the flow of the op whose index matches `j`. -/
def selSum (φ : Nat → Int) (j : Nat) : Nat → List Nat → Int
  | _, [] => 0
  | k0, ai :: rest => (if ai = j then φ k0 else 0) + selSum φ j (k0 + 1) rest

theorem netSum_pairFlatMap (φ : Nat → Int) (w : Nat) (f g : Nat → Nat × Nat × Int)
    (K : Nat) : ∀ k0,
    netSum φ w k0 ((List.range K).flatMap (fun i => [f i, g i])) =
      ∑ i ∈ Finset.range K,
        ((((if (f i).1 = w then φ (k0 + 2 * i) else 0) -
           (if (f i).2.1 = w then φ (k0 + 2 * i) else 0)) +
          ((if (g i).1 = w then φ (k0 + 2 * i + 1) else 0) -
           (if (g i).2.1 = w then φ (k0 + 2 * i + 1) else 0)))) := by
  induction K with
  | zero => intro k0; simp [netSum]
  | succ K ih =>
    intro k0
    rw [List.range_succ, List.flatMap_append, netSum_append, ih k0]
    rw [Finset.sum_range_succ]
    congr 1
    rw [pairFlatMap_length]
    simp only [List.flatMap_cons, List.flatMap_nil, List.append_nil, netSum]
    ring

theorem netSum_flatMap_const (φ : Nat → Int) (w : Nat) (fn : Nat → List (Nat × Nat × Int))
    (c : Nat) : ∀ K, (∀ i, i < K → (fn i).length = c) → ∀ k0,
    netSum φ w k0 ((List.range K).flatMap fn) =
      ∑ i ∈ Finset.range K, netSum φ w (k0 + i * c) (fn i) := by
  intro K
  induction K with
  | zero => intro _ k0; simp [netSum]
  | succ K ih =>
    intro hlen k0
    have hlenK : ∀ i, i < K → (fn i).length = c := fun i hi => hlen i (by omega)
    rw [List.range_succ, List.flatMap_append, netSum_append, ih hlenK k0]
    rw [Finset.sum_range_succ]
    congr 1
    rw [flatMap_const_length fn c K hlenK]
    simp only [List.flatMap_cons, List.flatMap_nil, List.append_nil]

/-- The source/sink half of the derangement op list. -/
def drP1 (K : Nat) (cnt : Nat → Int) : List (Nat × Nat × Int) :=
  (List.range K).flatMap (fun i => [(0, 1 + i, cnt i), (1 + K + i, 1 + 2 * K, cnt i)])

/-- The other-color indices a group may be assigned, ascending. -/
def aiList (K fi : Nat) : List Nat := (List.range K).filter (fun ai => ai ≠ fi)

/-- The group→assigned half of the derangement op list. -/
def drP2 (K : Nat) : List (Nat × Nat × Int) :=
  (List.range K).flatMap (fun fi =>
    (aiList K fi).map (fun ai => (1 + fi, 1 + K + ai, (10 : Int) ^ 9)))

theorem derangementOps_eq (K : Nat) (cnt : Nat → Int) :
    derangementOps K cnt = drP1 K cnt ++ drP2 K := by
  unfold derangementOps drP1 drP2 aiList
  congr 1
  simp only [filterMap_if_eq_map_filter]

theorem mem_aiList (K fi ai : Nat) : ai ∈ aiList K fi ↔ ai < K ∧ ai ≠ fi := by
  unfold aiList
  rw [List.mem_filter, List.mem_range]
  simp

theorem nodup_aiList (K fi : Nat) : (aiList K fi).Nodup :=
  (List.nodup_range K).filter _

theorem aiList_length (K fi : Nat) (hfi : fi < K) : (aiList K fi).length = K - 1 := by
  unfold aiList
  rw [length_filter_ne _ _ (List.nodup_range K) (List.mem_range.mpr hfi)]
  simp

theorem drP1_length (K : Nat) (cnt : Nat → Int) : (drP1 K cnt).length = 2 * K :=
  pairFlatMap_length _ _ K

theorem drP1_getD_even (K : Nat) (cnt : Nat → Int) (j : Nat) (hj : j < K) :
    (drP1 K cnt).getD (2 * j) (0, 0, 0) = (0, 1 + j, cnt j) :=
  pairFlatMap_getD_even _ _ _ K j hj

theorem drP1_getD_odd (K : Nat) (cnt : Nat → Int) (j : Nat) (hj : j < K) :
    (drP1 K cnt).getD (2 * j + 1) (0, 0, 0) = (1 + K + j, 1 + 2 * K, cnt j) :=
  pairFlatMap_getD_odd _ _ _ K j hj

theorem derangementOps_mem_bound (K : Nat) (cnt : Nat → Int) :
    ∀ op ∈ derangementOps K cnt, op.1 < 2 * K + 2 ∧ op.2.1 < 2 * K + 2 := by
  intro op hop
  rw [derangementOps_eq, List.mem_append] at hop
  rcases hop with hop | hop
  · unfold drP1 at hop
    rw [List.mem_flatMap] at hop
    obtain ⟨i, hi, hmem⟩ := hop
    rw [List.mem_range] at hi
    simp only [List.mem_cons, List.not_mem_nil, or_false] at hmem
    rcases hmem with h | h
    · subst h
      exact ⟨show (0 : Nat) < 2 * K + 2 from by omega,
        show 1 + i < 2 * K + 2 from by omega⟩
    · subst h
      exact ⟨show 1 + K + i < 2 * K + 2 from by omega,
        show 1 + 2 * K < 2 * K + 2 from by omega⟩
  · unfold drP2 at hop
    rw [List.mem_flatMap] at hop
    obtain ⟨fi, hfi, hmem⟩ := hop
    rw [List.mem_range] at hfi
    rw [List.mem_map] at hmem
    obtain ⟨ai, hai, heq⟩ := hmem
    rw [mem_aiList] at hai
    subst heq
    exact ⟨show 1 + fi < 2 * K + 2 from by omega,
      show 1 + K + ai < 2 * K + 2 from by omega⟩

theorem derangementOps_cap_nonneg (K : Nat) (cnt : Nat → Int) (hcnt : ∀ i, 0 ≤ cnt i) :
    ∀ op ∈ derangementOps K cnt, 0 ≤ op.2.2 := by
  intro op hop
  rw [derangementOps_eq, List.mem_append] at hop
  rcases hop with hop | hop
  · unfold drP1 at hop
    rw [List.mem_flatMap] at hop
    obtain ⟨i, _, hmem⟩ := hop
    simp only [List.mem_cons, List.not_mem_nil, or_false] at hmem
    rcases hmem with h | h
    · subst h
      exact hcnt i
    · subst h
      exact hcnt i
  · unfold drP2 at hop
    rw [List.mem_flatMap] at hop
    obtain ⟨fi, _, hmem⟩ := hop
    rw [List.mem_map] at hmem
    obtain ⟨ai, _, heq⟩ := hmem
    subst heq
    positivity

theorem drP2_inner_length (K : Nat) : ∀ fi, fi < K →
    ((aiList K fi).map (fun ai => ((1 + fi, 1 + K + ai, (10 : Int) ^ 9) : Nat × Nat × Int))).length
      = K - 1 := by
  intro fi hfi
  rw [List.length_map, aiList_length K fi hfi]

/-- `netSum` of one group's edge block at a column node. -/
theorem netSum_inner_at_col (φ : Nat → Int) (K fi j : Nat) (hj : j < K) (hfi : fi < K)
    (cv : Int) :
    ∀ (l : List Nat) (k0 : Nat),
      netSum φ (1 + K + j) k0 (l.map (fun ai => (1 + fi, 1 + K + ai, cv))) =
        - selSum φ j k0 l := by
  intro l
  induction l with
  | nil => intro k0; simp [netSum, selSum]
  | cons ai rest ih =>
    intro k0
    rw [List.map_cons]
    show ((if 1 + fi = 1 + K + j then φ k0 else 0) -
      (if 1 + K + ai = 1 + K + j then φ k0 else 0)) +
      netSum φ (1 + K + j) (k0 + 1) (rest.map (fun ai => (1 + fi, 1 + K + ai, cv))) = _
    rw [ih (k0 + 1)]
    rw [if_neg (by omega)]
    rw [selSum]
    by_cases hai : ai = j
    · rw [if_pos (show 1 + K + ai = 1 + K + j from by omega), if_pos hai]
      ring
    · rw [if_neg (show ¬(1 + K + ai = 1 + K + j) from by omega), if_neg hai]
      ring

/-- `netSum` of one group's edge block at the sink node. -/
theorem netSum_inner_at_sink (φ : Nat → Int) (K fi : Nat) (hfi : fi < K) (cv : Int) :
    ∀ (l : List Nat) (k0 : Nat), (∀ ai ∈ l, ai < K) →
      netSum φ (1 + 2 * K) k0 (l.map (fun ai => (1 + fi, 1 + K + ai, cv))) = 0 := by
  intro l
  induction l with
  | nil => intro k0 _; simp [netSum]
  | cons ai rest ih =>
    intro k0 hall
    have hai := hall ai (List.mem_cons_self ai rest)
    rw [List.map_cons]
    show ((if 1 + fi = 1 + 2 * K then φ k0 else 0) -
      (if 1 + K + ai = 1 + 2 * K then φ k0 else 0)) +
      netSum φ (1 + 2 * K) (k0 + 1) (rest.map (fun ai => (1 + fi, 1 + K + ai, cv))) = _
    rw [ih (k0 + 1) (fun q hq => hall q (List.mem_cons_of_mem ai hq))]
    rw [if_neg (by omega), if_neg (by omega)]
    ring

theorem sum_squeeze (s : Finset Nat) (f g : Nat → Int) (hle : ∀ i ∈ s, f i ≤ g i)
    (hsum : ∑ i ∈ s, f i = ∑ i ∈ s, g i) : ∀ i ∈ s, f i = g i := by
  by_contra hc
  push_neg at hc
  obtain ⟨i0, hi0, hne⟩ := hc
  have hlt : f i0 < g i0 := lt_of_le_of_ne (hle i0 hi0) hne
  have := Finset.sum_lt_sum hle ⟨i0, hi0, hlt⟩
  omega

theorem conservation_col (K : Nat) (cnt : Nat → Int) (capF : List Int)
    (hinv : CapInv (buildGraph (2 * K + 2) (derangementOps K cnt)) capF)
    (hnet0 : ∀ j, j < K →
      netOut (buildGraph (2 * K + 2) (derangementOps K cnt)) capF (1 + K + j) = 0)
    (j : Nat) (hj : j < K) :
    flowOn (buildGraph (2 * K + 2) (derangementOps K cnt)) capF (2 * (2 * j + 1)) =
      ∑ fi ∈ Finset.range K,
        selSum (fun k => flowOn (buildGraph (2 * K + 2) (derangementOps K cnt)) capF (2 * k))
          j (2 * K + fi * (K - 1)) (aiList K fi) := by
  have hops := derangementOps_mem_bound K cnt
  have heq := netOut_eq_netSum (2 * K + 2) (derangementOps K cnt) hops capF hinv (1 + K + j)
  rw [hnet0 j hj] at heq
  set φ : Nat → Int :=
    fun k => flowOn (buildGraph (2 * K + 2) (derangementOps K cnt)) capF (2 * k) with hphi
  have hgoal : flowOn (buildGraph (2 * K + 2) (derangementOps K cnt)) capF (2 * (2 * j + 1)) =
      φ (2 * j + 1) := rfl
  rw [hgoal]
  rw [derangementOps_eq, netSum_append] at heq
  rw [show (drP1 K cnt).length = 2 * K from drP1_length K cnt] at heq
  unfold drP1 at heq
  rw [netSum_pairFlatMap] at heq
  unfold drP2 at heq
  rw [netSum_flatMap_const _ _ _ (K - 1) K (drP2_inner_length K)] at heq
  dsimp only at heq
  simp only [Nat.zero_add] at heq
  have hP1 : ∑ i ∈ Finset.range K,
      (((if (0 : Nat) = 1 + K + j then φ (2 * i) else 0) -
        (if 1 + i = 1 + K + j then φ (2 * i) else 0)) +
       ((if 1 + K + i = 1 + K + j then φ (2 * i + 1) else 0) -
        (if 1 + 2 * K = 1 + K + j then φ (2 * i + 1) else 0))) = φ (2 * j + 1) := by
    have hstep : ∀ i ∈ Finset.range K,
        (((if (0 : Nat) = 1 + K + j then φ (2 * i) else 0) -
          (if 1 + i = 1 + K + j then φ (2 * i) else 0)) +
         ((if 1 + K + i = 1 + K + j then φ (2 * i + 1) else 0) -
          (if 1 + 2 * K = 1 + K + j then φ (2 * i + 1) else 0))) =
        (if i = j then φ (2 * i + 1) else 0) := by
      intro i hi
      rw [Finset.mem_range] at hi
      rw [if_neg (show ¬((0 : Nat) = 1 + K + j) from by omega)]
      rw [if_neg (show ¬(1 + i = 1 + K + j) from by omega)]
      rw [if_neg (show ¬(1 + 2 * K = 1 + K + j) from by omega)]
      by_cases hij : i = j
      · rw [if_pos (show 1 + K + i = 1 + K + j from by omega), if_pos hij]
        ring
      · rw [if_neg (show ¬(1 + K + i = 1 + K + j) from by omega), if_neg hij]
        ring
    rw [Finset.sum_congr rfl hstep]
    rw [Finset.sum_ite_eq' (Finset.range K) j]
    rw [if_pos (Finset.mem_range.mpr hj)]
  rw [hP1] at heq
  have hP2 : ∑ i ∈ Finset.range K,
      netSum φ (1 + K + j) (2 * K + i * (K - 1))
        ((aiList K i).map (fun ai => (1 + i, 1 + K + ai, (10 : Int) ^ 9))) =
      - ∑ fi ∈ Finset.range K, selSum φ j (2 * K + fi * (K - 1)) (aiList K fi) := by
    rw [← Finset.sum_neg_distrib]
    apply Finset.sum_congr rfl
    intro fi hfi
    rw [Finset.mem_range] at hfi
    exact netSum_inner_at_col φ K fi j hj hfi _ (aiList K fi) _
  rw [hP2] at heq
  omega

theorem conservation_sink (K : Nat) (cnt : Nat → Int) (capF : List Int) (flow : Int)
    (hinv : CapInv (buildGraph (2 * K + 2) (derangementOps K cnt)) capF)
    (hnet : netOut (buildGraph (2 * K + 2) (derangementOps K cnt)) capF (1 + 2 * K) = - flow) :
    ∑ i ∈ Finset.range K,
      flowOn (buildGraph (2 * K + 2) (derangementOps K cnt)) capF (2 * (2 * i + 1)) = flow := by
  have hops := derangementOps_mem_bound K cnt
  have heq := netOut_eq_netSum (2 * K + 2) (derangementOps K cnt) hops capF hinv (1 + 2 * K)
  rw [hnet] at heq
  set φ : Nat → Int :=
    fun k => flowOn (buildGraph (2 * K + 2) (derangementOps K cnt)) capF (2 * k) with hphi
  have hgoal : ∀ i : Nat,
      flowOn (buildGraph (2 * K + 2) (derangementOps K cnt)) capF (2 * (2 * i + 1)) =
      φ (2 * i + 1) := fun i => rfl
  rw [Finset.sum_congr rfl (fun i _ => hgoal i)]
  rw [derangementOps_eq, netSum_append] at heq
  rw [show (drP1 K cnt).length = 2 * K from drP1_length K cnt] at heq
  unfold drP1 at heq
  rw [netSum_pairFlatMap] at heq
  unfold drP2 at heq
  rw [netSum_flatMap_const _ _ _ (K - 1) K (drP2_inner_length K)] at heq
  dsimp only at heq
  simp only [Nat.zero_add] at heq
  have hP1 : ∑ i ∈ Finset.range K,
      (((if (0 : Nat) = 1 + 2 * K then φ (2 * i) else 0) -
        (if 1 + i = 1 + 2 * K then φ (2 * i) else 0)) +
       ((if 1 + K + i = 1 + 2 * K then φ (2 * i + 1) else 0) -
        (if True then φ (2 * i + 1) else 0))) =
      - ∑ i ∈ Finset.range K, φ (2 * i + 1) := by
    rw [← Finset.sum_neg_distrib]
    apply Finset.sum_congr rfl
    intro i hi
    rw [Finset.mem_range] at hi
    rw [if_neg (show ¬((0 : Nat) = 1 + 2 * K) from by omega)]
    rw [if_neg (show ¬(1 + i = 1 + 2 * K) from by omega)]
    rw [if_neg (show ¬(1 + K + i = 1 + 2 * K) from by omega)]
    rw [if_pos trivial]
    ring
  rw [hP1] at heq
  have hP2 : ∑ i ∈ Finset.range K,
      netSum φ (1 + 2 * K) (2 * K + i * (K - 1))
        ((aiList K i).map (fun ai => (1 + i, 1 + K + ai, (10 : Int) ^ 9))) = 0 := by
    apply Finset.sum_eq_zero
    intro fi hfi
    rw [Finset.mem_range] at hfi
    exact netSum_inner_at_sink φ K fi hfi _ (aiList K fi) _
      (fun ai hai => ((mem_aiList K fi ai).mp hai).1)
  rw [hP2] at heq
  omega

theorem sink_edge_bounds (K : Nat) (cnt : Nat → Int) (capF : List Int)
    (hinv : CapInv (buildGraph (2 * K + 2) (derangementOps K cnt)) capF)
    (j : Nat) (hj : j < K) :
    0 ≤ flowOn (buildGraph (2 * K + 2) (derangementOps K cnt)) capF (2 * (2 * j + 1)) ∧
    flowOn (buildGraph (2 * K + 2) (derangementOps K cnt)) capF (2 * (2 * j + 1)) ≤ cnt j := by
  have hops := derangementOps_mem_bound K cnt
  obtain ⟨_, hto, hcap, _⟩ := buildGraph_spec (2 * K + 2) (derangementOps K cnt) hops
  have hlen : 2 * j + 1 < (derangementOps K cnt).length := by
    rw [derangementOps_eq, List.length_append, drP1_length]
    omega
  have hb := flowOn_nonneg (buildGraph (2 * K + 2) (derangementOps K cnt))
    (derangementOps K cnt) hto hcap capF hinv (2 * j + 1) hlen
  have hgetD : (derangementOps K cnt).getD (2 * j + 1) (0, 0, 0) =
      (1 + K + j, 1 + 2 * K, cnt j) := by
    rw [derangementOps_eq]
    rw [List.getD_append _ _ _ _ (by rw [drP1_length]; omega)]
    exact drP1_getD_odd K cnt j hj
  rw [hgetD] at hb
  exact hb

theorem getD_map {α β : Type} (f : α → β) (l : List α) (r : Nat) (d : β) (d0 : α)
    (hr : r < l.length) : (l.map f).getD r d = f (l.getD r d0) := by
  rw [List.getD_eq_getElem _ _ (by rw [List.length_map]; exact hr)]
  rw [List.getElem_map]
  rw [List.getD_eq_getElem _ _ hr]

theorem find?_eq_none_of_all {α : Type} (p : α → Bool) (l : List α)
    (h : ∀ x ∈ l, p x = false) : l.find? p = none := by
  induction l with
  | nil => rfl
  | cons a rest ih =>
    rw [List.find?_cons_of_neg _ (by simp [h a (List.mem_cons_self a rest)])]
    exact ih (fun x hx => h x (List.mem_cons_of_mem a hx))

theorem find?_append_of_none {α : Type} (p : α → Bool) (l1 l2 : List α)
    (h : l1.find? p = none) : (l1 ++ l2).find? p = l2.find? p := by
  induction l1 with
  | nil => rfl
  | cons a rest ih =>
    rw [List.find?_cons] at h
    rcases hp : p a with _ | _
    · rw [List.cons_append, List.find?_cons_of_neg _ (by simp [hp])]
      rw [hp] at h
      exact ih h
    · rw [hp] at h
      exact absurd h (by simp)

theorem find?_append_of_some {α : Type} (p : α → Bool) (l1 l2 : List α) (x : α)
    (h : l1.find? p = some x) : (l1 ++ l2).find? p = some x := by
  induction l1 with
  | nil => simp at h
  | cons a rest ih =>
    rcases hp : p a with _ | _
    · rw [List.find?_cons_of_neg _ (by simp [hp])] at h
      rw [List.cons_append, List.find?_cons_of_neg _ (by simp [hp])]
      exact ih h
    · rw [List.find?_cons_of_pos _ hp] at h
      rw [List.cons_append, List.find?_cons_of_pos _ hp]
      exact h

theorem selSum_zero_of_not_mem (φ : Nat → Int) (j : Nat) (l : List Nat) (hj : j ∉ l) :
    ∀ k0, selSum φ j k0 l = 0 := by
  induction l with
  | nil => intro k0; rfl
  | cons ai rest ih =>
    intro k0
    rw [selSum]
    rw [if_neg (fun hc => hj (by rw [← hc]; exact List.mem_cons_self ai rest))]
    rw [ih (fun hc => hj (List.mem_cons_of_mem ai hc)) (k0 + 1)]
    ring

theorem flatMap_single_block {α : Type} (fn : Nat → List α) (fi : Nat) :
    ∀ K, fi < K → (∀ i, i < K → i ≠ fi → fn i = []) →
    (List.range K).flatMap fn = fn fi := by
  intro K
  induction K with
  | zero => intro h; omega
  | succ K ih =>
    intro hfi hz
    rw [List.range_succ, List.flatMap_append]
    by_cases hK : fi = K
    · subst hK
      have hall : (List.range fi).flatMap fn = [] := by
        apply List.flatMap_eq_nil_iff.mpr
        intro i hi
        rw [List.mem_range] at hi
        exact hz i (by omega) (by omega)
      rw [hall]
      simp
    · rw [ih (by omega) (fun i hi hne => hz i (by omega) hne)]
      simp only [List.flatMap_cons, List.flatMap_nil, List.append_nil]
      rw [hz K (by omega) (fun hc => hK hc.symm)]
      simp

theorem opsAdj_flatMap_const (w : Nat) (fn : Nat → List (Nat × Nat × Int)) (c : Nat) :
    ∀ K, (∀ i, i < K → (fn i).length = c) → ∀ m0,
    opsAdj w m0 ((List.range K).flatMap fn) =
      (List.range K).flatMap (fun i => opsAdj w (m0 + 2 * (i * c)) (fn i)) := by
  intro K
  induction K with
  | zero => intro _ m0; rfl
  | succ K ih =>
    intro hlen m0
    have hlenK : ∀ i, i < K → (fn i).length = c := fun i hi => hlen i (by omega)
    rw [List.range_succ, List.flatMap_append, opsAdj_append, ih hlenK m0,
      List.flatMap_append]
    congr 1
    simp only [List.flatMap_cons, List.flatMap_nil, List.append_nil]
    rw [flatMap_const_length fn c K hlenK]

theorem filterMap_eq_nil_of_all_none {α β : Type} (f : α → Option β) (l : List α)
    (h : ∀ x ∈ l, f x = none) : l.filterMap f = [] := by
  induction l with
  | nil => rfl
  | cons a rest ih =>
    rw [List.filterMap_cons_none (h a (List.mem_cons_self a rest))]
    exact ih (fun x hx => h x (List.mem_cons_of_mem a hx))


theorem flatMap_congr {α β : Type} (l : List α) (f g : α → List β)
    (h : ∀ a ∈ l, f a = g a) : l.flatMap f = l.flatMap g := by
  induction l with
  | nil => rfl
  | cons a rest ih =>
    rw [List.flatMap_cons, List.flatMap_cons, h a (List.mem_cons_self a rest),
      ih (fun x hx => h x (List.mem_cons_of_mem a hx))]

/-- Entries the allocation extraction produces for one group: walking the
assigned-color list from op offset `k0`, record a positive flow. -/
def blockSel (colors : List Int) (φ : Nat → Int) (fi : Nat) :
    Nat → List Nat → List ((Int × Int) × Int)
  | _, [] => []
  | k0, ai :: rest =>
    (if φ k0 > 0 then [((colors.getD fi 0, colors.getD ai 0), φ k0)] else []) ++
    blockSel colors φ fi (k0 + 1) rest

theorem derangementOps_length (K : Nat) (cnt : Nat → Int) :
    (derangementOps K cnt).length = 2 * K + K * (K - 1) := by
  rw [derangementOps_eq, List.length_append, drP1_length]
  unfold drP2
  rw [flatMap_const_length _ (K - 1) K (drP2_inner_length K)]

theorem capF_rev_eq_phi (K : Nat) (cnt : Nat → Int) (capF : List Int)
    (hinv : CapInv (buildGraph (2 * K + 2) (derangementOps K cnt)) capF)
    (k : Nat) (hk : k < (derangementOps K cnt).length) :
    capF.getD (2 * k + 1) 0 =
      flowOn (buildGraph (2 * K + 2) (derangementOps K cnt)) capF (2 * k) := by
  have hops := derangementOps_mem_bound K cnt
  obtain ⟨_, hto, hcap, _⟩ := buildGraph_spec (2 * K + 2) (derangementOps K cnt) hops
  have hm : (buildGraph (2 * K + 2) (derangementOps K cnt)).to_.length =
      2 * (derangementOps K cnt).length := by rw [hto, opsTo_length]
  have hpair := hinv.pairsum (2 * k) (by omega)
  rw [two_mul_xor_one] at hpair
  have h1 : (buildGraph (2 * K + 2) (derangementOps K cnt)).cap.getD (2 * k + 1) 0 = 0 := by
    rw [hcap]
    exact opsCap_getD_odd _ k hk
  rw [h1] at hpair
  unfold flowOn
  omega

theorem phi_nonneg_all (K : Nat) (cnt : Nat → Int) (capF : List Int)
    (hinv : CapInv (buildGraph (2 * K + 2) (derangementOps K cnt)) capF) :
    ∀ k, 0 ≤ flowOn (buildGraph (2 * K + 2) (derangementOps K cnt)) capF (2 * k) := by
  intro k
  have hops := derangementOps_mem_bound K cnt
  obtain ⟨_, hto, hcap, _⟩ := buildGraph_spec (2 * K + 2) (derangementOps K cnt) hops
  by_cases hk : k < (derangementOps K cnt).length
  · exact (flowOn_nonneg _ _ hto hcap capF hinv k hk).1
  · unfold flowOn
    have hL1 : (buildGraph (2 * K + 2) (derangementOps K cnt)).cap.length ≤ 2 * k := by
      rw [hcap, opsCap_length]
      omega
    have hL2 : capF.length ≤ 2 * k := by
      rw [hinv.len, hto, opsTo_length]
      omega
    rw [List.getD_eq_default _ _ hL1, List.getD_eq_default _ _ hL2]
    omega

theorem group_adj (K : Nat) (cnt : Nat → Int) (fi : Nat) (hfi : fi < K) :
    (buildGraph (2 * K + 2) (derangementOps K cnt)).adj.getD (1 + fi) [] =
      opsAdj (1 + fi) 0 (drP1 K cnt) ++
        (List.range (K - 1)).map (fun r => 4 * K + 2 * (fi * (K - 1)) + 2 * r) := by
  have hops := derangementOps_mem_bound K cnt
  obtain ⟨_, _, _, hadj⟩ := buildGraph_spec (2 * K + 2) (derangementOps K cnt) hops
  rw [hadj (1 + fi)]
  rw [derangementOps_eq, opsAdj_append]
  congr 1
  rw [show (0 + 2 * (drP1 K cnt).length) = 4 * K from by rw [drP1_length]; ring]
  unfold drP2
  rw [opsAdj_flatMap_const _ _ (K - 1) K (drP2_inner_length K)]
  rw [flatMap_single_block _ fi K hfi (by
    intro i hi hne
    apply opsAdj_nil_of_nomatch
    intro op hop
    rw [List.mem_map] at hop
    obtain ⟨ai, hai, heq⟩ := hop
    rw [mem_aiList] at hai
    subst heq
    exact ⟨show 1 + i ≠ 1 + fi from by omega,
      show 1 + K + ai ≠ 1 + fi from by omega⟩)]
  rw [opsAdj_all_src _ _ (by
    intro op hop
    rw [List.mem_map] at hop
    obtain ⟨ai, hai, heq⟩ := hop
    rw [mem_aiList] at hai
    subst heq
    exact ⟨rfl, show 1 + K + ai ≠ 1 + fi from by omega⟩)]
  rw [List.length_map, aiList_length K fi hfi]


theorem filterMap_edges_blockSel (K : Nat) (cnt : Nat → Int) (capF colors : List Int)
    (hinv : CapInv (buildGraph (2 * K + 2) (derangementOps K cnt)) capF)
    (hinj : ∀ a b, a < K → b < K → a ≠ b → colors.getD a 0 ≠ colors.getD b 0)
    (fi : Nat) (hfi : fi < K) :
    ∀ (l : List Nat) (k0 : Nat),
      (∀ ai ∈ l, ai < K ∧ ai ≠ fi) →
      (∀ r, r < l.length → k0 + r < (derangementOps K cnt).length ∧
        (derangementOps K cnt).getD (k0 + r) (0, 0, 0) =
          (1 + fi, 1 + K + l.getD r 0, (10 : Int) ^ 9)) →
      ((List.range l.length).map (fun r => 2 * k0 + 2 * r)).filterMap (fun ei =>
        let v := (buildGraph (2 * K + 2) (derangementOps K cnt)).to_.getD ei 0
        if 1 + K ≤ v ∧ v < 1 + K + K then
          if colors.getD (v - (1 + K)) 0 = colors.getD fi 0 then none
          else
            let sent := capF.getD (ei ^^^ 1) 0
            if sent > 0 then
              some ((colors.getD fi 0, colors.getD (v - (1 + K)) 0), sent)
            else none
        else none) =
      blockSel colors
        (fun k => flowOn (buildGraph (2 * K + 2) (derangementOps K cnt)) capF (2 * k))
        fi k0 l := by
  have hops := derangementOps_mem_bound K cnt
  obtain ⟨_, hto, hcap, _⟩ := buildGraph_spec (2 * K + 2) (derangementOps K cnt) hops
  intro l
  induction l with
  | nil =>
    intro k0 _ _
    rfl
  | cons ai rest ih =>
    intro k0 hmem hcorr
    obtain ⟨hai_lt, hai_ne⟩ := hmem ai (List.mem_cons_self ai rest)
    have h0 := hcorr 0 (by simp)
    rw [show k0 + 0 = k0 from by omega] at h0
    obtain ⟨hk0_lt, hop0⟩ := h0
    have hgd0 : (ai :: rest).getD 0 0 = ai := rfl
    rw [hgd0] at hop0
    have hv : (buildGraph (2 * K + 2) (derangementOps K cnt)).to_.getD (2 * k0) 0 =
        1 + K + ai := by
      rw [hto, opsTo_getD_even _ k0 hk0_lt, hop0]
    have hsent : capF.getD ((2 * k0) ^^^ 1) 0 =
        flowOn (buildGraph (2 * K + 2) (derangementOps K cnt)) capF (2 * k0) := by
      rw [two_mul_xor_one]
      exact capF_rev_eq_phi K cnt capF hinv k0 hk0_lt
    rw [List.length_cons, List.range_succ_eq_map, List.map_cons, List.map_map]
    rw [show 2 * k0 + 2 * 0 = 2 * k0 from by ring]
    have htail : (List.range rest.length).map
        ((fun r => 2 * k0 + 2 * r) ∘ Nat.succ) =
        (List.range rest.length).map (fun r => 2 * (k0 + 1) + 2 * r) := by
      apply List.map_congr_left
      intro r _
      simp only [Function.comp_apply]
      omega
    rw [htail]
    have hrec := ih (k0 + 1)
      (fun q hq => hmem q (List.mem_cons_of_mem ai hq))
      (by
        intro r hr
        have hcr := hcorr (r + 1) (by simp only [List.length_cons]; omega)
        rw [show k0 + (r + 1) = k0 + 1 + r from by omega] at hcr
        exact hcr)
    rw [List.filterMap_cons]
    dsimp only
    rw [hv]
    rw [if_pos (show 1 + K ≤ 1 + K + ai ∧ 1 + K + ai < 1 + K + K from by omega)]
    rw [show 1 + K + ai - (1 + K) = ai from by omega]
    rw [if_neg (hinj ai fi hai_lt hfi hai_ne)]
    rw [hsent]
    rw [blockSel]
    by_cases hpos : flowOn (buildGraph (2 * K + 2) (derangementOps K cnt)) capF (2 * k0) > 0
    · rw [if_pos hpos, if_pos hpos]
      dsimp only
      rw [hrec]
      rfl
    · rw [if_neg hpos, if_neg hpos]
      dsimp only
      rw [hrec]
      rfl

theorem allocList_eq (K : Nat) (cnt : Nat → Int) (capF colors : List Int)
    (hinv : CapInv (buildGraph (2 * K + 2) (derangementOps K cnt)) capF)
    (hinj : ∀ a b, a < K → b < K → a ≠ b → colors.getD a 0 ≠ colors.getD b 0) :
    allocList (buildGraph (2 * K + 2) (derangementOps K cnt)) capF colors K =
      (List.range K).flatMap (fun fi =>
        blockSel colors
          (fun k => flowOn (buildGraph (2 * K + 2) (derangementOps K cnt)) capF (2 * k))
          fi (2 * K + fi * (K - 1)) (aiList K fi)) := by
  have hops := derangementOps_mem_bound K cnt
  obtain ⟨_, hto, hcap, _⟩ := buildGraph_spec (2 * K + 2) (derangementOps K cnt) hops
  unfold allocList
  apply flatMap_congr
  intro fi hfi
  rw [List.mem_range] at hfi
  rw [group_adj K cnt fi hfi]
  rw [List.filterMap_append]
  rw [filterMap_eq_nil_of_all_none _ _ (by
    intro ei hei
    obtain ⟨k, hk, hcase⟩ := mem_opsAdj _ _ _ _ hei
    rw [drP1_length] at hk
    rcases hcase with ⟨hee, hsrc⟩ | ⟨hee, htgt⟩
    · exfalso
      rcases Nat.even_or_odd k with ⟨q, hq⟩ | ⟨q, hq⟩
      · rw [show k = 2 * q from by omega, drP1_getD_even K cnt q (by omega)] at hsrc
        have h0 : (0 : Nat) = 1 + fi := hsrc
        omega
      · rw [show k = 2 * q + 1 from by omega, drP1_getD_odd K cnt q (by omega)] at hsrc
        have : 1 + K + q = 1 + fi := hsrc
        omega
    · rcases Nat.even_or_odd k with ⟨q, hq⟩ | ⟨q, hq⟩
      · have hv0 : (buildGraph (2 * K + 2) (derangementOps K cnt)).to_.getD ei 0 = 0 := by
          rw [hto]
          rw [show ei = 2 * k + 1 from by omega]
          rw [opsTo_getD_odd _ k (by rw [derangementOps_length]; omega)]
          rw [derangementOps_eq,
            List.getD_append _ _ _ _ (by rw [drP1_length]; omega)]
          rw [show k = 2 * q from by omega, drP1_getD_even K cnt q (by omega)]
        dsimp only
        rw [hv0]
        rw [if_neg (by omega)]
      · exfalso
        rw [show k = 2 * q + 1 from by omega, drP1_getD_odd K cnt q (by omega)] at htgt
        have : 1 + 2 * K = 1 + fi := htgt
        omega)]
  rw [List.nil_append]
  have hconv : (List.range (K - 1)).map (fun r => 4 * K + 2 * (fi * (K - 1)) + 2 * r) =
      (List.range (aiList K fi).length).map
        (fun r => 2 * (2 * K + fi * (K - 1)) + 2 * r) := by
    rw [aiList_length K fi hfi]
    apply List.map_congr_left
    intro r _
    ring
  rw [hconv]
  apply filterMap_edges_blockSel K cnt capF colors hinv hinj fi hfi
  · intro ai hai
    rw [mem_aiList] at hai
    exact hai
  · intro r hr
    rw [aiList_length K fi hfi] at hr
    have hK1 : 1 ≤ K := by omega
    have hmul : fi * (K - 1) ≤ (K - 1) * (K - 1) :=
      Nat.mul_le_mul_right (K - 1) (by omega)
    have hKK : K * (K - 1) = (K - 1) * (K - 1) + (K - 1) := by
      cases K with
      | zero => omega
      | succ c => simp; ring
    constructor
    · rw [derangementOps_length]
      omega
    · rw [derangementOps_eq]
      rw [List.getD_append_right _ _ _ _ (by rw [drP1_length]; omega)]
      rw [drP1_length]
      rw [show 2 * K + fi * (K - 1) + r - 2 * K = fi * (K - 1) + r from by omega]
      unfold drP2
      rw [flatMap_const_getD _ (K - 1) _ K (drP2_inner_length K) fi r hfi hr]
      rw [getD_map _ _ _ _ 0 (by rw [aiList_length K fi hfi]; exact hr)]


theorem mem_blockSel_key (colors : List Int) (φ : Nat → Int) (fi : Nat) :
    ∀ (l : List Nat) (k0 : Nat) (x : (Int × Int) × Int),
      x ∈ blockSel colors φ fi k0 l →
      ∃ ai ∈ l, x.1 = (colors.getD fi 0, colors.getD ai 0) := by
  intro l
  induction l with
  | nil =>
    intro k0 x hx
    exact absurd hx (List.not_mem_nil x)
  | cons ai rest ih =>
    intro k0 x hx
    rw [blockSel, List.mem_append] at hx
    rcases hx with hx | hx
    · by_cases hpos : φ k0 > 0
      · rw [if_pos hpos, List.mem_singleton] at hx
        subst hx
        exact ⟨ai, List.mem_cons_self ai rest, rfl⟩
      · rw [if_neg hpos] at hx
        exact absurd hx (List.not_mem_nil x)
    · obtain ⟨ai', hai', hkey⟩ := ih (k0 + 1) x hx
      exact ⟨ai', List.mem_cons_of_mem ai hai', hkey⟩

theorem find?_blockSel_not_mem (colors : List Int) (φ : Nat → Int) (K fi j : Nat)
    (hj : j < K)
    (hinj : ∀ a b, a < K → b < K → a ≠ b → colors.getD a 0 ≠ colors.getD b 0)
    (l : List Nat) (k0 : Nat) (hlK : ∀ ai ∈ l, ai < K) (hjl : j ∉ l) :
    (blockSel colors φ fi k0 l).find?
      (fun y => y.1 = (colors.getD fi 0, colors.getD j 0)) = none := by
  apply find?_eq_none_of_all
  intro x hx
  obtain ⟨ai, hai, hkey⟩ := mem_blockSel_key colors φ fi l k0 x hx
  have hne : colors.getD ai 0 ≠ colors.getD j 0 :=
    hinj ai j (hlK ai hai) hj (fun hc => hjl (hc ▸ hai))
  simp only [hkey, decide_eq_false_iff_not]
  intro hc
  injection hc with h1 h2
  exact hne h2

theorem find?_blockSel_fst_ne (colors : List Int) (φ : Nat → Int) (fi' : Nat)
    (cf cj : Int) (hne : colors.getD fi' 0 ≠ cf) (l : List Nat) (k0 : Nat) :
    (blockSel colors φ fi' k0 l).find? (fun y => y.1 = (cf, cj)) = none := by
  apply find?_eq_none_of_all
  intro x hx
  obtain ⟨ai, _, hkey⟩ := mem_blockSel_key colors φ fi' l k0 x hx
  simp only [hkey, decide_eq_false_iff_not]
  intro hc
  injection hc with h1 h2
  exact hne h1

theorem find?_blockSel_cases (colors : List Int) (φ : Nat → Int) (K fi j : Nat)
    (hfi : fi < K) (hj : j < K)
    (hinj : ∀ a b, a < K → b < K → a ≠ b → colors.getD a 0 ≠ colors.getD b 0)
    (hphi : ∀ k, 0 ≤ φ k) :
    ∀ (l : List Nat) (k0 : Nat), (∀ ai ∈ l, ai < K) → l.Nodup →
      (∃ x, (blockSel colors φ fi k0 l).find?
          (fun y => y.1 = (colors.getD fi 0, colors.getD j 0)) = some x ∧
        x.2 = selSum φ j k0 l) ∨
      ((blockSel colors φ fi k0 l).find?
          (fun y => y.1 = (colors.getD fi 0, colors.getD j 0)) = none ∧
        selSum φ j k0 l = 0) := by
  intro l
  induction l with
  | nil =>
    intro k0 _ _
    right
    exact ⟨rfl, rfl⟩
  | cons ai rest ih =>
    intro k0 hlK hnd
    rw [List.nodup_cons] at hnd
    have hrestK : ∀ q ∈ rest, q < K := fun q hq => hlK q (List.mem_cons_of_mem ai hq)
    rw [blockSel, selSum]
    by_cases haij : ai = j
    · have hrest0 : selSum φ j (k0 + 1) rest = 0 :=
        selSum_zero_of_not_mem φ j rest (fun hc => hnd.1 (by rw [haij]; exact hc)) (k0 + 1)
      rw [hrest0, if_pos haij]
      by_cases hpos : φ k0 > 0
      · rw [if_pos hpos, List.singleton_append]
        left
        refine ⟨((colors.getD fi 0, colors.getD ai 0), φ k0), ?_, by omega⟩
        rw [List.find?_cons_of_pos _ (by simp [haij])]
      · rw [if_neg hpos, List.nil_append]
        right
        constructor
        · exact find?_blockSel_not_mem colors φ K fi j hj hinj rest (k0 + 1)
            hrestK (fun hc => hnd.1 (by rw [haij]; exact hc))
        · have := hphi k0
          omega
    · rw [if_neg haij]
      have hkeyne : colors.getD ai 0 ≠ colors.getD j 0 :=
        hinj ai j (hlK ai (List.mem_cons_self ai rest)) hj haij
      rcases ih (k0 + 1) hrestK hnd.2 with ⟨x, hfind, hval⟩ | ⟨hfind, hval⟩
      · by_cases hpos : φ k0 > 0
        · rw [if_pos hpos, List.singleton_append]
          left
          refine ⟨x, ?_, by omega⟩
          rw [List.find?_cons_of_neg _ (by
            simp only [decide_eq_true_eq]
            intro hc
            injection hc with h1 h2
            exact hkeyne h2)]
          exact hfind
        · rw [if_neg hpos, List.nil_append]
          left
          exact ⟨x, hfind, by omega⟩
      · by_cases hpos : φ k0 > 0
        · rw [if_pos hpos, List.singleton_append]
          right
          constructor
          · rw [List.find?_cons_of_neg _ (by
              simp only [decide_eq_true_eq]
              intro hc
              injection hc with h1 h2
              exact hkeyne h2)]
            exact hfind
          · omega
        · rw [if_neg hpos, List.nil_append]
          right
          exact ⟨hfind, by omega⟩

theorem allocGet_flatMap_blocks (colors : List Int) (φ : Nat → Int) (K j : Nat)
    (hj : j < K)
    (hinj : ∀ a b, a < K → b < K → a ≠ b → colors.getD a 0 ≠ colors.getD b 0)
    (hphi : ∀ k, 0 ≤ φ k) (ofs : Nat → Nat) (fi : Nat) (hfiK : fi < K) :
    ∀ (lst : List Nat), fi ∈ lst → lst.Nodup → (∀ i ∈ lst, i < K) →
    allocGet (lst.flatMap (fun i => blockSel colors φ i (ofs i) (aiList K i)))
      (colors.getD fi 0) (colors.getD j 0) = selSum φ j (ofs fi) (aiList K fi) := by
  intro lst
  induction lst with
  | nil =>
    intro hmem
    exact absurd hmem (List.not_mem_nil fi)
  | cons i rest ih =>
    intro hmem hnd hK
    rw [List.nodup_cons] at hnd
    rw [List.flatMap_cons]
    unfold allocGet
    by_cases hif : i = fi
    · subst hif
      have hcases := find?_blockSel_cases colors φ K i j (hK i (List.mem_cons_self i rest))
        hj hinj hphi (aiList K i) (ofs i)
        (fun ai hai => ((mem_aiList K i ai).mp hai).1) (nodup_aiList K i)
      rcases hcases with ⟨x, hfind, hval⟩ | ⟨hfind, hval⟩
      · rw [find?_append_of_some _ _ _ x hfind]
        exact hval
      · rw [find?_append_of_none _ _ _ hfind]
        rw [find?_eq_none_of_all _ _ (by
          intro x hx
          rw [List.mem_flatMap] at hx
          obtain ⟨i', hi', hxin⟩ := hx
          obtain ⟨ai, _, hkey⟩ := mem_blockSel_key colors φ i' (aiList K i') (ofs i') x hxin
          have hfst : colors.getD i' 0 ≠ colors.getD i 0 :=
            hinj i' i (hK i' (List.mem_cons_of_mem i hi'))
              (hK i (List.mem_cons_self i rest))
              (fun hc => hnd.1 (hc ▸ hi'))
          simp only [hkey, decide_eq_false_iff_not]
          intro hc
          injection hc with h1 h2
          exact hfst h1)]
        exact hval.symm
    · rw [find?_append_of_none _ _ _ (find?_blockSel_fst_ne colors φ i _ _
        (hinj i fi (hK i (List.mem_cons_self i rest)) hfiK hif) (aiList K i) (ofs i))]
      have := ih (by
        rcases List.mem_cons.mp hmem with hc | hc
        · exact absurd hc.symm hif
        · exact hc) hnd.2 (fun q hq => hK q (List.mem_cons_of_mem i hq))
      unfold allocGet at this
      exact this


theorem derangement_sink_saturation (K : Nat) (cnt : Nat → Int) (capF : List Int)
    (hcnt : ∀ i, 0 ≤ cnt i) (d1 d2 d3 : Nat) (flow : Int)
    (hmf : (buildGraph (2 * K + 2) (derangementOps K cnt)).max_flow 0 (2 * K + 1) d1 d2 d3 =
      some (flow, capF))
    (hsumcnt : ∑ i ∈ Finset.range K, cnt i = flow) :
    CapInv (buildGraph (2 * K + 2) (derangementOps K cnt)) capF ∧
    ∀ j ∈ Finset.range K,
      flowOn (buildGraph (2 * K + 2) (derangementOps K cnt)) capF (2 * (2 * j + 1)) = cnt j := by
  have hops := derangementOps_mem_bound K cnt
  have hwf := buildGraph_wf (2 * K + 2) (derangementOps K cnt) hops
  have hnn := buildGraph_cap_nonneg (2 * K + 2) (derangementOps K cnt) hops
    (derangementOps_cap_nonneg K cnt hcnt)
  obtain ⟨hinv, hflow0, hnet⟩ := max_flow_conservation
    (buildGraph (2 * K + 2) (derangementOps K cnt)) hwf 0 (2 * K + 1)
    (by omega) d1 d2 d3 hnn flow capF hmf
  have hnetT : netOut (buildGraph (2 * K + 2) (derangementOps K cnt)) capF (1 + 2 * K) =
      - flow := by
    rw [hnet (1 + 2 * K)]
    rw [if_neg (show ¬((0 : Nat) = 1 + 2 * K) from by omega)]
    rw [if_pos (show 2 * K + 1 = 1 + 2 * K from by omega)]
    omega
  have hsink := conservation_sink K cnt capF flow hinv hnetT
  refine ⟨hinv, ?_⟩
  apply sum_squeeze
  · intro i hi
    rw [Finset.mem_range] at hi
    exact (sink_edge_bounds K cnt capF hinv i hi).2
  · rw [hsink, hsumcnt]

theorem derangement_alloc_col (K : Nat) (cnt : Nat → Int) (capF colors : List Int)
    (hcnt : ∀ i, 0 ≤ cnt i)
    (hinj : ∀ a b, a < K → b < K → a ≠ b → colors.getD a 0 ≠ colors.getD b 0)
    (d1 d2 d3 : Nat) (flow : Int)
    (hmf : (buildGraph (2 * K + 2) (derangementOps K cnt)).max_flow 0 (2 * K + 1) d1 d2 d3 =
      some (flow, capF))
    (hsumcnt : ∑ i ∈ Finset.range K, cnt i = flow)
    (j : Nat) (hj : j < K) :
    ∑ fi ∈ Finset.range K,
      (if fi = j then 0 else
        allocGet (allocList (buildGraph (2 * K + 2) (derangementOps K cnt)) capF colors K)
          (colors.getD fi 0) (colors.getD j 0)) = cnt j := by
  have hops := derangementOps_mem_bound K cnt
  have hwf := buildGraph_wf (2 * K + 2) (derangementOps K cnt) hops
  have hnn := buildGraph_cap_nonneg (2 * K + 2) (derangementOps K cnt) hops
    (derangementOps_cap_nonneg K cnt hcnt)
  obtain ⟨hinv, hflow0, hnet⟩ := max_flow_conservation
    (buildGraph (2 * K + 2) (derangementOps K cnt)) hwf 0 (2 * K + 1)
    (by omega) d1 d2 d3 hnn flow capF hmf
  have hnet0 : ∀ j', j' < K →
      netOut (buildGraph (2 * K + 2) (derangementOps K cnt)) capF (1 + K + j') = 0 := by
    intro j' hj'
    rw [hnet (1 + K + j')]
    rw [if_neg (show ¬((0 : Nat) = 1 + K + j') from by omega)]
    rw [if_neg (show ¬(2 * K + 1 = 1 + K + j') from by omega)]
    omega
  have hcol := conservation_col K cnt capF hinv hnet0 j hj
  obtain ⟨_, hsat⟩ := derangement_sink_saturation K cnt capF hcnt d1 d2 d3 flow hmf hsumcnt
  have hstep : ∀ fi ∈ Finset.range K,
      (if fi = j then 0 else
        allocGet (allocList (buildGraph (2 * K + 2) (derangementOps K cnt)) capF colors K)
          (colors.getD fi 0) (colors.getD j 0)) =
      selSum (fun k => flowOn (buildGraph (2 * K + 2) (derangementOps K cnt)) capF (2 * k))
        j (2 * K + fi * (K - 1)) (aiList K fi) := by
    intro fi hfi
    rw [Finset.mem_range] at hfi
    by_cases hfij : fi = j
    · subst hfij
      rw [if_pos rfl]
      rw [selSum_zero_of_not_mem _ _ _ (by
        intro hc
        exact ((mem_aiList K fi fi).mp hc).2 rfl)]
    · rw [if_neg hfij]
      rw [allocList_eq K cnt capF colors hinv hinj]
      exact allocGet_flatMap_blocks colors
        (fun k => flowOn (buildGraph (2 * K + 2) (derangementOps K cnt)) capF (2 * k))
        K j hj hinj (phi_nonneg_all K cnt capF hinv)
        (fun i => 2 * K + i * (K - 1)) fi hfi (List.range K)
        (List.mem_range.mpr hfi) (List.nodup_range K)
        (fun i hi => List.mem_range.mp hi)
  rw [Finset.sum_congr rfl hstep]
  rw [← hcol]
  exact hsat j (Finset.mem_range.mpr hj)


theorem insertSorted_perm {α : Type} (le : α → α → Bool) (a : α) (l : List α) :
    (insertSorted le a l).Perm (a :: l) := by
  induction l with
  | nil => exact List.Perm.refl _
  | cons b t ih =>
    rw [insertSorted]
    by_cases h : le a b
    · rw [if_pos h]
    · rw [if_neg h]
      exact (ih.cons b).trans (List.Perm.swap a b t)

theorem pySort_perm {α : Type} (le : α → α → Bool) (l : List α) :
    (pySort le l).Perm l := by
  induction l with
  | nil => exact List.Perm.refl _
  | cons a t ih =>
    rw [pySort]
    exact (insertSorted_perm le a (pySort le t)).trans (ih.cons a)

theorem sortedColors_nodup (scan : List ((Nat × Nat) × Int)) :
    (sortedColors scan).Nodup := by
  unfold sortedColors
  exact ((pySort_perm _ _).nodup_iff).mpr (List.nodup_dedup _)

theorem mem_sortedColors (scan : List ((Nat × Nat) × Int)) (c : Int) :
    c ∈ sortedColors scan ↔ c ∈ scan.map Prod.snd := by
  unfold sortedColors
  rw [(pySort_perm _ _).mem_iff, List.mem_dedup]

theorem nodup_getD_ne (l : List Int) (hnd : l.Nodup) (a b : Nat)
    (ha : a < l.length) (hb : b < l.length) (hne : a ≠ b) :
    l.getD a 0 ≠ l.getD b 0 := by
  rw [List.getD_eq_getElem _ _ ha, List.getD_eq_getElem _ _ hb]
  intro hc
  exact hne ((List.Nodup.getElem_inj_iff hnd).mp hc)

theorem scan_functional (g : Grid) (w h : Nat) (p : Nat × Nat) (c c' : Int)
    (h1 : (p, c) ∈ occupiedScan g w h) (h2 : (p, c') ∈ occupiedScan g w h) : c = c' := by
  obtain ⟨x, y⟩ := p
  rw [mem_occupiedScan] at h1 h2
  have h3 : (some c : Option Int) = some c' := h1.2.2.symm.trans h2.2.2
  exact Option.some.inj h3

theorem mem_posOf (scan : List ((Nat × Nat) × Int)) (c : Int) (p : Nat × Nat) :
    p ∈ posOf scan c ↔ (p, c) ∈ scan := by
  unfold posOf
  rw [List.mem_map]
  constructor
  · rintro ⟨pc, hpc, hfst⟩
    rw [List.mem_filter] at hpc
    have hsnd : pc.2 = c := by
      have := hpc.2
      simp only [decide_eq_true_eq] at this
      exact this
    have : pc = (p, c) := by
      obtain ⟨q, d⟩ := pc
      simp only [Prod.mk.injEq]
      exact ⟨hfst, hsnd⟩
    rw [← this]
    exact hpc.1
  · intro hp
    refine ⟨(p, c), ?_, rfl⟩
    rw [List.mem_filter]
    exact ⟨hp, by simp⟩

theorem posOf_nodup (scan : List ((Nat × Nat) × Int))
    (hnd : scan.Nodup) (c : Int) : (posOf scan c).Nodup := by
  unfold posOf
  apply List.Nodup.map_on
  · intro x hx y hy hfst
    rw [List.mem_filter] at hx hy
    have hx2 : x.2 = c := by simpa using hx.2
    have hy2 : y.2 = c := by simpa using hy.2
    obtain ⟨xp, xc⟩ := x
    obtain ⟨yp, yc⟩ := y
    simp only at hfst hx2 hy2
    rw [Prod.mk.injEq]
    exact ⟨hfst, hx2.trans hy2.symm⟩
  · exact hnd.filter _

theorem nodup_occupiedScan (g : Grid) (w h : Nat) : (occupiedScan g w h).Nodup := by
  unfold occupiedScan
  rw [List.nodup_flatMap]
  constructor
  · intro y _
    apply List.Nodup.filterMap
    · intro x1 x2 b hb1 hb2
      rcases hgc1 : getCell g x1 y with _ | c1
      · rw [hgc1] at hb1
        simp at hb1
      · rw [hgc1] at hb1
        rcases hgc2 : getCell g x2 y with _ | c2
        · rw [hgc2] at hb2
          simp at hb2
        · rw [hgc2] at hb2
          rw [Option.map_some'] at hb1 hb2
          have e1 := Option.some.inj hb1
          have e2 := Option.some.inj hb2
          have e3 : (((x1, y), c1) : (Nat × Nat) × Int) = ((x2, y), c2) :=
            e1.trans e2.symm
          exact congrArg (fun p => p.1.1) e3
    · exact List.nodup_range w
  · have hpw : (List.range h).Pairwise (· < ·) := List.pairwise_lt_range h
    refine hpw.imp ?_
    intro y1 y2 hlt a ha1 ha2
    rw [List.mem_filterMap] at ha1 ha2
    obtain ⟨x1, _, hx1⟩ := ha1
    obtain ⟨x2, _, hx2⟩ := ha2
    rcases hgc1 : getCell g x1 y1 with _ | c1
    · rw [hgc1] at hx1
      simp at hx1
    · rw [hgc1] at hx1
      rcases hgc2 : getCell g x2 y2 with _ | c2
      · rw [hgc2] at hx2
        simp at hx2
      · rw [hgc2] at hx2
        rw [Option.map_some'] at hx1 hx2
        have e1 := Option.some.inj hx1
        have e2 := Option.some.inj hx2
        have e3 : (((x1, y1), c1) : (Nat × Nat) × Int) = ((x2, y2), c2) :=
          e1.trans e2.symm
        injection e3 with h1 _
        injection h1 with _ h2
        omega

/-- Total flow of one group's edge block (all `K-1` outgoing edges). -/
def blockSum (φ : Nat → Int) : Nat → List Nat → Int
  | _, [] => 0
  | k0, _ :: rest => φ k0 + blockSum φ (k0 + 1) rest

/-- `netSum` of one group's edge block at a group node. -/
theorem netSum_inner_at_group (φ : Nat → Int) (K fi fi' : Nat) (hfi : fi < K) (cv : Int) :
    ∀ (l : List Nat) (k0 : Nat),
      netSum φ (1 + fi) k0 (l.map (fun ai => (1 + fi', 1 + K + ai, cv))) =
        if fi' = fi then blockSum φ k0 l else 0 := by
  intro l
  induction l with
  | nil =>
    intro k0
    by_cases h : fi' = fi <;> simp [netSum, blockSum, h]
  | cons ai rest ih =>
    intro k0
    rw [List.map_cons]
    show ((if 1 + fi' = 1 + fi then φ k0 else 0) -
      (if 1 + K + ai = 1 + fi then φ k0 else 0)) +
      netSum φ (1 + fi) (k0 + 1) (rest.map (fun ai => (1 + fi', 1 + K + ai, cv))) = _
    rw [ih (k0 + 1)]
    rw [if_neg (show ¬(1 + K + ai = 1 + fi) from by omega)]
    by_cases h : fi' = fi
    · rw [if_pos (show 1 + fi' = 1 + fi from by omega), if_pos h, if_pos h, blockSum]
      ring
    · rw [if_neg (show ¬(1 + fi' = 1 + fi) from by omega), if_neg h, if_neg h]
      ring

/-- `netSum` of one group's edge block at the source node. -/
theorem netSum_inner_at_src (φ : Nat → Int) (K fi : Nat) (cv : Int) :
    ∀ (l : List Nat) (k0 : Nat),
      netSum φ 0 k0 (l.map (fun ai => (1 + fi, 1 + K + ai, cv))) = 0 := by
  intro l
  induction l with
  | nil => intro k0; simp [netSum]
  | cons ai rest ih =>
    intro k0
    rw [List.map_cons]
    show ((if 1 + fi = 0 then φ k0 else 0) - (if 1 + K + ai = 0 then φ k0 else 0)) +
      netSum φ 0 (k0 + 1) (rest.map (fun ai => (1 + fi, 1 + K + ai, cv))) = _
    rw [ih (k0 + 1)]
    rw [if_neg (show ¬(1 + fi = 0) from by omega)]
    rw [if_neg (show ¬(1 + K + ai = 0) from by omega)]
    ring

theorem conservation_group (K : Nat) (cnt : Nat → Int) (capF : List Int)
    (hinv : CapInv (buildGraph (2 * K + 2) (derangementOps K cnt)) capF)
    (hnet0 : ∀ fi, fi < K →
      netOut (buildGraph (2 * K + 2) (derangementOps K cnt)) capF (1 + fi) = 0)
    (fi : Nat) (hfi : fi < K) :
    flowOn (buildGraph (2 * K + 2) (derangementOps K cnt)) capF (2 * (2 * fi)) =
      blockSum (fun k => flowOn (buildGraph (2 * K + 2) (derangementOps K cnt)) capF (2 * k))
        (2 * K + fi * (K - 1)) (aiList K fi) := by
  have hops := derangementOps_mem_bound K cnt
  have heq := netOut_eq_netSum (2 * K + 2) (derangementOps K cnt) hops capF hinv (1 + fi)
  rw [hnet0 fi hfi] at heq
  set φ : Nat → Int :=
    fun k => flowOn (buildGraph (2 * K + 2) (derangementOps K cnt)) capF (2 * k) with hphi
  have hgoal : flowOn (buildGraph (2 * K + 2) (derangementOps K cnt)) capF (2 * (2 * fi)) =
      φ (2 * fi) := rfl
  rw [hgoal]
  rw [derangementOps_eq, netSum_append] at heq
  rw [show (drP1 K cnt).length = 2 * K from drP1_length K cnt] at heq
  unfold drP1 at heq
  rw [netSum_pairFlatMap] at heq
  unfold drP2 at heq
  rw [netSum_flatMap_const _ _ _ (K - 1) K (drP2_inner_length K)] at heq
  dsimp only at heq
  simp only [Nat.zero_add] at heq
  have hP1 : ∑ i ∈ Finset.range K,
      (((if (0 : Nat) = 1 + fi then φ (2 * i) else 0) -
        (if 1 + i = 1 + fi then φ (2 * i) else 0)) +
       ((if 1 + K + i = 1 + fi then φ (2 * i + 1) else 0) -
        (if 1 + 2 * K = 1 + fi then φ (2 * i + 1) else 0))) = - φ (2 * fi) := by
    have hstep : ∀ i ∈ Finset.range K,
        (((if (0 : Nat) = 1 + fi then φ (2 * i) else 0) -
          (if 1 + i = 1 + fi then φ (2 * i) else 0)) +
         ((if 1 + K + i = 1 + fi then φ (2 * i + 1) else 0) -
          (if 1 + 2 * K = 1 + fi then φ (2 * i + 1) else 0))) =
        (if i = fi then - φ (2 * i) else 0) := by
      intro i hi
      rw [Finset.mem_range] at hi
      rw [if_neg (show ¬((0 : Nat) = 1 + fi) from by omega)]
      rw [if_neg (show ¬(1 + K + i = 1 + fi) from by omega)]
      rw [if_neg (show ¬(1 + 2 * K = 1 + fi) from by omega)]
      by_cases hif : i = fi
      · rw [if_pos (show 1 + i = 1 + fi from by omega), if_pos hif]
        ring
      · rw [if_neg (show ¬(1 + i = 1 + fi) from by omega), if_neg hif]
        ring
    rw [Finset.sum_congr rfl hstep]
    rw [Finset.sum_ite_eq' (Finset.range K) fi]
    rw [if_pos (Finset.mem_range.mpr hfi)]
  rw [hP1] at heq
  have hP2 : ∑ i ∈ Finset.range K,
      netSum φ (1 + fi) (2 * K + i * (K - 1))
        ((aiList K i).map (fun ai => (1 + i, 1 + K + ai, (10 : Int) ^ 9))) =
      blockSum φ (2 * K + fi * (K - 1)) (aiList K fi) := by
    have hstep : ∀ i ∈ Finset.range K,
        netSum φ (1 + fi) (2 * K + i * (K - 1))
          ((aiList K i).map (fun ai => (1 + i, 1 + K + ai, (10 : Int) ^ 9))) =
        (if i = fi then blockSum φ (2 * K + i * (K - 1)) (aiList K i) else 0) := by
      intro i _
      exact netSum_inner_at_group φ K fi i hfi _ (aiList K i) _
    rw [Finset.sum_congr rfl hstep]
    rw [Finset.sum_ite_eq' (Finset.range K) fi]
    rw [if_pos (Finset.mem_range.mpr hfi)]
  rw [hP2] at heq
  omega

theorem conservation_source (K : Nat) (cnt : Nat → Int) (capF : List Int) (flow : Int)
    (hinv : CapInv (buildGraph (2 * K + 2) (derangementOps K cnt)) capF)
    (hnet : netOut (buildGraph (2 * K + 2) (derangementOps K cnt)) capF 0 = flow) :
    ∑ i ∈ Finset.range K,
      flowOn (buildGraph (2 * K + 2) (derangementOps K cnt)) capF (2 * (2 * i)) = flow := by
  have hops := derangementOps_mem_bound K cnt
  have heq := netOut_eq_netSum (2 * K + 2) (derangementOps K cnt) hops capF hinv 0
  rw [hnet] at heq
  set φ : Nat → Int :=
    fun k => flowOn (buildGraph (2 * K + 2) (derangementOps K cnt)) capF (2 * k) with hphi
  have hgoal : ∀ i : Nat,
      flowOn (buildGraph (2 * K + 2) (derangementOps K cnt)) capF (2 * (2 * i)) =
      φ (2 * i) := fun i => rfl
  rw [Finset.sum_congr rfl (fun i _ => hgoal i)]
  rw [derangementOps_eq, netSum_append] at heq
  rw [show (drP1 K cnt).length = 2 * K from drP1_length K cnt] at heq
  unfold drP1 at heq
  rw [netSum_pairFlatMap] at heq
  unfold drP2 at heq
  rw [netSum_flatMap_const _ _ _ (K - 1) K (drP2_inner_length K)] at heq
  dsimp only at heq
  simp only [Nat.zero_add] at heq
  have hP1 : ∑ i ∈ Finset.range K,
      (((if True then φ (2 * i) else 0) -
        (if 1 + i = 0 then φ (2 * i) else 0)) +
       ((if 1 + K + i = 0 then φ (2 * i + 1) else 0) -
        (if 1 + 2 * K = 0 then φ (2 * i + 1) else 0))) =
      ∑ i ∈ Finset.range K, φ (2 * i) := by
    apply Finset.sum_congr rfl
    intro i hi
    rw [if_pos trivial]
    rw [if_neg (show ¬(1 + i = 0) from by omega)]
    rw [if_neg (show ¬(1 + K + i = 0) from by omega)]
    rw [if_neg (show ¬(1 + 2 * K = 0) from by omega)]
    ring
  rw [hP1] at heq
  have hP2 : ∑ i ∈ Finset.range K,
      netSum φ 0 (2 * K + i * (K - 1))
        ((aiList K i).map (fun ai => (1 + i, 1 + K + ai, (10 : Int) ^ 9))) = 0 := by
    apply Finset.sum_eq_zero
    intro fi _
    exact netSum_inner_at_src φ K fi _ (aiList K fi) _
  rw [hP2] at heq
  omega

theorem source_edge_bounds (K : Nat) (cnt : Nat → Int) (capF : List Int)
    (hinv : CapInv (buildGraph (2 * K + 2) (derangementOps K cnt)) capF)
    (j : Nat) (hj : j < K) :
    0 ≤ flowOn (buildGraph (2 * K + 2) (derangementOps K cnt)) capF (2 * (2 * j)) ∧
    flowOn (buildGraph (2 * K + 2) (derangementOps K cnt)) capF (2 * (2 * j)) ≤ cnt j := by
  have hops := derangementOps_mem_bound K cnt
  obtain ⟨_, hto, hcap, _⟩ := buildGraph_spec (2 * K + 2) (derangementOps K cnt) hops
  have hlen : 2 * j < (derangementOps K cnt).length := by
    rw [derangementOps_eq, List.length_append, drP1_length]
    omega
  have hb := flowOn_nonneg (buildGraph (2 * K + 2) (derangementOps K cnt))
    (derangementOps K cnt) hto hcap capF hinv (2 * j) hlen
  have hgetD : (derangementOps K cnt).getD (2 * j) (0, 0, 0) = (0, 1 + j, cnt j) := by
    rw [derangementOps_eq]
    rw [List.getD_append _ _ _ _ (by rw [drP1_length]; omega)]
    exact drP1_getD_even K cnt j hj
  rw [hgetD] at hb
  exact hb

theorem derangement_source_saturation (K : Nat) (cnt : Nat → Int) (capF : List Int)
    (hcnt : ∀ i, 0 ≤ cnt i) (d1 d2 d3 : Nat) (flow : Int)
    (hmf : (buildGraph (2 * K + 2) (derangementOps K cnt)).max_flow 0 (2 * K + 1) d1 d2 d3 =
      some (flow, capF))
    (hsumcnt : ∑ i ∈ Finset.range K, cnt i = flow) :
    ∀ j ∈ Finset.range K,
      flowOn (buildGraph (2 * K + 2) (derangementOps K cnt)) capF (2 * (2 * j)) = cnt j := by
  have hops := derangementOps_mem_bound K cnt
  have hwf := buildGraph_wf (2 * K + 2) (derangementOps K cnt) hops
  have hnn := buildGraph_cap_nonneg (2 * K + 2) (derangementOps K cnt) hops
    (derangementOps_cap_nonneg K cnt hcnt)
  obtain ⟨hinv, hflow0, hnet⟩ := max_flow_conservation
    (buildGraph (2 * K + 2) (derangementOps K cnt)) hwf 0 (2 * K + 1)
    (by omega) d1 d2 d3 hnn flow capF hmf
  have hnetS : netOut (buildGraph (2 * K + 2) (derangementOps K cnt)) capF 0 = flow := by
    rw [hnet 0]
    rw [if_pos rfl]
    rw [if_neg (show ¬(2 * K + 1 = 0) from by omega)]
    omega
  have hsrc := conservation_source K cnt capF flow hinv hnetS
  apply sum_squeeze
  · intro i hi
    rw [Finset.mem_range] at hi
    exact (source_edge_bounds K cnt capF hinv i hi).2
  · rw [hsrc, hsumcnt]

theorem sum_ite_selSum (φ : Nat → Int) (K fi : Nat) :
    ∀ (l : List Nat) (k0 : Nat), (∀ ai ∈ l, ai < K ∧ ai ≠ fi) →
      ∑ j ∈ Finset.range K, (if j = fi then 0 else selSum φ j k0 l) = blockSum φ k0 l := by
  intro l
  induction l with
  | nil =>
    intro k0 _
    simp [selSum, blockSum]
  | cons ai rest ih =>
    intro k0 hall
    obtain ⟨haiK, haif⟩ := hall ai (List.mem_cons_self ai rest)
    have hsplit : ∀ j ∈ Finset.range K,
        (if j = fi then 0 else selSum φ j k0 (ai :: rest)) =
        (if j = fi then 0 else if ai = j then φ k0 else 0) +
        (if j = fi then 0 else selSum φ j (k0 + 1) rest) := by
      intro j _
      by_cases hj : j = fi
      · rw [if_pos hj, if_pos hj, if_pos hj]
        ring
      · rw [if_neg hj, if_neg hj, if_neg hj, selSum]
    rw [Finset.sum_congr rfl hsplit, Finset.sum_add_distrib]
    rw [ih (k0 + 1) (fun q hq => hall q (List.mem_cons_of_mem ai hq))]
    have hfirst : ∑ j ∈ Finset.range K,
        (if j = fi then 0 else if ai = j then φ k0 else 0) = φ k0 := by
      have hstep : ∀ j ∈ Finset.range K,
          (if j = fi then 0 else if ai = j then φ k0 else 0) =
          (if j = ai then φ k0 else 0) := by
        intro j _
        by_cases hj : j = fi
        · rw [if_pos hj, if_neg (show ¬(j = ai) from by omega)]
        · rw [if_neg hj]
          by_cases hja : ai = j
          · rw [if_pos hja, if_pos hja.symm]
          · rw [if_neg hja, if_neg (fun hc => hja hc.symm)]
      rw [Finset.sum_congr rfl hstep]
      rw [Finset.sum_ite_eq' (Finset.range K) ai]
      rw [if_pos (Finset.mem_range.mpr haiK)]
    rw [hfirst, blockSum]

theorem derangement_alloc_row (K : Nat) (cnt : Nat → Int) (capF colors : List Int)
    (hcnt : ∀ i, 0 ≤ cnt i)
    (hinj : ∀ a b, a < K → b < K → a ≠ b → colors.getD a 0 ≠ colors.getD b 0)
    (d1 d2 d3 : Nat) (flow : Int)
    (hmf : (buildGraph (2 * K + 2) (derangementOps K cnt)).max_flow 0 (2 * K + 1) d1 d2 d3 =
      some (flow, capF))
    (hsumcnt : ∑ i ∈ Finset.range K, cnt i = flow)
    (fi : Nat) (hfi : fi < K) :
    ∑ j ∈ Finset.range K,
      (if j = fi then 0 else
        allocGet (allocList (buildGraph (2 * K + 2) (derangementOps K cnt)) capF colors K)
          (colors.getD fi 0) (colors.getD j 0)) = cnt fi := by
  have hops := derangementOps_mem_bound K cnt
  have hwf := buildGraph_wf (2 * K + 2) (derangementOps K cnt) hops
  have hnn := buildGraph_cap_nonneg (2 * K + 2) (derangementOps K cnt) hops
    (derangementOps_cap_nonneg K cnt hcnt)
  obtain ⟨hinv, hflow0, hnet⟩ := max_flow_conservation
    (buildGraph (2 * K + 2) (derangementOps K cnt)) hwf 0 (2 * K + 1)
    (by omega) d1 d2 d3 hnn flow capF hmf
  have hnet0 : ∀ fi', fi' < K →
      netOut (buildGraph (2 * K + 2) (derangementOps K cnt)) capF (1 + fi') = 0 := by
    intro fi' hfi'
    rw [hnet (1 + fi')]
    rw [if_neg (show ¬((0 : Nat) = 1 + fi') from by omega)]
    rw [if_neg (show ¬(2 * K + 1 = 1 + fi') from by omega)]
    omega
  have hgrp := conservation_group K cnt capF hinv hnet0 fi hfi
  have hsrc := derangement_source_saturation K cnt capF hcnt d1 d2 d3 flow hmf hsumcnt
    fi (Finset.mem_range.mpr hfi)
  have hstep : ∀ j ∈ Finset.range K,
      (if j = fi then 0 else
        allocGet (allocList (buildGraph (2 * K + 2) (derangementOps K cnt)) capF colors K)
          (colors.getD fi 0) (colors.getD j 0)) =
      (if j = fi then 0 else
        selSum (fun k => flowOn (buildGraph (2 * K + 2) (derangementOps K cnt)) capF (2 * k))
          j (2 * K + fi * (K - 1)) (aiList K fi)) := by
    intro j hj
    rw [Finset.mem_range] at hj
    by_cases hjfi : j = fi
    · rw [if_pos hjfi, if_pos hjfi]
    · rw [if_neg hjfi, if_neg hjfi]
      rw [allocList_eq K cnt capF colors hinv hinj]
      exact allocGet_flatMap_blocks colors
        (fun k => flowOn (buildGraph (2 * K + 2) (derangementOps K cnt)) capF (2 * k))
        K j hj hinj (phi_nonneg_all K cnt capF hinv)
        (fun i => 2 * K + i * (K - 1)) fi hfi (List.range K)
        (List.mem_range.mpr hfi) (List.nodup_range K)
        (fun i hi => List.mem_range.mp hi)
  rw [Finset.sum_congr rfl hstep]
  rw [sum_ite_selSum _ K fi (aiList K fi) _ (fun ai hai =>
    ⟨((mem_aiList K fi ai).mp hai).1, ((mem_aiList K fi ai).mp hai).2⟩)]
  rw [← hgrp]
  exact hsrc

theorem rect_row_len {g : Grid} {w h : Nat} (hg : Rect g w h) {y : Nat} (hy : y < h) :
    (g.getD y []).length = w := by
  have hyl : y < g.length := by rw [hg.1]; exact hy
  have hrow : g.getD y [] = g[y] := by
    rw [List.getD_eq_getElem?_getD, List.getElem?_eq_getElem hyl]
    rfl
  rw [hrow]
  exact hg.2 _ (List.getElem_mem hyl)

theorem getCell_outside {g : Grid} {w h : Nat} (hg : Rect g w h) {x y : Nat}
    (hxy : ¬ (x < w ∧ y < h)) : getCell g x y = none := by
  unfold getCell
  by_cases hy : y < h
  · have hx : ¬ x < w := fun hx => hxy ⟨hx, hy⟩
    have hrl := rect_row_len hg hy
    rw [List.getD_eq_default _ _ (by omega)]
  · have hyl : g.length ≤ y := by rw [hg.1]; omega
    rw [List.getD_eq_default _ _ hyl]
    rw [List.getD_eq_default _ _ (by simp)]

/-- Number of cells of the `w×h` window of `g` holding color `c`. -/
def cellCount (g : Grid) (w h : Nat) (c : Int) : Nat :=
  ∑ y ∈ Finset.range h, ∑ x ∈ Finset.range w, (if getCell g x y = some c then 1 else 0)

theorem cellCount_allNone (w h : Nat) (c : Int) : cellCount (allNoneGrid w h) w h c = 0 := by
  unfold cellCount
  apply Finset.sum_eq_zero
  intro y _
  apply Finset.sum_eq_zero
  intro x _
  rw [getCell_allNone]
  simp

theorem cellCount_set {g : Grid} {w h : Nat} (hg : Rect g w h) {x y : Nat}
    (hx : x < w) (hy : y < h) (hnone : getCell g x y = none) (a c : Int) :
    cellCount (setCellN g x y (some a)) w h c =
      cellCount g w h c + (if a = c then 1 else 0) := by
  have hsplit : ∀ G : Grid,
      (∑ y' ∈ Finset.range h, ∑ x' ∈ Finset.range w,
        (if getCell G x' y' = some c then (1 : Nat) else 0)) =
      (∑ x' ∈ Finset.range w, (if getCell G x' y = some c then (1 : Nat) else 0)) +
      ∑ y' ∈ (Finset.range h).erase y, ∑ x' ∈ Finset.range w,
        (if getCell G x' y' = some c then (1 : Nat) else 0) := by
    intro G
    exact (Finset.add_sum_erase _ _ (Finset.mem_range.mpr hy)).symm
  have hsplitRow : ∀ G : Grid,
      (∑ x' ∈ Finset.range w, (if getCell G x' y = some c then (1 : Nat) else 0)) =
      (if getCell G x y = some c then (1 : Nat) else 0) +
      ∑ x' ∈ (Finset.range w).erase x, (if getCell G x' y = some c then (1 : Nat) else 0) := by
    intro G
    exact (Finset.add_sum_erase _ _ (Finset.mem_range.mpr hx)).symm
  unfold cellCount
  rw [hsplit (setCellN g x y (some a)), hsplit g, hsplitRow (setCellN g x y (some a)),
    hsplitRow g]
  have hself : getCell (setCellN g x y (some a)) x y = some a :=
    getCell_setCellN_self (some a) (by rw [hg.1]; exact hy)
      (by rw [rect_row_len hg hy]; exact hx)
  rw [hself, hnone]
  have hrowE : ∑ x' ∈ (Finset.range w).erase x,
      (if getCell (setCellN g x y (some a)) x' y = some c then (1 : Nat) else 0) =
      ∑ x' ∈ (Finset.range w).erase x, (if getCell g x' y = some c then (1 : Nat) else 0) := by
    apply Finset.sum_congr rfl
    intro x' hx'
    rw [getCell_setCellN_ne _ (fun hc => (Finset.mem_erase.mp hx').1 hc.1.symm)]
  have houtE : ∑ y' ∈ (Finset.range h).erase y, ∑ x' ∈ Finset.range w,
      (if getCell (setCellN g x y (some a)) x' y' = some c then (1 : Nat) else 0) =
      ∑ y' ∈ (Finset.range h).erase y, ∑ x' ∈ Finset.range w,
        (if getCell g x' y' = some c then (1 : Nat) else 0) := by
    apply Finset.sum_congr rfl
    intro y' hy'
    apply Finset.sum_congr rfl
    intro x' _
    rw [getCell_setCellN_ne _ (fun hc => (Finset.mem_erase.mp hy').1 hc.2.symm)]
  rw [hrowE, houtE]
  by_cases hac : a = c
  · rw [if_pos (by rw [hac]), if_pos hac,
      if_neg (show ¬((none : Cell) = some c) from by simp)]
    omega
  · rw [if_neg (fun hc => hac (Option.some.inj hc)), if_neg hac,
      if_neg (show ¬((none : Cell) = some c) from by simp)]
    omega

/-- Occurrences of `c` in a color list. -/
def cntList (l : List Int) (c : Int) : Nat := (l.filter (fun a => a = c)).length

theorem cntList_nil (c : Int) : cntList [] c = 0 := rfl

theorem cntList_cons (a : Int) (l : List Int) (c : Int) :
    cntList (a :: l) c = (if a = c then 1 else 0) + cntList l c := by
  unfold cntList
  rw [List.filter_cons]
  by_cases hac : a = c
  · rw [if_pos (by simp [hac]), if_pos hac, List.length_cons]
    omega
  · rw [if_neg (by simp [hac]), if_neg hac]
    omega

theorem cntList_append (l1 l2 : List Int) (c : Int) :
    cntList (l1 ++ l2) c = cntList l1 c + cntList l2 c := by
  unfold cntList
  rw [List.filter_append, List.length_append]

theorem cntList_replicate (n : Nat) (a c : Int) :
    cntList (List.replicate n a) c = if a = c then n else 0 := by
  induction n with
  | zero => by_cases hac : a = c <;> simp [cntList, hac]
  | succ m ih =>
    rw [List.replicate_succ, cntList_cons, ih]
    by_cases hac : a = c
    · rw [if_pos hac, if_pos hac, if_pos hac]
      omega
    · rw [if_neg hac, if_neg hac, if_neg hac]

theorem countOf_cons (pc : (Nat × Nat) × Int) (rest : List ((Nat × Nat) × Int)) (c : Int) :
    countOf (pc :: rest) c = (if pc.2 = c then 1 else 0) + countOf rest c := by
  unfold countOf
  rw [List.filter_cons]
  by_cases hc : pc.2 = c
  · rw [if_pos (by simp [hc]), if_pos hc, List.length_cons]
    omega
  · rw [if_neg (by simp [hc]), if_neg hc]
    omega

/-- One Python scan row restricted to color `c`, counted. -/
theorem countOf_row (g : Grid) (c : Int) (y : Nat) :
    ∀ l : List Nat,
      ((l.filterMap (fun x => (getCell g x y).map (fun cc => ((x, y), cc)))).filter
        (fun pc => pc.2 = c)).length =
      (l.filter (fun x => getCell g x y = some c)).length := by
  intro l
  induction l with
  | nil => rfl
  | cons x rest ih =>
    rw [List.filterMap_cons, List.filter_cons]
    rcases hgc : getCell g x y with _ | cc
    · rw [if_neg (by simp [hgc])]
      rw [Option.map_none']
      exact ih
    · rw [Option.map_some']
      rw [List.filter_cons]
      by_cases hcc : cc = c
      · rw [if_pos (by simp [hcc]), if_pos (by simp [hgc, hcc]), List.length_cons,
          List.length_cons, ih]
      · rw [if_neg (by simp [hcc]), if_neg (by simp [hgc, hcc])]
        exact ih

theorem filter_length_eq_sum {α : Type} (p : α → Bool) : ∀ l : List α,
    (l.filter p).length = (l.map (fun x => if p x then 1 else 0)).sum := by
  intro l
  induction l with
  | nil => rfl
  | cons a rest ih =>
    rw [List.filter_cons, List.map_cons, List.sum_cons]
    by_cases hp : p a
    · rw [if_pos hp, if_pos hp, List.length_cons, ih]
      omega
    · rw [if_neg hp, if_neg hp, ih]
      omega

theorem list_range_map_sum (f : Nat → Nat) : ∀ n : Nat,
    ((List.range n).map f).sum = ∑ i ∈ Finset.range n, f i := by
  intro n
  induction n with
  | zero => rfl
  | succ m ih =>
    rw [List.range_succ, List.map_append, List.sum_append, Finset.sum_range_succ, ih]
    simp

theorem filter_flatMap_length {α β : Type} (l : List α) (f : α → List β) (p : β → Bool) :
    ((l.flatMap f).filter p).length = (l.map (fun a => ((f a).filter p).length)).sum := by
  induction l with
  | nil => rfl
  | cons a rest ih =>
    rw [List.flatMap_cons, List.filter_append, List.length_append, List.map_cons,
      List.sum_cons, ih]

/-- The scan count of a color is the number of window cells holding it. -/
theorem countOf_occupiedScan (g : Grid) (w h : Nat) (c : Int) :
    countOf (occupiedScan g w h) c = cellCount g w h c := by
  unfold countOf occupiedScan cellCount
  rw [filter_flatMap_length]
  have hrow : ∀ y : Nat,
      (((List.range w).filterMap
        (fun x => (getCell g x y).map (fun cc => ((x, y), cc)))).filter
          (fun pc => pc.2 = c)).length =
      ∑ x ∈ Finset.range w, (if getCell g x y = some c then (1 : Nat) else 0) := by
    intro y
    rw [countOf_row g c y (List.range w)]
    rw [filter_length_eq_sum]
    rw [list_range_map_sum]
    apply Finset.sum_congr rfl
    intro x _
    by_cases hc : getCell g x y = some c
    · rw [if_pos (by simp [hc]), if_pos hc]
    · rw [if_neg (by simp [hc]), if_neg hc]
  rw [show (List.range h).map (fun y =>
      (((List.range w).filterMap
        (fun x => (getCell g x y).map (fun cc => ((x, y), cc)))).filter
          (fun pc => pc.2 = c)).length) =
    (List.range h).map (fun y =>
      ∑ x ∈ Finset.range w, (if getCell g x y = some c then (1 : Nat) else 0)) from
    List.map_congr_left (fun y _ => hrow y)]
  exact list_range_map_sum _ h

/-- Effect of filling one group: positions in `pts` become occupied, cells
outside `pts` are untouched, and the color counts grow by the counts of the
consumed sequence. -/
theorem fillGroup_effect (w h : Nat) :
    ∀ (pts : List (Nat × Nat)) (seq : List Int) (out out2 : Grid),
      Rect out w h →
      (∀ p ∈ pts, p.1 < w ∧ p.2 < h) →
      pts.Nodup →
      (∀ p ∈ pts, getCell out p.1 p.2 = none) →
      fillGroup out pts seq = Except.ok out2 →
      Rect out2 w h ∧
      (∀ x y, (x, y) ∉ pts → getCell out2 x y = getCell out x y) ∧
      (∀ p ∈ pts, (getCell out2 p.1 p.2).isSome = true) ∧
      (∀ c, cellCount out2 w h c = cellCount out w h c + cntList seq c) := by
  intro pts
  induction pts with
  | nil =>
    intro seq out out2 hrect _ _ _ hfg
    cases seq with
    | nil =>
      simp only [fillGroup] at hfg
      cases hfg
      exact ⟨hrect, fun x y _ => rfl, fun p hp => absurd hp (List.not_mem_nil p),
        fun c => by rw [cntList_nil]; omega⟩
    | cons a seqr => simp [fillGroup] at hfg
  | cons p ptsr ih =>
    intro seq out out2 hrect hbound hnd hnone hfg
    cases seq with
    | nil => simp [fillGroup] at hfg
    | cons a seqr =>
      simp only [fillGroup] at hfg
      rw [List.nodup_cons] at hnd
      have hpw : p.1 < w ∧ p.2 < h := hbound p (List.mem_cons_self p ptsr)
      have hrect' : Rect (setCellN out p.1 p.2 (some a)) w h := rect_setCellN hrect _ _ _
      have hnone' : ∀ q ∈ ptsr, getCell (setCellN out p.1 p.2 (some a)) q.1 q.2 = none := by
        intro q hq
        rw [getCell_setCellN_ne _ (fun hc => hnd.1 (by
          have : p = q := Prod.ext hc.1 hc.2
          rw [this]
          exact hq))]
        exact hnone q (List.mem_cons_of_mem p hq)
      obtain ⟨h1, h2, h3, h4⟩ := ih seqr (setCellN out p.1 p.2 (some a)) out2 hrect'
        (fun q hq => hbound q (List.mem_cons_of_mem p hq)) hnd.2 hnone' hfg
      have hselfkeep : getCell out2 p.1 p.2 = some a := by
        rw [h2 p.1 p.2 (by rw [Prod.mk.eta]; exact hnd.1)]
        exact getCell_setCellN_self (some a) (by rw [hrect.1]; exact hpw.2)
          (by rw [rect_row_len hrect hpw.2]; exact hpw.1)
      refine ⟨h1, ?_, ?_, ?_⟩
      · intro x y hxy
        rw [h2 x y (fun hc => hxy (List.mem_cons_of_mem p hc))]
        rw [getCell_setCellN_ne _ (fun hc => hxy (by
          have : p = (x, y) := Prod.ext hc.1 hc.2
          rw [← this]
          exact List.mem_cons_self p ptsr))]
      · intro q hq
        rcases List.mem_cons.mp hq with hqp | hqr
        · rw [hqp, hselfkeep]
          rfl
        · exact h3 q hqr
      · intro c
        rw [h4 c, cellCount_set hrect hpw.1 hpw.2
          (hnone p (List.mem_cons_self p ptsr)) a c, cntList_cons]
        by_cases hac : a = c
        · rw [if_pos hac]
          omega
        · rw [if_neg hac]
          omega

/-- Effect of filling all remaining groups. -/
theorem fillAll_effect (colorsAll : List Int) (scan : List ((Nat × Nat) × Int))
    (al : List ((Int × Int) × Int)) (w h : Nat)
    (hscan_mem : ∀ pc ∈ scan, pc.1.1 < w ∧ pc.1.2 < h)
    (hscan_nd : scan.Nodup)
    (hfun : ∀ p c c', (p, c) ∈ scan → (p, c') ∈ scan → c = c') :
    ∀ (cl : List Int), cl.Nodup →
    ∀ (out out2 : Grid), Rect out w h →
    (∀ f ∈ cl, ∀ p ∈ posOf scan f, getCell out p.1 p.2 = none) →
    fillAll colorsAll scan al cl out = Except.ok out2 →
    Rect out2 w h ∧
    (∀ x y, (∀ f ∈ cl, (x, y) ∉ posOf scan f) → getCell out2 x y = getCell out x y) ∧
    (∀ f ∈ cl, ∀ p ∈ posOf scan f, (getCell out2 p.1 p.2).isSome = true) ∧
    (∀ c, cellCount out2 w h c = cellCount out w h c +
      (cl.map (fun f => cntList (colorSeq colorsAll al f) c)).sum) := by
  intro cl
  induction cl with
  | nil =>
    intro _ out out2 hrect _ hfa
    simp only [fillAll] at hfa
    cases hfa
    exact ⟨hrect, fun x y _ => rfl, fun f hf => absurd hf (List.not_mem_nil f),
      fun c => by simp⟩
  | cons f rest ih =>
    intro hnd out out2 hrect hnone hfa
    rw [List.nodup_cons] at hnd
    simp only [fillAll] at hfa
    rcases hfg : fillGroup out (posOf scan f) (colorSeq colorsAll al f) with e | outm
    · rw [hfg] at hfa
      cases hfa
    · rw [hfg] at hfa
      have hdisj : ∀ f1 f2 : Int, f1 ≠ f2 → ∀ p, p ∈ posOf scan f1 → p ∉ posOf scan f2 := by
        intro f1 f2 hne p hp hpf
        rw [mem_posOf] at hp hpf
        exact hne (hfun p f1 f2 hp hpf)
      obtain ⟨g1, g2, g3, g4⟩ := fillGroup_effect w h (posOf scan f)
        (colorSeq colorsAll al f) out outm hrect
        (fun p hp => hscan_mem (p, f) ((mem_posOf scan f p).mp hp))
        (posOf_nodup scan hscan_nd f)
        (hnone f (List.mem_cons_self f rest)) hfg
      have hnone' : ∀ f' ∈ rest, ∀ p ∈ posOf scan f', getCell outm p.1 p.2 = none := by
        intro f' hf' p hp
        have hpp : (p.1, p.2) = p := Prod.mk.eta
        rw [g2 p.1 p.2 (by
          rw [hpp]
          exact hdisj f' f (fun hc => hnd.1 (by rw [← hc]; exact hf')) p hp)]
        exact hnone f' (List.mem_cons_of_mem f hf') p hp
      obtain ⟨k1, k2, k3, k4⟩ := ih hnd.2 outm out2 g1 hnone' hfa
      refine ⟨k1, ?_, ?_, ?_⟩
      · intro x y hxy
        rw [k2 x y (fun f' hf' => hxy f' (List.mem_cons_of_mem f hf'))]
        exact g2 x y (hxy f (List.mem_cons_self f rest))
      · intro f' hf' p hp
        rcases List.mem_cons.mp hf' with hff | hfr
        · rw [hff] at hp
          have hpp : (p.1, p.2) = p := Prod.mk.eta
          rw [k2 p.1 p.2 (by
            rw [hpp]
            exact fun f2 hf2 => hdisj f f2 (fun hc => hnd.1 (by rw [hc]; exact hf2)) p hp)]
          exact g3 p hp
        · exact k3 f' hfr p hp
      · intro c
        rw [k4 c, g4 c, List.map_cons, List.sum_cons]
        omega

theorem colorSeq_cons (a : Int) (rest : List Int) (al : List ((Int × Int) × Int)) (f : Int) :
    colorSeq (a :: rest) al f =
      (if a = f then [] else List.replicate (allocGet al f a).toNat a) ++
      colorSeq rest al f := by
  unfold colorSeq
  rw [List.flatMap_cons]

/-- The count of color `c` in group `f`'s fill sequence. -/
theorem count_colorSeq (al : List ((Int × Int) × Int)) (f c : Int) :
    ∀ colorsAll : List Int, colorsAll.Nodup →
      cntList (colorSeq colorsAll al f) c =
        if c ∈ colorsAll ∧ c ≠ f then (allocGet al f c).toNat else 0 := by
  intro colorsAll
  induction colorsAll with
  | nil =>
    intro _
    rw [if_neg (fun hc => (List.not_mem_nil c) hc.1)]
    rfl
  | cons a rest ih =>
    intro hnd
    rw [List.nodup_cons] at hnd
    rw [colorSeq_cons, cntList_append, ih hnd.2]
    by_cases hacm : a = c
    · have hcrest : c ∉ rest := fun hcr => hnd.1 (hacm ▸ hcr)
      by_cases haf : a = f
      · rw [if_pos haf, cntList_nil,
          if_neg (show ¬(c ∈ rest ∧ c ≠ f) from fun hc => hcrest hc.1),
          if_neg (show ¬(c ∈ a :: rest ∧ c ≠ f) from
            fun hc => hc.2 (by rw [← hacm, haf]))]
      · rw [if_neg haf, cntList_replicate, if_pos hacm,
          if_neg (show ¬(c ∈ rest ∧ c ≠ f) from fun hc => hcrest hc.1),
          if_pos (show c ∈ a :: rest ∧ c ≠ f from
            ⟨by rw [← hacm]; exact List.mem_cons_self a rest,
             fun hc => haf (hacm.trans hc)⟩), hacm]
        omega
    · rw [show cntList (if a = f then [] else
          List.replicate (allocGet al f a).toNat a) c = 0 from by
        by_cases haf : a = f
        · rw [if_pos haf]
          rfl
        · rw [if_neg haf, cntList_replicate, if_neg hacm]]
      have hmemiff : (c ∈ a :: rest ∧ c ≠ f) ↔ (c ∈ rest ∧ c ≠ f) := by
        constructor
        · rintro ⟨hm, hne⟩
          rcases List.mem_cons.mp hm with hca | hcr
          · exact absurd hca.symm hacm
          · exact ⟨hcr, hne⟩
        · rintro ⟨hm, hne⟩
          exact ⟨List.mem_cons_of_mem a hm, hne⟩
      by_cases h2 : c ∈ rest ∧ c ≠ f
      · rw [if_pos h2, if_pos (hmemiff.mpr h2)]
        omega
      · rw [if_neg h2, if_neg (fun hc => h2 (hmemiff.mp hc))]

theorem map_sum_getD (g : Int → Nat) : ∀ l : List Int,
    (l.map g).sum = ∑ i ∈ Finset.range l.length, g (l.getD i 0) := by
  intro l
  induction l with
  | nil => rfl
  | cons a rest ih =>
    rw [List.map_cons, List.sum_cons, List.length_cons, Finset.sum_range_succ', ih]
    have hstep : ∀ i ∈ Finset.range rest.length,
        g ((a :: rest).getD (i + 1) 0) = g (rest.getD i 0) := by
      intro i _
      rw [List.getD_cons_succ]
    rw [Finset.sum_congr rfl hstep, List.getD_cons_zero]
    omega

theorem selSum_nonneg (φ : Nat → Int) (j : Nat) (hphi : ∀ k, 0 ≤ φ k) :
    ∀ (l : List Nat) (k0 : Nat), 0 ≤ selSum φ j k0 l := by
  intro l
  induction l with
  | nil =>
    intro k0
    simp [selSum]
  | cons ai rest ih =>
    intro k0
    have h1 := ih (k0 + 1)
    by_cases h : ai = j
    · rw [selSum, if_pos h]
      have h2 := hphi k0
      omega
    · rw [selSum, if_neg h]
      omega

/-- Summing the per-color counts over the distinct colors recovers the
scan length. -/
theorem countOf_total (colors : List Int) (hnd : colors.Nodup) :
    ∀ scan : List ((Nat × Nat) × Int), (∀ pc ∈ scan, pc.2 ∈ colors) →
      ∑ i ∈ Finset.range colors.length, countOf scan (colors.getD i 0) = scan.length := by
  intro scan
  induction scan with
  | nil =>
    intro _
    simp [countOf]
  | cons pc rest ih =>
    intro hmem
    have hrest := ih (fun q hq => hmem q (List.mem_cons_of_mem pc hq))
    have hc : pc.2 ∈ colors := hmem pc (List.mem_cons_self pc rest)
    obtain ⟨i0, hi0, hgi0⟩ := List.mem_iff_getElem.mp hc
    have hstep : ∀ i ∈ Finset.range colors.length,
        countOf (pc :: rest) (colors.getD i 0) =
        (if i = i0 then 1 else 0) + countOf rest (colors.getD i 0) := by
      intro i hi
      rw [Finset.mem_range] at hi
      rw [countOf_cons]
      by_cases hii : i = i0
      · rw [if_pos hii, if_pos (show pc.2 = colors.getD i 0 from by
          subst hii
          rw [List.getD_eq_getElem _ _ hi0, hgi0])]
      · rw [if_neg hii, if_neg (show ¬(pc.2 = colors.getD i 0) from fun h2 => by
          have h3 := nodup_getD_ne colors hnd i i0 hi hi0 hii
          rw [List.getD_eq_getElem _ _ hi0, hgi0] at h3
          exact h3 h2.symm)]
    rw [Finset.sum_congr rfl hstep, Finset.sum_add_distrib, hrest]
    have hone : ∑ i ∈ Finset.range colors.length, (if i = i0 then (1 : Nat) else 0) = 1 := by
      rw [Finset.sum_ite_eq' (Finset.range colors.length) i0 (fun _ => (1 : Nat))]
      rw [if_pos (Finset.mem_range.mpr hi0)]
    rw [hone, List.length_cons]
    omega

theorem countOf_zero_of_not_mem (scan : List ((Nat × Nat) × Int)) (c : Int)
    (hall : ∀ pc ∈ scan, pc.2 ≠ c) : countOf scan c = 0 := by
  induction scan with
  | nil => rfl
  | cons pc rest ih =>
    rw [countOf_cons, if_neg (hall pc (List.mem_cons_self pc rest))]
    rw [ih (fun q hq => hall q (List.mem_cons_of_mem pc hq))]

theorem cellCount_none_zero (g : Grid) (w h : Nat) (c : Int)
    (hall : ∀ x y, x < w → y < h → getCell g x y = none) :
    cellCount g w h c = 0 := by
  unfold cellCount
  apply Finset.sum_eq_zero
  intro y hy
  apply Finset.sum_eq_zero
  intro x hx
  rw [hall x y (Finset.mem_range.mp hx) (Finset.mem_range.mp hy)]
  simp

theorem getCell_nil (x y : Nat) : getCell [] x y = none := by
  unfold getCell
  rw [List.getD_eq_default _ _ (by simp)]

/-- The final verification loop: a zero same-cell count means no occupied
cell kept its color. -/
theorem sameCellCount_zero (top out : Grid) (w h : Nat)
    (hz : sameCellCount top out w h = 0)
    (x y : Nat) (hx : x < w) (hy : y < h) (c : Int) (hc : getCell top x y = some c) :
    ¬ getCell out x y = some c := by
  intro hoc
  unfold sameCellCount at hz
  have hrow := (List.sum_eq_zero_iff.mp hz)
    (((List.range w).filter (fun x' =>
      match getCell top x' y with
      | none => false
      | some tc => getCell out x' y = some tc)).length)
    (List.mem_map.mpr ⟨y, List.mem_range.mpr hy, rfl⟩)
  have hnil := List.eq_nil_of_length_eq_zero hrow
  have hmem : x ∈ (List.range w).filter (fun x' =>
      match getCell top x' y with
      | none => false
      | some tc => getCell out x' y = some tc) := by
    rw [List.mem_filter]
    refine ⟨List.mem_range.mpr hx, ?_⟩
    rw [hc]
    simp only [hoc]
    simp
  rw [hnil] at hmem
  exact List.not_mem_nil x hmem

/-- Postconditions of the derangement core on any rectangular grid: same
occupancy mask, same per-color histogram, and no occupied cell keeps its
color. -/
theorem derangementCore_post (top : Grid) (w h : Nat) (hrect : Rect top w h)
    (res : SlotsDeriveResult) (hok : derangementCore top w h = Except.ok res) :
    (∀ x y, (getCell res.cells x y).isSome = (getCell top x y).isSome) ∧
    (∀ c : Int, cellCount res.cells w h c = cellCount top w h c) ∧
    (∀ x y c, getCell top x y = some c → ¬ getCell res.cells x y = some c) := by
  unfold derangementCore at hok
  set scan := occupiedScan top w h with hscan
  set colors := sortedColors scan with hcolors
  dsimp only at hok
  by_cases hn : scan.length = 0
  · rw [if_pos hn] at hok
    cases hok
    have htopnone : ∀ x y, getCell top x y = none := by
      intro x y
      by_cases hxy : x < w ∧ y < h
      · rcases hgc : getCell top x y with _ | c
        · rfl
        · have hm : ((x, y), c) ∈ scan := mem_occupiedScan.mpr ⟨hxy.1, hxy.2, hgc⟩
          rw [List.length_eq_zero.mp hn] at hm
          exact absurd hm (List.not_mem_nil _)
      · exact getCell_outside hrect hxy
    refine ⟨?_, ?_, ?_⟩
    · intro x y
      show (getCell (allNoneGrid w h) x y).isSome = _
      rw [getCell_allNone, htopnone]
    · intro c
      show cellCount (allNoneGrid w h) w h c = _
      rw [cellCount_allNone, cellCount_none_zero top w h c (fun x y _ _ => htopnone x y)]
    · intro x y c hc
      rw [htopnone x y] at hc
      cases hc
  · rw [if_neg hn] at hok
    by_cases h1c : colors.length = 1
    · rw [if_pos h1c] at hok
      cases hok
    · rw [if_neg h1c] at hok
      by_cases hdom : 2 * ((colors.map (countOf scan)).foldl max 0) > scan.length
      · rw [if_pos hdom] at hok
        cases hok
      · rw [if_neg hdom] at hok
        rcases hmf : (buildGraph (2 * colors.length + 2)
            (derangementOps colors.length
              (fun i => (countOf scan (colors.getD i 0) : Int)))).max_flow 0
            (2 * colors.length + 1) (2 * colors.length + 4)
            (scan.length + 2) (scan.length + 2) with _ | ⟨flowed, capF⟩
        · rw [hmf] at hok
          cases hok
        · rw [hmf] at hok
          dsimp only at hok
          by_cases hfl : flowed ≠ (scan.length : Int)
          · rw [if_pos hfl] at hok
            cases hok
          · rw [if_neg hfl] at hok
            have hfleq : flowed = (scan.length : Int) := not_not.mp hfl
            set al := allocList (buildGraph (2 * colors.length + 2)
              (derangementOps colors.length
                (fun i => (countOf scan (colors.getD i 0) : Int)))) capF colors
              colors.length with hal
            rcases hfa : fillAll colors scan al colors (allNoneGrid w h) with e | out
            · rw [hfa] at hok
              cases hok
            · rw [hfa] at hok
              dsimp only at hok
              by_cases hsc : sameCellCount top out w h ≠ 0
              · rw [if_pos hsc] at hok
                cases hok
              · rw [if_neg hsc] at hok
                have hsc0 : sameCellCount top out w h = 0 := not_not.mp hsc
                cases hok
                dsimp only
                -- Shared facts
                have hnd_scan : scan.Nodup := nodup_occupiedScan top w h
                have hnd_colors : colors.Nodup := sortedColors_nodup scan
                have hmem_colors : ∀ pc ∈ scan, pc.2 ∈ colors := fun pc hpc =>
                  (mem_sortedColors scan pc.2).mpr (List.mem_map.mpr ⟨pc, hpc, rfl⟩)
                have hinj : ∀ a b, a < colors.length → b < colors.length → a ≠ b →
                    colors.getD a 0 ≠ colors.getD b 0 := fun a b ha hb hne =>
                  nodup_getD_ne colors hnd_colors a b ha hb hne
                have hcntnn : ∀ i, 0 ≤ ((countOf scan (colors.getD i 0) : Int)) :=
                  fun i => Int.natCast_nonneg _
                have hsum_nat := countOf_total colors hnd_colors scan hmem_colors
                have hsumcnt : (∑ i ∈ Finset.range colors.length,
                    ((countOf scan (colors.getD i 0) : Nat) : Int)) = flowed := by
                  rw [← Nat.cast_sum, hsum_nat, hfleq]
                have hscan_mem : ∀ pc ∈ scan, pc.1.1 < w ∧ pc.1.2 < h := by
                  intro pc hpc
                  obtain ⟨⟨x, y⟩, c⟩ := pc
                  have hm := mem_occupiedScan.mp hpc
                  exact ⟨hm.1, hm.2.1⟩
                have hfun : ∀ p c c', (p, c) ∈ scan → (p, c') ∈ scan → c = c' :=
                  fun p c c' h1 h2 => scan_functional top w h p c c' h1 h2
                obtain ⟨hr2, hunch, hsome, hcount⟩ := fillAll_effect colors scan al w h
                  hscan_mem hnd_scan hfun colors hnd_colors (allNoneGrid w h) out
                  (rect_allNone w h)
                  (fun f hf p hp => getCell_allNone w h p.1 p.2) hfa
                obtain ⟨hinv, _⟩ := derangement_sink_saturation colors.length
                  (fun i => (countOf scan (colors.getD i 0) : Int)) capF hcntnn
                  (2 * colors.length + 4) (scan.length + 2) (scan.length + 2)
                  flowed hmf hsumcnt
                have hphi := phi_nonneg_all colors.length
                  (fun i => (countOf scan (colors.getD i 0) : Int)) capF hinv
                refine ⟨?_, ?_, ?_⟩
                · -- (a) mask equality
                  intro x y
                  rcases hgc : getCell top x y with _ | c
                  · have hnp : ∀ f ∈ colors, (x, y) ∉ posOf scan f := by
                      intro f _ hp
                      have hm := mem_occupiedScan.mp ((mem_posOf scan f (x, y)).mp hp)
                      rw [hgc] at hm
                      exact Option.noConfusion hm.2.2
                    rw [hunch x y hnp, getCell_allNone]
                  · have hxy : x < w ∧ y < h := by
                      by_contra hc2
                      rw [getCell_outside hrect hc2] at hgc
                      cases hgc
                    have hscanmem : ((x, y), c) ∈ scan :=
                      mem_occupiedScan.mpr ⟨hxy.1, hxy.2, hgc⟩
                    have hcm : c ∈ colors := hmem_colors ((x, y), c) hscanmem
                    have hps : (x, y) ∈ posOf scan c := (mem_posOf scan c (x, y)).mpr hscanmem
                    have hs := hsome c hcm (x, y) hps
                    rw [hs]
                    rfl
                · -- (b) per-color histogram
                  intro c
                  rw [hcount c, cellCount_allNone,
                    show cellCount top w h c = countOf (occupiedScan top w h) c from
                      (countOf_occupiedScan top w h c).symm,
                    ← hscan,
                    map_sum_getD (fun f => cntList (colorSeq colors al f) c) colors]
                  rw [Finset.sum_congr rfl (fun fi _ =>
                    count_colorSeq al (colors.getD fi 0) c colors hnd_colors)]
                  by_cases hcm : c ∈ colors
                  · obtain ⟨j, hjlen, hgj⟩ := List.mem_iff_getElem.mp hcm
                    have hgjD : colors.getD j 0 = c := by
                      rw [List.getD_eq_getElem _ _ hjlen, hgj]
                    have hterm2 : ∀ fi ∈ Finset.range colors.length,
                        (if c ∈ colors ∧ c ≠ colors.getD fi 0 then
                          (allocGet al (colors.getD fi 0) c).toNat else 0) =
                        (if fi = j then 0 else
                          (allocGet al (colors.getD fi 0) (colors.getD j 0)).toNat) := by
                      intro fi hfi
                      rw [Finset.mem_range] at hfi
                      by_cases hfij : fi = j
                      · rw [if_pos hfij, if_neg (show ¬(c ∈ colors ∧ c ≠ colors.getD fi 0)
                          from fun hcc => hcc.2 (by rw [hfij, hgjD]))]
                      · rw [if_neg hfij, if_pos (show c ∈ colors ∧ c ≠ colors.getD fi 0 from
                          ⟨hcm, fun hcc => by
                            have hne := hinj fi j hfi hjlen hfij
                            rw [← hcc, hgjD] at hne
                            exact hne rfl⟩), hgjD]
                    rw [Finset.sum_congr rfl hterm2, ← hgjD]
                    have hacol := derangement_alloc_col colors.length
                      (fun i => (countOf scan (colors.getD i 0) : Int)) capF colors hcntnn
                      hinj (2 * colors.length + 4) (scan.length + 2) (scan.length + 2)
                      flowed hmf hsumcnt j hjlen
                    rw [← hal] at hacol
                    have hnneg : ∀ fi, fi < colors.length →
                        0 ≤ allocGet al (colors.getD fi 0) (colors.getD j 0) := by
                      intro fi hfi
                      rw [hal, allocList_eq colors.length
                        (fun i => (countOf scan (colors.getD i 0) : Int)) capF colors hinv hinj,
                        allocGet_flatMap_blocks colors
                          (fun k => flowOn (buildGraph (2 * colors.length + 2)
                            (derangementOps colors.length
                              (fun i => (countOf scan (colors.getD i 0) : Int)))) capF (2 * k))
                          colors.length j hjlen hinj hphi
                          (fun i => 2 * colors.length + i * (colors.length - 1)) fi hfi
                          (List.range colors.length) (List.mem_range.mpr hfi)
                          (List.nodup_range _) (fun i hi => List.mem_range.mp hi)]
                      exact selSum_nonneg _ j hphi _ _
                    have hcast : ((∑ fi ∈ Finset.range colors.length,
                        (if fi = j then 0 else
                          (allocGet al (colors.getD fi 0) (colors.getD j 0)).toNat) : Nat) : Int) =
                        ∑ fi ∈ Finset.range colors.length,
                          (if fi = j then 0 else
                            allocGet al (colors.getD fi 0) (colors.getD j 0)) := by
                      rw [Nat.cast_sum]
                      apply Finset.sum_congr rfl
                      intro fi hfi
                      rw [Finset.mem_range] at hfi
                      by_cases hfij : fi = j
                      · rw [if_pos hfij, if_pos hfij]
                        rfl
                      · rw [if_neg hfij, if_neg hfij]
                        exact Int.toNat_of_nonneg (hnneg fi hfi)
                    have hfinal : (∑ fi ∈ Finset.range colors.length,
                        (if fi = j then 0 else
                          (allocGet al (colors.getD fi 0) (colors.getD j 0)).toNat)) =
                        countOf scan (colors.getD j 0) := by
                      have h2 : ((∑ fi ∈ Finset.range colors.length,
                          (if fi = j then 0 else
                            (allocGet al (colors.getD fi 0) (colors.getD j 0)).toNat) : Nat) : Int) =
                          ((countOf scan (colors.getD j 0) : Nat) : Int) := by
                        rw [hcast, hacol]
                      exact Int.natCast_inj.mp h2
                    omega
                  · rw [Finset.sum_eq_zero (fun fi _ =>
                      if_neg (fun hcc => hcm hcc.1))]
                    rw [countOf_zero_of_not_mem scan c
                      (fun pc hpc hpc2 => hcm (hpc2 ▸ hmem_colors pc hpc))]
                    omega
                · -- (c) per-cell mismatch
                  intro x y c hgc
                  have hxy : x < w ∧ y < h := by
                    by_contra hc2
                    rw [getCell_outside hrect hc2] at hgc
                    cases hgc
                  exact sameCellCount_zero top out w h hsc0 x y hxy.1 hxy.2 c hgc

/-- **C1**: on every rectangular top grid for which
`derive_slots_from_top(top, mode="derangement")` returns a result, the
result grid has (a) the same occupancy mask as `top`, (b) the same
per-color histogram over the grid window, and (c) a different color from
`top` at every occupied cell. -/
theorem C1_derangement_postconditions (top : Grid) (rs : Option Int)
    (res : SlotsDeriveResult)
    (hrect : ∀ r ∈ top, r.length = (top.headD []).length)
    (hok : derive_slots_from_top top ("derangement") rs = Except.ok res) :
    (∀ x y, (getCell res.cells x y).isSome ↔ (getCell top x y).isSome) ∧
    (∀ c : Int, cellCount res.cells (top.headD []).length top.length c =
      cellCount top (top.headD []).length top.length c) ∧
    (∀ x y c, getCell top x y = some c → getCell res.cells x y ≠ some c) := by
  unfold derive_slots_from_top at hok
  by_cases hempty : top.length = 0 ∨ (top.headD []).length = 0
  · rw [if_pos hempty] at hok
    cases hok
    have hRect : Rect top (top.headD []).length top.length := ⟨rfl, hrect⟩
    have htn : ∀ x y, getCell top x y = none := by
      intro x y
      rcases hempty with h0 | h0
      · rw [List.length_eq_zero.mp h0, getCell_nil]
      · apply getCell_outside hRect
        intro hc
        omega
    refine ⟨?_, ?_, ?_⟩
    · intro x y
      show (getCell [] x y).isSome ↔ _
      rw [getCell_nil, htn]
    · intro c
      show cellCount [] _ _ c = _
      rw [cellCount_none_zero [] _ _ c (fun x y _ _ => getCell_nil x y),
        cellCount_none_zero top _ _ c (fun x y _ _ => htn x y)]
    · intro x y c hc
      rw [htn x y] at hc
      cases hc
  · rw [if_neg hempty] at hok
    have hall : (top.all (fun r => r.length = (top.headD []).length)) = true := by
      rw [List.all_eq_true]
      intro r hr
      exact decide_eq_true (hrect r hr)
    rw [if_neg (not_not_intro hall)] at hok
    rw [if_neg (show ¬(("derangement" : String) = "same") from by decide)] at hok
    rw [if_pos rfl] at hok
    unfold derive_slots_derangement at hok
    rw [if_neg hempty, if_neg (not_not_intro hall)] at hok
    obtain ⟨ha, hb, hc⟩ := derangementCore_post top (top.headD []).length top.length
      ⟨rfl, hrect⟩ res hok
    refine ⟨?_, hb, fun x y c hgc => hc x y c hgc⟩
    intro x y
    rw [ha x y]

/-- Structural version of the DFS scan: `rem` counts the remaining
adjacency entries (plus one) and `descend` performs the recursive descent
at lower fuel. -/
def dfsIter (g : Dinic) (level : List Int) (t : Nat)
    (descend : Nat → Int → List Int → List Nat → Option (Int × List Int × List Nat))
    (u : Nat) (f : Int) :
    Nat → List Int → List Nat → Nat → Option (Int × List Int × List Nat)
  | 0, cap, it, _ => some (0, cap, it)
  | rem + 1, cap, it, i =>
    if i < (g.adj.getD u []).length then
      if cap.getD ((g.adj.getD u []).getD i 0) 0 ≤ 0 ∨
          level.getD (g.to_.getD ((g.adj.getD u []).getD i 0) 0) (-1) ≠
            level.getD u (-1) + 1 then
        dfsIter g level t descend u f rem cap (it.set u i) (i + 1)
      else
        match (if g.to_.getD ((g.adj.getD u []).getD i 0) 0 = t then
            some (min f (cap.getD ((g.adj.getD u []).getD i 0) 0), cap, it.set u i)
          else descend (g.to_.getD ((g.adj.getD u []).getD i 0) 0)
            (min f (cap.getD ((g.adj.getD u []).getD i 0) 0)) cap (it.set u i)) with
        | none => none
        | some (pushed, cap2, it2) =>
          if pushed ≠ 0 then
            some (pushed,
              (cap2.set ((g.adj.getD u []).getD i 0)
                  (cap2.getD ((g.adj.getD u []).getD i 0) 0 - pushed)).set
                (((g.adj.getD u []).getD i 0) ^^^ 1)
                ((cap2.set ((g.adj.getD u []).getD i 0)
                    (cap2.getD ((g.adj.getD u []).getD i 0) 0 - pushed)).getD
                  (((g.adj.getD u []).getD i 0) ^^^ 1) 0 + pushed),
              it2)
          else dfsIter g level t descend u f rem cap2 it2 (i + 1)
    else some (0, cap, it)

/-- Structural mirror of `dfsLoop` (kernel-evaluable). -/
def dfsLoopS (g : Dinic) (level : List Int) (t : Nat) :
    Nat → Nat → Int → List Int → List Nat → Nat → Option (Int × List Int × List Nat)
  | 0, u, f, cap, it, i =>
    dfsIter g level t (fun _ _ _ _ => none) u f
      ((g.adj.getD u []).length + 1 - i) cap it i
  | fuel + 1, u, f, cap, it, i =>
    dfsIter g level t
      (fun v f2 cap2 it2 => dfsLoopS g level t fuel v f2 cap2 it2 (it2.getD v 0))
      u f ((g.adj.getD u []).length + 1 - i) cap it i

theorem dfsLoopS_unfold (g : Dinic) (level : List Int) (t : Nat)
    (fuel : Nat) (u : Nat) (f : Int) (cap : List Int) (it : List Nat) (i : Nat) :
    dfsLoopS g level t fuel u f cap it i =
      dfsIter g level t
        (fun v f2 cap2 it2 =>
          if fuel = 0 then none
          else dfsLoopS g level t (fuel - 1) v f2 cap2 it2 (it2.getD v 0))
        u f ((g.adj.getD u []).length + 1 - i) cap it i := by
  cases fuel with
  | zero =>
    rw [dfsLoopS]
    rfl
  | succ fl =>
    rw [dfsLoopS]
    rfl

theorem dfsLoop_eq (g : Dinic) (level : List Int) (t : Nat)
    (fuel : Nat) (u : Nat) (f : Int) (cap : List Int) (it : List Nat) (i : Nat) :
    dfsLoop g level t fuel u f cap it i = dfsLoopS g level t fuel u f cap it i := by
  induction fuel, u, f, cap, it, i using dfsLoop.induct g level t with
  | case1 fuel u f cap it i hi hskip ih =>
    rw [dfsLoop, if_pos hi, if_pos hskip, ih, dfsLoopS_unfold, dfsLoopS_unfold,
      show (g.adj.getD u []).length + 1 - i =
        ((g.adj.getD u []).length + 1 - (i + 1)) + 1 from by omega,
      dfsIter, if_pos hi, if_pos hskip]
  | case2 fuel u f cap it i hi hadm hres ihv =>
    rw [dfsLoop, if_pos hi, if_neg hadm, dfsLoopS_unfold,
      show (g.adj.getD u []).length + 1 - i =
        ((g.adj.getD u []).length + 1 - (i + 1)) + 1 from by omega,
      dfsIter, if_pos hi, if_neg hadm]
    by_cases hvt : g.to_.getD ((g.adj.getD u []).getD i 0) 0 = t
    · rw [dif_pos hvt] at hres
      exact absurd hres (by simp)
    · rw [dif_neg hvt] at hres
      by_cases hfu : fuel = 0
      · simp only [if_neg hvt, if_pos hfu]
      · rw [dif_neg hfu] at hres
        have hS := (ihv hfu).symm.trans hres
        simp only [if_neg hvt, if_neg hfu]
        rw [hres, hS]
  | case3 fuel u f cap it i hi hadm pushed cap2 it2 hres hpush ihv =>
    rw [dfsLoop, if_pos hi, if_neg hadm, dfsLoopS_unfold,
      show (g.adj.getD u []).length + 1 - i =
        ((g.adj.getD u []).length + 1 - (i + 1)) + 1 from by omega,
      dfsIter, if_pos hi, if_neg hadm]
    by_cases hvt : g.to_.getD ((g.adj.getD u []).getD i 0) 0 = t
    · rw [dif_pos hvt] at hres
      simp only [Option.some.injEq, Prod.mk.injEq] at hres
      obtain ⟨hpe, hc2, hi2⟩ := hres
      simp only [if_pos hvt]
      simp only [if_pos (show (f ⊓ cap.getD ((g.adj.getD u []).getD i 0) 0) ≠ 0 from by
        rw [hpe]
        exact hpush)]
    · rw [dif_neg hvt] at hres
      by_cases hfu : fuel = 0
      · rw [dif_pos hfu] at hres
        exact Option.noConfusion hres
      · rw [dif_neg hfu] at hres
        have hS := (ihv hfu).symm.trans hres
        simp only [if_neg hvt, if_neg hfu]
        rw [hres, hS]
        dsimp only
        simp only [if_pos hpush]
  | case4 fuel u f cap it i hi hadm pushed cap2 it2 hres hpush ihv ih =>
    rw [not_not] at hpush
    rw [dfsLoop, if_pos hi, if_neg hadm, dfsLoopS_unfold,
      show (g.adj.getD u []).length + 1 - i =
        ((g.adj.getD u []).length + 1 - (i + 1)) + 1 from by omega,
      dfsIter, if_pos hi, if_neg hadm]
    by_cases hvt : g.to_.getD ((g.adj.getD u []).getD i 0) 0 = t
    · rw [dif_pos hvt] at hres
      simp only [Option.some.injEq, Prod.mk.injEq] at hres
      obtain ⟨hpe, hc2, hi2⟩ := hres
      simp only [if_pos hvt]
      simp only [if_neg (show ¬((f ⊓ cap.getD ((g.adj.getD u []).getD i 0) 0) ≠ 0) from by
        rw [hpe, hpush]
        simp)]
      rw [hc2, hi2, ih, dfsLoopS_unfold]
    · rw [dif_neg hvt] at hres
      by_cases hfu : fuel = 0
      · rw [dif_pos hfu] at hres
        exact Option.noConfusion hres
      · rw [dif_neg hfu] at hres
        have hS := (ihv hfu).symm.trans hres
        simp only [if_neg hvt, if_neg hfu]
        rw [hres, hS]
        dsimp only
        simp only [if_neg (not_not_intro hpush)]
        rw [ih, dfsLoopS_unfold]
        simp only [if_neg hfu]
  | case5 fuel u f cap it i hi =>
    rw [dfsLoop, if_neg hi, dfsLoopS_unfold]
    by_cases h0 : (g.adj.getD u []).length + 1 - i = 0
    · rw [h0, dfsIter]
    · rw [show (g.adj.getD u []).length + 1 - i =
        ((g.adj.getD u []).length - i) + 1 from by omega, dfsIter, if_neg hi]

/-- Structural mirror of `dinicInner`. -/
def dinicInnerS (g : Dinic) (level : List Int) (s t : Nat) (dfsFuel : Nat) :
    Nat → Int → List Int → List Nat → Option (Int × List Int)
  | 0, _, _, _ => none
  | fuel + 1, flow, cap, it =>
    match (if s = t then some (((10 : Int) ^ 18), cap, it)
      else dfsLoopS g level t dfsFuel s ((10 : Int) ^ 18) cap it (it.getD s 0)) with
    | none => none
    | some (pushed, cap2, it2) =>
      if pushed ≠ 0 then dinicInnerS g level s t dfsFuel fuel (flow + pushed) cap2 it2
      else some (flow, cap2)

theorem dinicInner_eq (g : Dinic) (level : List Int) (s t : Nat) (dfsFuel : Nat) :
    ∀ (fuel : Nat) (flow : Int) (cap : List Int) (it : List Nat),
      dinicInner g level s t dfsFuel fuel flow cap it =
        dinicInnerS g level s t dfsFuel fuel flow cap it := by
  intro fuel
  induction fuel with
  | zero =>
    intro flow cap it
    rfl
  | succ fl ih =>
    intro flow cap it
    rw [dinicInner, dinicInnerS, dfsLoop_eq]
    rcases hX : (if s = t then some (((10 : Int) ^ 18), cap, it)
      else dfsLoopS g level t dfsFuel s ((10 : Int) ^ 18) cap it (it.getD s 0))
      with _ | ⟨p, c2, i2⟩
    · rfl
    · dsimp only
      by_cases hp : p ≠ 0
      · rw [if_pos hp, ih, if_pos hp]
      · rw [if_neg hp, if_neg hp]

/-- Structural mirror of `dinicOuter`. -/
def dinicOuterS (g : Dinic) (s t : Nat) (dfsFuel innerFuel : Nat) :
    Nat → Int → List Int → Option (Int × List Int)
  | 0, _, _ => none
  | fuel + 1, flow, cap =>
    match bfsLoop g cap (g.n + 2) [s] 0 ((List.replicate g.n (-1)).set s 0) with
    | none => none
    | some level =>
      if level.getD t (-1) < 0 then some (flow, cap)
      else
        match dinicInnerS g level s t dfsFuel innerFuel 0 cap (List.replicate g.n 0) with
        | none => none
        | some (add, cap2) => dinicOuterS g s t dfsFuel innerFuel fuel (flow + add) cap2

theorem dinicOuter_eq (g : Dinic) (s t : Nat) (dfsFuel innerFuel : Nat) :
    ∀ (fuel : Nat) (flow : Int) (cap : List Int),
      dinicOuter g s t dfsFuel innerFuel fuel flow cap =
        dinicOuterS g s t dfsFuel innerFuel fuel flow cap := by
  intro fuel
  induction fuel with
  | zero =>
    intro flow cap
    rfl
  | succ fl ih =>
    intro flow cap
    rw [dinicOuter, dinicOuterS]
    rcases hB : bfsLoop g cap (g.n + 2) [s] 0 ((List.replicate g.n (-1)).set s 0)
      with _ | level
    · rfl
    · dsimp only
      by_cases hlev : level.getD t (-1) < 0
      · rw [if_pos hlev, if_pos hlev]
      · rw [if_neg hlev, if_neg hlev, dinicInner_eq]
        rcases hI : dinicInnerS g level s t dfsFuel innerFuel 0 cap (List.replicate g.n 0)
          with _ | ⟨add, cap2⟩
        · rfl
        · dsimp only
          rw [ih]

/-- Structural mirror of `Dinic.max_flow`. -/
def max_flowS (g : Dinic) (s t : Nat) (dfsFuel innerFuel outerFuel : Nat) :
    Option (Int × List Int) :=
  dinicOuterS g s t dfsFuel innerFuel outerFuel 0 g.cap

theorem max_flow_eq (g : Dinic) (s t : Nat) (dfsFuel innerFuel outerFuel : Nat) :
    g.max_flow s t dfsFuel innerFuel outerFuel = max_flowS g s t dfsFuel innerFuel outerFuel := by
  unfold Dinic.max_flow max_flowS
  exact dinicOuter_eq g s t dfsFuel innerFuel outerFuel 0 g.cap

/-- `derangementCore` with the structural max-flow (kernel-evaluable). -/
def derangementCoreS (top_cells : Grid) (w h : Nat) : Except PyErr SlotsDeriveResult :=
  let scan := occupiedScan top_cells w h
  let colors := sortedColors scan
  let n := scan.length
  if n = 0 then
    Except.ok (SlotsDeriveResult.mk (allNoneGrid w h) ("derangement") 0 0 0)
  else if colors.length = 1 then
    Except.error (PyErr.valueError
      ("Cannot derive slots with per-cell mismatch using only 1 color"))
  else if 2 * ((colors.map (countOf scan)).foldl max 0) > n then
    Except.error (PyErr.valueError
      ("Cannot derive slots with per-cell mismatch: dominant color has more than half of the occupied cells"))
  else
    let K := colors.length
    let g := buildGraph (2 * K + 2)
      (derangementOps K (fun i => (countOf scan (colors.getD i 0) : Int)))
    match max_flowS g 0 (2 * K + 1) (2 * K + 4) (n + 2) (n + 2) with
    | none => Except.error PyErr.fuel
    | some (flowed, capF) =>
      if flowed ≠ (n : Int) then
        Except.error (PyErr.valueError
          ("Could not find a per-cell mismatch assignment (flow infeasible)"))
      else
        let al := allocList g capF colors K
        match fillAll colors scan al colors (allNoneGrid w h) with
        | Except.error e => Except.error e
        | Except.ok out =>
          if sameCellCount top_cells out w h ≠ 0 then
            Except.error (PyErr.runtimeError
              ("Internal error: derangement produced same-cell matches"))
          else
            Except.ok (SlotsDeriveResult.mk out ("derangement") 0 0 (n : Int))

theorem derangementCore_eq_S (top_cells : Grid) (w h : Nat) :
    derangementCore top_cells w h = derangementCoreS top_cells w h := by
  unfold derangementCore derangementCoreS
  dsimp only
  rw [max_flow_eq]

/-- Witness for C1 on the 4×2 two-row grid with colors 0,1,2,3. -/
theorem C1_derangement_postconditions_witness :
    ((getCell [[some 1, some 1, some 0, some 0], [some 3, some 3, some 2, some 2]] 0 0).isSome ↔
      (getCell [[some 0, some 0, some 1, some 1], [some 2, some 2, some 3, some 3]] 0 0).isSome) ∧
    cellCount [[some 1, some 1, some 0, some 0], [some 3, some 3, some 2, some 2]] 4 2 3 =
      cellCount [[some 0, some 0, some 1, some 1], [some 2, some 2, some 3, some 3]] 4 2 3 ∧
    getCell [[some 1, some 1, some 0, some 0], [some 3, some 3, some 2, some 2]] 0 0 ≠
      some 0 := by
  have h := C1_derangement_postconditions
    [[some 0, some 0, some 1, some 1], [some 2, some 2, some 3, some 3]] none
    (SlotsDeriveResult.mk [[some 1, some 1, some 0, some 0],
      [some 3, some 3, some 2, some 2]] ("derangement") 0 0 8)
    (by decide) (by
      unfold derive_slots_from_top derive_slots_derangement
      rw [derangementCore_eq_S]
      rfl)
  exact ⟨h.1 0 0, h.2.1 3, h.2.2 0 0 0 rfl⟩

/-! ## solver.py -/

/-- `solver.SolveResult`. -/
structure SolveResult where
  solvable : Bool
  steps : Option Int
  expanded : Int
  reason : String
  solution : Option (List (String × Int × Int))
deriving Repr, DecidableEq

/-- `solver._flatten`: row-major cell list with `None ↦ -1`. -/
def flattenG (g : Grid) : List Int :=
  g.flatMap (fun row => row.map (fun c => match c with
    | none => (-1 : Int)
    | some v => v))

/-- `solver._unflatten`: rebuild a `w×h` grid, `v < 0 ↦ None`; the Python
index walk reads entry `y*w + x` for row `y`, column `x`. -/
def unflattenG (flat : List Int) (w h : Nat) : Except PyErr Grid :=
  if flat.length ≠ w * h then Except.error (PyErr.valueError ("flat size mismatch"))
  else Except.ok ((List.range h).map (fun y => (List.range w).map (fun x =>
    if flat.getD (y * w + x) 0 < 0 then none else some (flat.getD (y * w + x) 0))))

/-- Lexicographic order on `(pos, color, ammo)` triples (Python tuple `<=`). -/
def tripleLe (a b : Int × Int × Int) : Bool :=
  if a.1 ≠ b.1 then a.1 ≤ b.1
  else if a.2.1 ≠ b.2.1 then a.2.1 ≤ b.2.1
  else a.2.2 ≤ b.2.2

/-- `solver._canon_shooters`: the sorted `(pos, color, ammo)` multiset. -/
def canonShooters (sh : List Shooter) : List (Int × Int × Int) :=
  pySort tripleLe (sh.map (fun s => (s.pos, s.color, s.ammo)))

/-- Rebuild `Shooter` records from canonical triples
(`Shooter(pos=p, color=c, ammo=a)`). -/
def rebuildShooters (l : List (Int × Int × Int)) : List Shooter :=
  l.map (fun t => Shooter.mk t.2.1 t.2.2 t.1)

/-- `min(p[1] for p in pts)` (components are nonempty in every use). -/
def compMinY (pts : List (Nat × Nat)) : Nat :=
  match pts with
  | [] => 0
  | p :: rest => rest.foldl (fun m q => min m q.2) p.2

/-- `min(p[0] for p in pts if p[1] == my)`. -/
def compMinX (pts : List (Nat × Nat)) (my : Nat) : Nat :=
  match pts.filter (fun p => p.2 = my) with
  | [] => 0
  | p :: rest => rest.foldl (fun m q => min m q.1) p.1

/-- The component sort key order of `sim.all_components`:
`(-len(pts), miny, minx)` lexicographically. -/
def compLe (a b : List (Nat × Nat)) : Bool :=
  if -(a.length : Int) ≠ -(b.length : Int) then -(a.length : Int) ≤ -(b.length : Int)
  else if compMinY a ≠ compMinY b then compMinY a ≤ compMinY b
  else compMinX a (compMinY a) ≤ compMinX b (compMinY b)

/-- One cell of the `sim.all_components` scan: skip seen or empty cells,
otherwise flood-fill and mark the component. -/
def compScanStep (top : Grid)
    (acc : Except PyErr (List (List Bool) × List (List (Nat × Nat)))) (y x : Nat) :
    Except PyErr (List (List Bool) × List (List (Nat × Nat))) :=
  match acc with
  | Except.error e => Except.error e
  | Except.ok (seen, comps) =>
    match pyGetL top y with
    | Except.error e => Except.error e
    | Except.ok row =>
      match pyGetL row x with
      | Except.error e => Except.error e
      | Except.ok c =>
        if (seen.getD y []).getD x false ∨ c = none then Except.ok (seen, comps)
        else
          match connected_component top (x : Int) (y : Int) with
          | Except.error e => Except.error e
          | Except.ok pts =>
            Except.ok (pts.foldl (fun s p => s.set p.2 ((s.getD p.2 []).set p.1 true)) seen,
              comps ++ [pts])

/-- `sim.all_components`: scan components then sort by the key. -/
def all_components (top : Grid) : Except PyErr (List (List (Nat × Nat))) :=
  let h := top.length
  let w := (top.headD []).length
  match (List.range h).foldl (fun acc y =>
      (List.range w).foldl (fun acc x => compScanStep top acc y x) acc)
      (Except.ok (List.replicate h (List.replicate w false), [])) with
  | Except.error e => Except.error e
  | Except.ok (_, comps) => Except.ok (pySort compLe comps)

/-- A BFS node: flattened top, flattened slots, canonical shooters. -/
abbrev FlatState := List Int × List Int × List (Int × Int × Int)

/-- A `prev` entry: parent state, action taken, depth. -/
abbrev PrevEntry := Option FlatState × Option (String × Int × Int) × Nat

/-- The solver's `prev` dictionary as an insertion-ordered association
list (keys are inserted at most once). -/
abbrev PrevMap := List (FlatState × PrevEntry)

/-- `prev.get(st)` (`None` when absent). -/
def prevLookup (prev : PrevMap) (st : FlatState) : Option PrevEntry :=
  (prev.find? (fun e => e.1 = st)).map Prod.snd

/-- `solver.solve_level.reconstruct`: walk parents collecting actions,
then reverse (fuel bounds the chain length). -/
def reconstruct (prev : PrevMap) : Nat → FlatState → List (String × Int × Int) →
    Except PyErr (List (String × Int × Int))
  | 0, _, _ => Except.error PyErr.fuel
  | fl + 1, cur, path =>
    match prevLookup prev cur with
    | none => Except.error PyErr.keyError
    | some (none, _, _) => Except.ok path.reverse
    | some (some p, act, _) =>
      reconstruct prev fl p (match act with
        | none => path
        | some a => path ++ [a])

/-- One solver transition: apply the action (`apply_tap` for `"tap"`,
nothing for a wait; a refused tap yields `none`), then one `tick`. -/
def stepState (w h : Int) (cfg : GameConfig) (tg sg : Grid) (sh : List Shooter)
    (a : String × Int × Int) : Except PyErr (Option (Grid × Grid × List Shooter)) :=
  if a.1 = "tap" then
    match apply_tap tg sg sh (a.2.1, a.2.2) cfg with
    | Except.error e => Except.error e
    | Except.ok none => Except.ok none
    | Except.ok (some (ntop, nslots, nshooters)) =>
      match tick ntop nslots nshooters w h cfg with
      | Except.error e => Except.error e
      | Except.ok (t2, s2, sh2, _) => Except.ok (some (t2, s2, sh2))
  else
    match tick tg sg sh w h cfg with
    | Except.error e => Except.error e
    | Except.ok (t2, s2, sh2, _) => Except.ok (some (t2, s2, sh2))

/-- The inner `for act in actions` loop of `solve_level`: either returns
the solved result or the updated queue and `prev` map. -/
def actLoop (w h : Nat) (cfg : GameConfig) (tg sg : Grid) (sh : List Shooter)
    (st : FlatState) (depth : Nat) (expanded : Int) :
    List (String × Int × Int) → List FlatState → PrevMap →
    Except PyErr (Sum SolveResult (List FlatState × PrevMap))
  | [], q, prev => Except.ok (Sum.inr (q, prev))
  | a :: rest, q, prev =>
    match stepState (w : Int) (h : Int) cfg tg sg sh a with
    | Except.error e => Except.error e
    | Except.ok none => actLoop w h cfg tg sg sh st depth expanded rest q prev
    | Except.ok (some (ntop2, nslots2, nshooters2)) =>
      if is_win nslots2 then
        match reconstruct
            (if (prevLookup prev (flattenG ntop2, flattenG nslots2,
                canonShooters nshooters2)).isSome then prev
             else prev ++ [((flattenG ntop2, flattenG nslots2, canonShooters nshooters2),
                (some st, some a, depth + 1))])
            ((if (prevLookup prev (flattenG ntop2, flattenG nslots2,
                canonShooters nshooters2)).isSome then prev
              else prev ++ [((flattenG ntop2, flattenG nslots2, canonShooters nshooters2),
                (some st, some a, depth + 1))]).length + 1)
            (flattenG ntop2, flattenG nslots2, canonShooters nshooters2) [] with
        | Except.error e => Except.error e
        | Except.ok sol =>
          Except.ok (Sum.inl (SolveResult.mk true (some ((depth : Int) + 1)) expanded
            ("solved") (some sol)))
      else
        if (prevLookup prev (flattenG ntop2, flattenG nslots2,
            canonShooters nshooters2)).isSome then
          actLoop w h cfg tg sg sh st depth expanded rest q prev
        else
          actLoop w h cfg tg sg sh st depth expanded rest
            (q ++ [(flattenG ntop2, flattenG nslots2, canonShooters nshooters2)])
            (prev ++ [((flattenG ntop2, flattenG nslots2, canonShooters nshooters2),
              (some st, some a, depth + 1))])

/-- The BFS `while q` loop of `solve_level`; fuel bounds the number of
queue pops. -/
def solveLoop (w h : Nat) (cfg : GameConfig) (maxE maxS : Int) (allowW : Bool) :
    Nat → List FlatState → PrevMap → Int → Except PyErr SolveResult
  | 0, _, _, _ => Except.error PyErr.fuel
  | _ + 1, [], _, expanded =>
    Except.ok (SolveResult.mk false none expanded
      (if expanded < maxE then "search_exhausted" else "max_expanded") none)
  | fuel + 1, st :: qrest, prev, expanded =>
    match prevLookup prev st with
    | none => Except.error PyErr.keyError
    | some (_, _, depth) =>
      if (depth : Int) ≥ maxS then solveLoop w h cfg maxE maxS allowW fuel qrest prev expanded
      else
        match unflattenG st.1 w h with
        | Except.error e => Except.error e
        | Except.ok tg =>
          match unflattenG st.2.1 w h with
          | Except.error e => Except.error e
          | Except.ok sg =>
            match is_deadlock sg (rebuildShooters st.2.2) w h cfg with
            | Except.error e => Except.error e
            | Except.ok b =>
              if b then solveLoop w h cfg maxE maxS allowW fuel qrest prev expanded
              else
                match all_components tg with
                | Except.error e => Except.error e
                | Except.ok comps =>
                  match actLoop w h cfg tg sg (rebuildShooters st.2.2) st depth expanded
                      (comps.map (fun comp => (("tap" : String),
                          (compMinX comp (compMinY comp) : Int), (compMinY comp : Int))) ++
                        (if allowW then [(("wait" : String), (-1 : Int), (-1 : Int))] else []))
                      qrest prev with
                  | Except.error e => Except.error e
                  | Except.ok (Sum.inl res) => Except.ok res
                  | Except.ok (Sum.inr (q2, prev2)) =>
                    if expanded + 1 ≥ maxE then
                      Except.ok (SolveResult.mk false none (expanded + 1)
                        ("max_expanded") none)
                    else solveLoop w h cfg maxE maxS allowW fuel q2 prev2 (expanded + 1)

/-- `solver.solve_level` (fuel bounds BFS queue pops; the Python loop is
finite since at most `max_expanded` expansions each enqueue boundedly
many states). -/
def solve_level (top slots : Grid) (w h : Nat) (cfg : GameConfig)
    (maxE maxS : Int) (allowW : Bool) (fuel : Nat) : Except PyErr SolveResult :=
  if is_win slots then
    Except.ok (SolveResult.mk true (some 0) 0 ("already_clear") (some []))
  else
    solveLoop w h cfg maxE maxS allowW fuel [(flattenG top, flattenG slots, canonShooters [])]
      [((flattenG top, flattenG slots, canonShooters []), (none, none, 0))] 0

/-- Replay a solution on concrete grids: apply each action and a tick
(`none` if a replayed tap is refused). -/
def replay (w h : Int) (cfg : GameConfig) :
    List (String × Int × Int) → Grid × Grid × List Shooter →
    Except PyErr (Option (Grid × Grid × List Shooter))
  | [], s => Except.ok (some s)
  | a :: rest, s =>
    match stepState w h cfg s.1 s.2.1 s.2.2 a with
    | Except.error e => Except.error e
    | Except.ok none => Except.ok none
    | Except.ok (some s2) => replay w h cfg rest s2

/-- The solver transition on flat states: unflatten, step, reflatten. -/
def flatStepE (w h : Nat) (cfg : GameConfig) (p : FlatState) (a : String × Int × Int) :
    Except PyErr (Option FlatState) :=
  match unflattenG p.1 w h with
  | Except.error e => Except.error e
  | Except.ok tg =>
    match unflattenG p.2.1 w h with
    | Except.error e => Except.error e
    | Except.ok sg =>
      match stepState (w : Int) (h : Int) cfg tg sg (rebuildShooters p.2.2) a with
      | Except.error e => Except.error e
      | Except.ok none => Except.ok none
      | Except.ok (some s2) =>
        Except.ok (some (flattenG s2.1, flattenG s2.2.1, canonShooters s2.2.2))

/-- Replay on flat states. -/
def replayFlat (w h : Nat) (cfg : GameConfig) :
    List (String × Int × Int) → FlatState → Except PyErr (Option FlatState)
  | [], s => Except.ok (some s)
  | a :: rest, s =>
    match flatStepE w h cfg s a with
    | Except.error e => Except.error e
    | Except.ok none => Except.ok none
    | Except.ok (some s2) => replayFlat w h cfg rest s2

/-- All flat slot entries encode empty cells. -/
def winFlat (st : FlatState) : Bool := st.2.1.all (fun v => v < 0)

/-- Every occupied cell of `g'` held the same color in `g` (steps only
erase cells). -/
def CellsMono (g g' : Grid) : Prop :=
  ∀ x y c, getCell g' x y = some c → getCell g x y = some c

theorem cellsMono_refl (g : Grid) : CellsMono g g := fun _ _ _ h => h

theorem cellsMono_trans {g1 g2 g3 : Grid} (h12 : CellsMono g1 g2)
    (h23 : CellsMono g2 g3) : CellsMono g1 g3 := fun x y c h => h12 x y c (h23 x y c h)

/-- Same row count and row lengths. -/
def SameShape (g g' : Grid) : Prop :=
  g'.length = g.length ∧ ∀ i, (g'.getD i []).length = (g.getD i []).length

theorem sameShape_refl (g : Grid) : SameShape g g := ⟨rfl, fun _ => rfl⟩

theorem sameShape_trans {g1 g2 g3 : Grid} (h12 : SameShape g1 g2)
    (h23 : SameShape g2 g3) : SameShape g1 g3 :=
  ⟨h23.1.trans h12.1, fun i => (h23.2 i).trans (h12.2 i)⟩

theorem rect_of_sameShape {g g' : Grid} {w h : Nat} (hg : Rect g w h)
    (hs : SameShape g g') : Rect g' w h := by
  refine ⟨hs.1.trans hg.1, ?_⟩
  intro r hr
  obtain ⟨i, hi, hri⟩ := List.mem_iff_getElem.mp hr
  have hgd : (g'.getD i []).length = r.length := by
    rw [List.getD_eq_getElem?_getD, List.getElem?_eq_getElem hi]
    rw [show (some g'[i]).getD [] = g'[i] from rfl, hri]
  rw [← hgd, hs.2 i]
  have hig : i < g.length := by rw [← hs.1]; exact hi
  rw [show g.getD i [] = g[i] from by
    rw [List.getD_eq_getElem?_getD, List.getElem?_eq_getElem hig]
    rfl]
  exact hg.2 _ (List.getElem_mem hig)

/-- All occupied cells carry nonnegative colors. -/
def GridNN (g : Grid) : Prop := ∀ x y c, getCell g x y = some c → 0 ≤ c

theorem gridNN_of_cellsMono {g g' : Grid} (hm : CellsMono g g') (hnn : GridNN g) :
    GridNN g' := fun x y c hc => hnn x y c (hm x y c hc)

theorem set_none_cells (g : Grid) (j i : Nat) :
    CellsMono g (g.set j ((g.getD j []).set i none)) := by
  intro x y c hc
  rcases getCell_set_none_cases g j i x y with hcase | hcase
  · rw [← hcase]
    exact hc
  · rw [hcase] at hc
    cases hc

theorem set_row_shape (g : Grid) (j : Nat) (row : List Cell)
    (hlen : row.length = (g.getD j []).length) : SameShape g (g.set j row) := by
  refine ⟨List.length_set g j row, ?_⟩
  intro i
  by_cases hij : j = i
  · subst hij
    by_cases hjl : j < g.length
    · rw [getD_set_self _ _ _ _ hjl, hlen]
    · rw [List.set_eq_of_length_le (by omega)]
  · rw [getD_set_ne _ _ _ hij]

theorem pySetCellI_decompose {g g' : Grid} {tx ty : Int} {v : Cell}
    (h : pySetCellI g tx ty v = Except.ok g') :
    ∃ j row i, pyGetL g j = Except.ok row ∧ g' = g.set j (row.set i v) := by
  unfold pySetCellI at h
  simp only [Bind.bind, Except.bind] at h
  split at h
  · exact absurd h (by simp)
  · rename_i j h1
    split at h
    · exact absurd h (by simp)
    · rename_i row h2
      split at h
      · exact absurd h (by simp)
      · rename_i i h3
        refine ⟨j, row, i, h2, ?_⟩
        simpa [pure, Except.pure] using h.symm

theorem pySetCellI_none_cells {g g' : Grid} {tx ty : Int}
    (h : pySetCellI g tx ty none = Except.ok g') : CellsMono g g' ∧ SameShape g g' := by
  obtain ⟨j, row, i, hrow, hg'⟩ := pySetCellI_decompose h
  have hr : g.getD j [] = row := by
    rw [List.getD_eq_getElem?_getD, ← List.get?_eq_getElem?, pyGetL_ok hrow]
    rfl
  subst hg'
  rw [← hr]
  exact ⟨set_none_cells g j i,
    set_row_shape g j _ (by rw [List.length_set])⟩

/-- The firing loop only erases cells and keeps the grid shapes. -/
theorem tick_fire_loop_cells (w h : Int) (lst : List Shooter) :
    ∀ (ntop nslots : Grid) (ext : Ext4) (shots : Int) (out : List Shooter)
      (r : Grid × Grid × List Shooter × Int),
      tick_fire_loop w h lst ntop nslots ext shots out = Except.ok r →
      (CellsMono ntop r.1 ∧ SameShape ntop r.1) ∧
      (CellsMono nslots r.2.1 ∧ SameShape nslots r.2.1) := by
  induction lst with
  | nil =>
    rintro ntop nslots ext shots out ⟨rt, rs, ro, rn⟩ hr
    rw [tick_fire_loop] at hr
    cases hr
    exact ⟨⟨cellsMono_refl _, sameShape_refl _⟩, cellsMono_refl _, sameShape_refl _⟩
  | cons sh rest ih =>
    intro ntop nslots ext shots out r hr
    rw [tick_fire_loop] at hr
    split at hr
    · exact absurd hr (by simp)
    · split at hr
      · exact absurd hr (by simp)
      · exact ih _ _ _ _ _ _ hr
      · split at hr
        · exact absurd hr (by simp)
        · exact ih _ _ _ _ _ _ hr
        · split at hr
          · exact ih _ _ _ _ _ _ hr
          · split at hr
            · exact absurd hr (by simp)
            · rename_i nslots2 hset2
              split at hr
              · exact absurd hr (by simp)
              · rename_i ntop2 hsetT
                split at hr
                · exact absurd hr (by simp)
                · have hrec := ih _ _ _ _ _ _ hr
                  have hT := pySetCellI_none_cells hsetT
                  have hS := pySetCellI_none_cells hset2
                  exact ⟨⟨cellsMono_trans hT.1 hrec.1.1,
                          sameShape_trans hT.2 hrec.1.2⟩,
                         cellsMono_trans hS.1 hrec.2.1,
                         sameShape_trans hS.2 hrec.2.2⟩

/-- One `tick` only erases cells and keeps the grid shapes. -/
theorem tick_cells {top slots : Grid} {shooters : List Shooter} {w h : Int}
    {cfg : GameConfig} {r : Grid × Grid × List Shooter × Int}
    (hr : tick top slots shooters w h cfg = Except.ok r) :
    (CellsMono top r.1 ∧ SameShape top r.1) ∧
    (CellsMono slots r.2.1 ∧ SameShape slots r.2.1) := by
  unfold tick at hr
  by_cases hL : perimeter_len w h ≤ 0
  · rw [if_pos hL] at hr
    cases hr
    exact ⟨⟨cellsMono_refl _, sameShape_refl _⟩, cellsMono_refl _, sameShape_refl _⟩
  · rw [if_neg hL] at hr
    split at hr
    · exact absurd hr (by simp)
    · split at hr
      · exact absurd hr (by simp)
      · rename_i nt ns no nn hloop
        cases hr
        have hm := tick_fire_loop_cells w h _ _ _ _ _ _ (nt, ns, no, nn) hloop
        exact ⟨hm.1, hm.2⟩

theorem setCellN_cells_shape (g : Grid) (x y : Nat) :
    CellsMono g (setCellN g x y none) ∧ SameShape g (setCellN g x y none) := by
  unfold setCellN
  exact ⟨set_none_cells g y x, set_row_shape g y _ (by rw [List.length_set])⟩

theorem foldl_setNone_cells (pts : List (Nat × Nat)) :
    ∀ g : Grid, CellsMono g (pts.foldl (fun g p => setCellN g p.1 p.2 none) g) ∧
      SameShape g (pts.foldl (fun g p => setCellN g p.1 p.2 none) g) := by
  induction pts with
  | nil => exact fun g => ⟨cellsMono_refl g, sameShape_refl g⟩
  | cons p rest ih =>
    intro g
    rw [List.foldl_cons]
    have h1 := setCellN_cells_shape g p.1 p.2
    have h2 := ih (setCellN g p.1 p.2 none)
    exact ⟨cellsMono_trans h1.1 h2.1, sameShape_trans h1.2 h2.2⟩

/-- A successful tap leaves the slots unchanged, only erases top cells,
and appends one shooter. -/
theorem apply_tap_effect {top slots : Grid} {sh : List Shooter} {xy : Int × Int}
    {cfg : GameConfig} {nt ns : Grid} {nsh : List Shooter}
    (h : apply_tap top slots sh xy cfg = Except.ok (some (nt, ns, nsh))) :
    ns = slots ∧ (CellsMono top nt ∧ SameShape top nt) ∧
    ∃ s1, nsh = sh ++ [s1] := by
  unfold apply_tap at h
  split at h
  · exact absurd h (by simp)
  · simp only [Bind.bind, Except.bind] at h
    split at h
    · exact absurd h (by simp)
    · rename_i pts hpts
      by_cases hemp : pts.isEmpty
      · rw [if_pos hemp] at h
        exact absurd h (by simp [pure, Except.pure])
      · rw [if_neg hemp] at h
        split at h
        · exact absurd h (by simp [pure, Except.pure])
        · rename_i color hcol
          simp only [pure, Except.pure, Except.ok.injEq, Option.some.injEq,
            Prod.mk.injEq] at h
          obtain ⟨hnt, hns, hnsh⟩ := h
          subst hnt
          exact ⟨hns.symm, (foldl_setNone_cells pts top), _, hnsh.symm⟩

/-- A solver step preserves the rectangular shape and nonnegativity of
both grids. -/
theorem stepState_preserves {w h : Int} {cfg : GameConfig} {tg sg : Grid}
    {sh : List Shooter} {a : String × Int × Int} {t2 s2 : Grid} {sh2 : List Shooter}
    {W H : Nat}
    (hstep : stepState w h cfg tg sg sh a = Except.ok (some (t2, s2, sh2)))
    (hrt : Rect tg W H) (hrs : Rect sg W H) (hnt : GridNN tg) (hns : GridNN sg) :
    Rect t2 W H ∧ Rect s2 W H ∧ GridNN t2 ∧ GridNN s2 := by
  unfold stepState at hstep
  split at hstep
  · split at hstep
    · exact absurd hstep (by simp)
    · exact absurd hstep (by simp)
    · rename_i ntop nslots nshooters htap
      split at hstep
      · exact absurd hstep (by simp)
      · rename_i tt ts tsh tn htick
        simp only [Except.ok.injEq, Option.some.injEq, Prod.mk.injEq] at hstep
        obtain ⟨h1, h2, h3⟩ := hstep
        subst h1
        subst h2
        obtain ⟨hslots_eq, ⟨hcmT, hshT⟩, _⟩ := apply_tap_effect htap
        subst hslots_eq
        have htk := tick_cells htick
        exact ⟨rect_of_sameShape (rect_of_sameShape hrt hshT) htk.1.2,
          rect_of_sameShape hrs htk.2.2,
          gridNN_of_cellsMono htk.1.1 (gridNN_of_cellsMono hcmT hnt),
          gridNN_of_cellsMono htk.2.1 hns⟩
  · split at hstep
    · exact absurd hstep (by simp)
    · rename_i tt ts tsh tn htick
      simp only [Except.ok.injEq, Option.some.injEq, Prod.mk.injEq] at hstep
      obtain ⟨h1, h2, h3⟩ := hstep
      subst h1
      subst h2
      have htk := tick_cells htick
      exact ⟨rect_of_sameShape hrt htk.1.2, rect_of_sameShape hrs htk.2.2,
        gridNN_of_cellsMono htk.1.1 hnt, gridNN_of_cellsMono htk.2.1 hns⟩

theorem insertSorted_sorted {α : Type} (le : α → α → Bool)
    (htot : ∀ a b, le a b = true ∨ le b a = true)
    (htr : ∀ a b c, le a b = true → le b c = true → le a c = true) (a : α) :
    ∀ l : List α, List.Pairwise (fun x y => le x y = true) l →
      List.Pairwise (fun x y => le x y = true) (insertSorted le a l) := by
  intro l
  induction l with
  | nil =>
    intro _
    exact List.pairwise_singleton _ a
  | cons b t ih =>
    intro hp
    rw [List.pairwise_cons] at hp
    rw [insertSorted]
    by_cases hab : le a b
    · rw [if_pos hab]
      rw [List.pairwise_cons]
      refine ⟨?_, List.pairwise_cons.mpr hp⟩
      intro x hx
      rcases List.mem_cons.mp hx with hxb | hxt
      · rw [hxb]
        exact hab
      · exact htr a b x hab (hp.1 x hxt)
    · rw [if_neg hab]
      rw [List.pairwise_cons]
      have hba : le b a = true := by
        rcases htot a b with hc | hc
        · exact absurd hc hab
        · exact hc
      refine ⟨?_, ih hp.2⟩
      intro x hx
      have hmem := (insertSorted_perm le a t).mem_iff.mp hx
      rcases List.mem_cons.mp hmem with hxa | hxt
      · rw [hxa]
        exact hba
      · exact hp.1 x hxt

theorem pySort_sorted {α : Type} (le : α → α → Bool)
    (htot : ∀ a b, le a b = true ∨ le b a = true)
    (htr : ∀ a b c, le a b = true → le b c = true → le a c = true) :
    ∀ l : List α, List.Pairwise (fun x y => le x y = true) (pySort le l) := by
  intro l
  induction l with
  | nil => exact List.Pairwise.nil
  | cons a t ih =>
    rw [pySort]
    exact insertSorted_sorted le htot htr a (pySort le t) ih

/-- Sorting (by a total, transitive, value-antisymmetric order) is
invariant under permutation of the input. -/
theorem pySort_eq_of_perm {α : Type} (le : α → α → Bool)
    (htot : ∀ a b, le a b = true ∨ le b a = true)
    (htr : ∀ a b c, le a b = true → le b c = true → le a c = true)
    (hanti : ∀ a b, le a b = true → le b a = true → a = b)
    {l1 l2 : List α} (hp : l1.Perm l2) : pySort le l1 = pySort le l2 := by
  haveI : IsAntisymm α (fun x y => le x y = true) := ⟨hanti⟩
  exact List.eq_of_perm_of_sorted
    ((pySort_perm le l1).trans (hp.trans (pySort_perm le l2).symm))
    (pySort_sorted le htot htr l1) (pySort_sorted le htot htr l2)

theorem shooterLe_total : ∀ a b : Shooter, shooterLe a b = true ∨ shooterLe b a = true := by
  intro a b
  unfold shooterLe
  split_ifs <;> simp only [decide_eq_true_eq] <;> omega

theorem shooterLe_trans : ∀ a b c : Shooter,
    shooterLe a b = true → shooterLe b c = true → shooterLe a c = true := by
  intro a b c hab hbc
  unfold shooterLe at hab hbc ⊢
  split_ifs at hab hbc ⊢ <;> simp only [decide_eq_true_eq] at hab hbc ⊢ <;> omega

theorem shooterLe_antisymm : ∀ a b : Shooter,
    shooterLe a b = true → shooterLe b a = true → a = b := by
  intro a b hab hba
  obtain ⟨ac, aa, ap⟩ := a
  obtain ⟨bc, ba, bp⟩ := b
  unfold shooterLe at hab hba
  dsimp only at hab hba
  simp only [Shooter.mk.injEq]
  split_ifs at hab hba <;> simp only [decide_eq_true_eq] at hab hba <;>
    refine ⟨by omega, by omega, by omega⟩

theorem tripleLe_total : ∀ a b : Int × Int × Int,
    tripleLe a b = true ∨ tripleLe b a = true := by
  intro a b
  unfold tripleLe
  split_ifs <;> simp only [decide_eq_true_eq] <;> omega

theorem tripleLe_trans : ∀ a b c : Int × Int × Int,
    tripleLe a b = true → tripleLe b c = true → tripleLe a c = true := by
  intro a b c hab hbc
  unfold tripleLe at hab hbc ⊢
  split_ifs at hab hbc ⊢ <;> simp only [decide_eq_true_eq] at hab hbc ⊢ <;> omega

theorem tripleLe_antisymm : ∀ a b : Int × Int × Int,
    tripleLe a b = true → tripleLe b a = true → a = b := by
  intro a b hab hba
  obtain ⟨a1, a2, a3⟩ := a
  obtain ⟨b1, b2, b3⟩ := b
  unfold tripleLe at hab hba
  dsimp only at hab hba
  simp only [Prod.mk.injEq]
  split_ifs at hab hba <;> simp only [decide_eq_true_eq] at hab hba <;>
    refine ⟨by omega, by omega, by omega⟩

/-- `tick` on a permuted shooter list: same grids and shot count, and a
permuted survivor list. -/
theorem tick_perm_ok {top slots : Grid} {w h : Int} {cfg : GameConfig}
    {sh1 sh2 : List Shooter} (hp : sh1.Perm sh2) (r1 : Grid × Grid × List Shooter × Int)
    (h1 : tick top slots sh1 w h cfg = Except.ok r1) :
    ∃ o2, tick top slots sh2 w h cfg = Except.ok (r1.1, r1.2.1, o2, r1.2.2.2) ∧
      r1.2.2.1.Perm o2 := by
  by_cases hL : perimeter_len w h ≤ 0
  · unfold tick at h1
    rw [if_pos hL] at h1
    cases h1
    refine ⟨sh2, ?_, hp⟩
    unfold tick
    rw [if_pos hL]
  · have hsort : pySort shooterLe (if cfg.move_then_fire
        then sh1.map (fun s => Shooter.mk s.color s.ammo ((s.pos + 1) % perimeter_len w h))
        else sh1) =
      pySort shooterLe (if cfg.move_then_fire
        then sh2.map (fun s => Shooter.mk s.color s.ammo ((s.pos + 1) % perimeter_len w h))
        else sh2) := by
      apply pySort_eq_of_perm shooterLe shooterLe_total shooterLe_trans shooterLe_antisymm
      by_cases hm : cfg.move_then_fire
      · rw [if_pos hm, if_pos hm]
        exact hp.map _
      · rw [if_neg hm, if_neg hm]
        exact hp
    have heq : tick top slots sh2 w h cfg = tick top slots sh1 w h cfg := by
      unfold tick
      rw [if_neg hL, if_neg hL, hsort]
    refine ⟨r1.2.2.1, ?_, List.Perm.refl _⟩
    rw [heq, h1]

/-- `apply_tap` on a permuted shooter list: same refusal, same grids, and
a permuted shooter list. -/
theorem apply_tap_perm_ok {tg sg : Grid} {xy : Int × Int} {cfg : GameConfig}
    {sh1 sh2 : List Shooter} (hp : sh1.Perm sh2) :
    (apply_tap tg sg sh1 xy cfg = Except.ok none →
      apply_tap tg sg sh2 xy cfg = Except.ok none) ∧
    (∀ t s l1, apply_tap tg sg sh1 xy cfg = Except.ok (some (t, s, l1)) →
      ∃ l2, apply_tap tg sg sh2 xy cfg = Except.ok (some (t, s, l2)) ∧ l1.Perm l2) := by
  unfold apply_tap
  rw [hp.length_eq]
  by_cases hcap : ((sh2.length : Int) ≥ cfg.conveyor_capacity)
  · rw [if_pos hcap, if_pos hcap]
    exact ⟨fun h => h, fun t s l1 h => absurd h (by simp)⟩
  · rw [if_neg hcap, if_neg hcap]
    simp only [Bind.bind, Except.bind]
    rcases hcc : connected_component tg xy.1 xy.2 with e | pts
    · exact ⟨fun h => absurd h (by simp), fun t s l1 h => absurd h (by simp)⟩
    · dsimp only
      by_cases hemp : pts.isEmpty
      · rw [if_pos hemp, if_pos hemp]
        exact ⟨fun h => h, fun t s l1 h => absurd h (by simp [pure, Except.pure])⟩
      · rw [if_neg hemp, if_neg hemp]
        rcases hgc : getCell tg xy.1.toNat xy.2.toNat with _ | color
        · exact ⟨fun h => h, fun t s l1 h => absurd h (by simp [pure, Except.pure])⟩
        · refine ⟨fun h => absurd h (by simp [pure, Except.pure]), ?_⟩
          intro t s l1 h
          simp only [pure, Except.pure, Except.ok.injEq, Option.some.injEq,
            Prod.mk.injEq] at h
          obtain ⟨h1, h2, h3⟩ := h
          refine ⟨sh2 ++ [Shooter.mk color (pts.length : Int) cfg.entrance_pos],
            ?_, ?_⟩
          · simp only [pure, Except.pure, Except.ok.injEq, Option.some.injEq,
              Prod.mk.injEq]
            exact ⟨h1, h2, trivial⟩
          · rw [← h3]
            exact hp.append_right _

/-- A solver step on a permuted shooter list: same refusal and grids, and
a permuted shooter list. -/
theorem stepState_perm_ok {w h : Int} {cfg : GameConfig} {tg sg : Grid}
    {sh1 sh2 : List Shooter} (hp : sh1.Perm sh2) (a : String × Int × Int) :
    (stepState w h cfg tg sg sh1 a = Except.ok none →
      stepState w h cfg tg sg sh2 a = Except.ok none) ∧
    (∀ t s l1, stepState w h cfg tg sg sh1 a = Except.ok (some (t, s, l1)) →
      ∃ l2, stepState w h cfg tg sg sh2 a = Except.ok (some (t, s, l2)) ∧ l1.Perm l2) := by
  unfold stepState
  by_cases ht : a.1 = "tap"
  · rw [if_pos ht, if_pos ht]
    have htap := @apply_tap_perm_ok tg sg (a.2.1, a.2.2) cfg sh1 sh2 hp
    constructor
    · intro h
      split at h
      · exact absurd h (by simp)
      · rename_i htap1
        rw [htap.1 htap1]
      · rename_i nt ns nsh htap1
        split at h
        · exact absurd h (by simp)
        · exact absurd h (by simp)
    · intro t s l1 h
      split at h
      · exact absurd h (by simp)
      · exact absurd h (by simp)
      · rename_i nt ns nsh htap1
        obtain ⟨l2, htap2, hperm⟩ := htap.2 nt ns nsh htap1
        rw [htap2]
        dsimp only
        split at h
        · exact absurd h (by simp)
        · rename_i t2 s2 o2 n2 htick
          simp only [Except.ok.injEq, Option.some.injEq, Prod.mk.injEq] at h
          obtain ⟨e1, e2, e3⟩ := h
          obtain ⟨o2', htick2, hperm2⟩ := tick_perm_ok hperm (t2, s2, o2, n2) htick
          rw [htick2]
          dsimp only
          exact ⟨o2', by rw [e1, e2], by rw [← e3]; exact hperm2⟩
  · rw [if_neg ht, if_neg ht]
    constructor
    · intro h
      split at h
      · exact absurd h (by simp)
      · exact absurd h (by simp)
    · intro t s l1 h
      split at h
      · exact absurd h (by simp)
      · rename_i t2 s2 o2 n2 htick
        simp only [Except.ok.injEq, Option.some.injEq, Prod.mk.injEq] at h
        obtain ⟨e1, e2, e3⟩ := h
        obtain ⟨o2', htick2, hperm2⟩ := tick_perm_ok hp (t2, s2, o2, n2) htick
        rw [htick2]
        dsimp only
        exact ⟨o2', by rw [e1, e2], by rw [← e3]; exact hperm2⟩

/-- Rebuilding the canonical triples permutes the original shooters. -/
theorem rebuild_canon_perm (sh : List Shooter) :
    (rebuildShooters (canonShooters sh)).Perm sh := by
  unfold rebuildShooters canonShooters
  have h1 : (pySort tripleLe (sh.map (fun s => (s.pos, s.color, s.ammo)))).Perm
      (sh.map (fun s => (s.pos, s.color, s.ammo))) := pySort_perm _ _
  have h2 := h1.map (fun t : Int × Int × Int => Shooter.mk t.2.1 t.2.2 t.1)
  rw [List.map_map] at h2
  have h3 : sh.map ((fun t : Int × Int × Int => Shooter.mk t.2.1 t.2.2 t.1) ∘
      (fun s => (s.pos, s.color, s.ammo))) = sh := by
    rw [show ((fun t : Int × Int × Int => Shooter.mk t.2.1 t.2.2 t.1) ∘
        (fun s : Shooter => (s.pos, s.color, s.ammo))) = id from by
      funext s
      rfl]
    exact List.map_id sh
  rw [h3] at h2
  exact h2

/-- Canonicalization is permutation-invariant. -/
theorem canonShooters_perm_eq {sh1 sh2 : List Shooter} (hp : sh1.Perm sh2) :
    canonShooters sh1 = canonShooters sh2 := by
  unfold canonShooters
  exact pySort_eq_of_perm tripleLe tripleLe_total tripleLe_trans tripleLe_antisymm
    (hp.map _)

/-- The cell encoding used by `_flatten`. -/
def encCell (c : Cell) : Int :=
  match c with
  | none => -1
  | some v => v

theorem flattenG_cons (row : List Cell) (rest : Grid) :
    flattenG (row :: rest) = row.map encCell ++ flattenG rest := by
  unfold flattenG
  rw [List.flatMap_cons]
  rfl

theorem flattenG_length (w : Nat) : ∀ g : Grid, (∀ r ∈ g, r.length = w) →
    (flattenG g).length = g.length * w := by
  intro g
  induction g with
  | nil =>
    intro _
    simp [flattenG]
  | cons row rest ih =>
    intro hr
    rw [flattenG_cons, List.length_append, List.length_map,
      hr row (List.mem_cons_self row rest),
      ih (fun r hrr => hr r (List.mem_cons_of_mem row hrr)), List.length_cons]
    ring

theorem flattenG_getD (w : Nat) : ∀ (g : Grid) (x y : Nat), (∀ r ∈ g, r.length = w) →
    y < g.length → x < w →
    (flattenG g).getD (y * w + x) 0 = encCell (getCell g x y) := by
  intro g
  induction g with
  | nil =>
    intro x y _ hy _
    exact absurd hy (by simp)
  | cons row rest ih =>
    intro x y hr hy hx
    rw [flattenG_cons]
    cases y with
    | zero =>
      rw [Nat.zero_mul, Nat.zero_add]
      rw [List.getD_append _ _ _ _ (by
        rw [List.length_map, hr row (List.mem_cons_self row rest)]
        exact hx)]
      rw [getD_map encCell row x 0 none (by
        rw [hr row (List.mem_cons_self row rest)]
        exact hx)]
      rfl
    | succ y0 =>
      rw [show (y0 + 1) * w + x = (row.map encCell).length + (y0 * w + x) from by
        rw [List.length_map, hr row (List.mem_cons_self row rest)]
        ring]
      rw [List.getD_append_right _ _ _ _ (Nat.le_add_right _ _), Nat.add_sub_cancel_left]
      rw [ih x y0 (fun r hrr => hr r (List.mem_cons_of_mem row hrr))
        (by rw [List.length_cons] at hy; omega) hx]
      rfl

theorem getD_range (n i d : Nat) (h : i < n) : (List.range n).getD i d = i := by
  rw [List.getD_eq_getElem _ _ (by rw [List.length_range]; exact h), List.getElem_range]

theorem unflattenG_ok_props {f : List Int} {w h : Nat} {g : Grid}
    (hok : unflattenG f w h = Except.ok g) : Rect g w h ∧ GridNN g := by
  unfold unflattenG at hok
  split at hok
  · exact absurd hok (by simp)
  · simp only [Except.ok.injEq] at hok
    subst hok
    refine ⟨⟨by rw [List.length_map, List.length_range], ?_⟩, ?_⟩
    · intro r hr
      rw [List.mem_map] at hr
      obtain ⟨y, _, hy⟩ := hr
      rw [← hy, List.length_map, List.length_range]
    · intro x y c hc
      unfold getCell at hc
      by_cases hyh : y < h
      · rw [getD_map _ _ _ _ 0 (by rw [List.length_range]; exact hyh)] at hc
        by_cases hxw : x < w
        · rw [getD_map _ _ _ _ 0 (by rw [List.length_range]; exact hxw)] at hc
          by_cases hneg : f.getD (((List.range h).getD y 0) * w +
              ((List.range w).getD x 0)) 0 < 0
          · rw [if_pos hneg] at hc
            cases hc
          · rw [if_neg hneg] at hc
            rw [← Option.some.inj hc]
            omega
        · rw [List.getD_eq_default _ _ (by rw [List.length_map, List.length_range]; omega)]
            at hc
          cases hc
      · have hrow : ((List.range h).map (fun y => (List.range w).map (fun x =>
            if f.getD (y * w + x) 0 < 0 then none
            else some (f.getD (y * w + x) 0)))).getD y [] = [] :=
          List.getD_eq_default _ _ (by rw [List.length_map, List.length_range]; omega)
        rw [hrow] at hc
        cases hc

theorem getCell_rangeGrid (f : List Int) (w h x y : Nat) (hx : x < w) (hy : y < h) :
    getCell ((List.range h).map (fun y => (List.range w).map (fun x =>
      if f.getD (y * w + x) 0 < 0 then none
      else some (f.getD (y * w + x) 0)))) x y =
    (if f.getD (y * w + x) 0 < 0 then none else some (f.getD (y * w + x) 0)) := by
  unfold getCell
  rw [getD_map _ _ _ _ 0 (by rw [List.length_range]; exact hy)]
  rw [getD_map _ _ _ _ 0 (by rw [List.length_range]; exact hx)]
  rw [getD_range h y 0 hy, getD_range w x 0 hx]

/-- Flatten/unflatten round-trip on rectangular, nonnegative grids. -/
theorem unflatten_flatten {g : Grid} {w h : Nat} (hg : Rect g w h) (hnn : GridNN g) :
    unflattenG (flattenG g) w h = Except.ok g := by
  have hlen : (flattenG g).length = w * h := by
    rw [flattenG_length w g hg.2, hg.1]
    ring
  unfold unflattenG
  rw [if_neg (by omega)]
  have hbuilt : Rect ((List.range h).map (fun y => (List.range w).map (fun x =>
      if (flattenG g).getD (y * w + x) 0 < 0 then none
      else some ((flattenG g).getD (y * w + x) 0)))) w h := by
    refine ⟨by rw [List.length_map, List.length_range], ?_⟩
    intro r hr
    rw [List.mem_map] at hr
    obtain ⟨y, _, hy⟩ := hr
    rw [← hy, List.length_map, List.length_range]
  refine congrArg Except.ok (rect_ext hbuilt hg ?_)
  intro x y hx hy
  rw [getCell_rangeGrid _ w h x y hx hy]
  rw [flattenG_getD w g x y hg.2 (by rw [hg.1]; exact hy) hx]
  rcases hgc : getCell g x y with _ | c
  · rw [if_pos (by decide)]
  · have hcnn := hnn x y c hgc
    rw [if_neg (by show ¬(encCell (some c) < 0); simp only [encCell]; omega)]
    rfl

theorem is_win_iff_all (g : Grid) : is_win g = true ↔ ∀ row ∈ g, ∀ c ∈ row, c = none := by
  unfold is_win
  rw [List.all_eq_true]
  constructor
  · intro hall row hrow c hc
    have := hall row hrow
    rw [List.all_eq_true] at this
    have h2 := this c hc
    simpa using h2
  · intro hall row hrow
    rw [List.all_eq_true]
    intro c hc
    simp only [decide_eq_true_eq]
    exact hall row hrow c hc

theorem mem_flattenG {g : Grid} {v : Int} :
    v ∈ flattenG g ↔ ∃ row ∈ g, ∃ c ∈ row, v = encCell c := by
  unfold flattenG
  rw [List.mem_flatMap]
  constructor
  · rintro ⟨row, hrow, hv⟩
    rw [List.mem_map] at hv
    obtain ⟨c, hc, hvc⟩ := hv
    exact ⟨row, hrow, c, hc, hvc.symm⟩
  · rintro ⟨row, hrow, c, hc, hv⟩
    exact ⟨row, hrow, List.mem_map.mpr ⟨c, hc, hv.symm⟩⟩

theorem is_win_flatten_neg {g : Grid} (hw : is_win g = true) :
    (flattenG g).all (fun v => v < 0) = true := by
  rw [List.all_eq_true]
  intro v hv
  obtain ⟨row, hrow, c, hc, hvc⟩ := mem_flattenG.mp hv
  have hnone := (is_win_iff_all g).mp hw row hrow c hc
  rw [hvc, hnone]
  decide

/-- Cell membership gives coordinates. -/
theorem getCell_of_mem {g : Grid} {row : List Cell} {c : Cell}
    (hrow : row ∈ g) (hc : c ∈ row) : ∃ x y, getCell g x y = c := by
  obtain ⟨y, hy, hrowy⟩ := List.mem_iff_getElem.mp hrow
  obtain ⟨x, hx, hcx⟩ := List.mem_iff_getElem.mp hc
  refine ⟨x, y, ?_⟩
  unfold getCell
  rw [List.getD_eq_getElem _ _ hy, hrowy, List.getD_eq_getElem _ _ hx, hcx]

theorem flatten_neg_is_win {g : Grid} (hnn : GridNN g)
    (hneg : (flattenG g).all (fun v => v < 0) = true) : is_win g = true := by
  rw [is_win_iff_all]
  intro row hrow c hc
  rcases hcv : c with _ | v
  · rfl
  · subst hcv
    have hv : (v : Int) ∈ flattenG g := mem_flattenG.mpr ⟨row, hrow, some v, hc, rfl⟩
    rw [List.all_eq_true] at hneg
    have h1 := hneg v hv
    simp only [decide_eq_true_eq] at h1
    obtain ⟨x, y, hxy⟩ := getCell_of_mem hrow hc
    have h2 := hnn x y v hxy
    omega

end Psld
